import Mathlib

/-!
Verification of the python bytecode assembler/disassembler
(`edgedb/lang/common/lang/python/code/__init__.py`): the `Code` class with
`to_code` (assembler), `from_code` (disassembler), `_calc_stack_size`
(stack-depth analysis) and `_calc_flags` (flags computation).

The embedding is shallow: Python lists become Lean lists, dicts become
association lists with shadowing inserts, `OrderedSet` becomes a list with
append-if-absent, exceptions become `Except CodeError`, and the recursive
`walk` of `_calc_stack_size` and the decoding loop of `from_code` are
totalized with an explicit fuel argument (the callers pass fuel strictly
larger than the recursion depth bound, so the out-of-fuel branch is
unreachable; it is a distinct error value so that no theorem can hold by
accident through it).
-/

namespace PyCode

/-- Operand category of an opcode, as carried by the per-opcode class
attributes `has_local`, `has_name`, `has_const`, `has_free`, `has_jrel`,
`has_jabs`, `has_arg` of the instruction catalog.  Exactly one category
applies to an opcode (`noneArg` for argument-less opcodes, `rawArg` for
plain numeric arguments). -/
inductive OpCat where
  | noneArg
  | localVar
  | nameVar
  | constVal
  | freeVar
  | jumpRel
  | jumpAbs
  | rawArg
  deriving DecidableEq, Repr

/-- Catalog entry for one opcode: its operand category and its static stack
effect (`op.stack_effect`). -/
structure OpSpec where
  cat : OpCat
  effect : Int
  deriving DecidableEq, Repr

/-- Modelled from the spec: the instruction catalog (the `opcodes` module of
the package, which is not under `src/`).  Per the spec it supplies, per
opcode identifier, the numeric id, operand category, stack effect, and the
markers for jump kind, extended-argument, yield, exception-setup and
iterate opcodes, plus the name-access set (`_OPTIMIZE_NEG_SET`) and the
free-variable access set (`FREE_OPS`).  Opcodes are identified by their
numeric code; `spec` is the `OPMAP` lookup (`none` for unknown bytes). -/
structure Catalog where
  spec : Nat → Option OpSpec
  extendedArg : Nat
  setupExcept : Nat
  setupFinally : Nat
  jumpAbsolute : Nat
  jumpForward : Nat
  forIter : Nat
  yieldValue : Nat
  optimizeNeg : List Nat
  freeOps : List Nat

/-- Constant value stored in a constant pool (`co_consts` entries). -/
inductive PyConst where
  | pyNone
  | str (s : String)
  | int (n : Int)
  deriving DecidableEq, Repr

/-- Resolved symbolic operand of an instruction: the `local` / `name` /
`const` / `cell` / `free` / `jrel` / `jabs` / `arg` attribute of an opcode
object.  Jump operands reference the target instruction by its identity
(`Instr.id`). -/
inductive PyArg where
  | noArg
  | localVar (s : String)
  | nameVar (s : String)
  | constVal (c : PyConst)
  | cellVar (s : String)
  | freeVar (s : String)
  | jumpRel (t : Nat)
  | jumpAbs (t : Nat)
  | rawArg (n : Nat)
  deriving DecidableEq, Repr

/-- One instruction: an opcode object.  `id` models Python object identity
(dict keys, `in` tests and `list.index` on opcode objects); `code` is the
opcode byte; `arg` is the symbolic operand; `lineno` the optional source
line annotation. -/
structure Instr where
  id : Nat
  code : Nat
  arg : PyArg
  lineno : Option Nat
  deriving DecidableEq, Repr

instance : Inhabited Instr := ⟨⟨0, 0, .noArg, none⟩⟩

/-- The structured code unit: the `Code` class. -/
structure Code where
  ops : List Instr
  vararg : Option String := none
  varkwarg : Option String := none
  newlocals : Bool := false
  filename : String := "<string>"
  firstlineno : Nat := 0
  name : String := "<code>"
  args : List String := []
  kwonlyargs : List String := []
  varnames : List String := []
  freevars : List String := []
  cellvars : List String := []
  docstring : Option String := none
  deriving DecidableEq, Repr

/-- The binary form: a `types.CodeType` object, with the fields in the
order of the `CodeType` constructor call in `to_code`. -/
structure PyCodeObj where
  argcount : Nat
  kwonlyargcount : Nat
  nlocals : Nat
  stacksize : Int
  flags : Nat
  code : List Nat
  consts : List PyConst
  names : List String
  varnames : List String
  filename : String
  name : String
  firstlineno : Nat
  lnotab : List Nat
  freevars : List String
  cellvars : List String
  deriving DecidableEq, Repr

/-- Failure modes of encoding and decoding.  Each constructor corresponds
to one distinct raise site / exception kind in the source:
`attributeError` for a missing opcode attribute (operand payload not
matching the opcode category), `offsetRangeExceeded` for the
`raise Exception('extended jumps are not currently supported')` in Stage 3
of `to_code`, `danglingJumpReference` for the `KeyError` of `addrs[jump[2]]`
when a jump targets an instruction that was never emitted,
`imbalancedStack` for the `assert depth >= 0` of `_calc_stack_size`,
`valueError` for `ops.index(jump)` on a missing target, `lnotabByteRange`
for a `bytearray` byte outside 0..255 (negative line increment),
`unknownOpcode` for the `OPMAP` `KeyError` in `from_code`, `truncated` for
reading operand bytes past the end of the byte stream, `indexError` for an
out-of-range pool index during decoding, `tableKeyError` for the decode
Stage 2 `table[...]` lookup failure, and `outOfFuel` for the unreachable
fuel-exhaustion branch of the totalized recursions. -/
inductive CodeError where
  | attributeError
  | offsetRangeExceeded
  | danglingJumpReference
  | imbalancedStack
  | valueError
  | lnotabByteRange
  | unknownOpcode
  | truncated
  | indexError
  | tableKeyError
  | outOfFuel
  deriving DecidableEq, Repr

instance {ε α : Type} [DecidableEq ε] [DecidableEq α] : DecidableEq (Except ε α) :=
  fun x y =>
    match x, y with
    | .ok a, .ok b =>
      if h : a = b then .isTrue (by rw [h])
      else .isFalse (by intro hc; cases hc; exact h rfl)
    | .error a, .error b =>
      if h : a = b then .isTrue (by rw [h])
      else .isFalse (by intro hc; cases hc; exact h rfl)
    | .ok _, .error _ => .isFalse (by intro hc; cases hc)
    | .error _, .ok _ => .isFalse (by intro hc; cases hc)

/-! ## OrderedSet and dictionary helpers -/

/-- `OrderedSet.add` / `append`: append the element if absent. -/
def osAdd [DecidableEq α] (l : List α) (x : α) : List α :=
  if x ∈ l then l else l ++ [x]

/-- `OrderedSet.extend`: add every element in order. -/
def osExtend [DecidableEq α] (l : List α) (xs : List α) : List α :=
  xs.foldl osAdd l

/-- Dictionary insert with shadowing (Python `d[k] = v`). -/
def dictInsert (m : List (Nat × Int)) (k : Nat) (v : Int) : List (Nat × Int) :=
  (k, v) :: m

/-- Dictionary lookup with default (Python `d.get(k, default)`). -/
def dictGetD (m : List (Nat × Int)) (k : Nat) (d : Int) : Int :=
  (m.lookup k).getD d

/-- Address-map insert with shadowing (Python `addrs[op] = addr`). -/
def addrInsert (m : List (Nat × Nat)) (k : Nat) (v : Nat) : List (Nat × Nat) :=
  (k, v) :: m

/-! ## Stack depth analysis (`Code._calc_stack_size`) -/

/-- Reading the jump operand of an instruction: `op.jrel` for a
`has_jrel` opcode, `op.jabs` for a `has_jabs` opcode (an `AttributeError`
if the operand payload does not match), `none` for non-jump opcodes. -/
def jumpOperand (sp : OpSpec) (a : PyArg) : Except CodeError (Option Nat) :=
  match sp.cat with
  | .jumpRel =>
    match a with
    | .jumpRel t => .ok (some t)
    | _ => .error .attributeError
  | .jumpAbs =>
    match a with
    | .jumpAbs t => .ok (some t)
    | _ => .error .attributeError
  | _ => .ok none

/-- Position of the instruction with identity `t` (`ops.index(jump)`),
first occurrence. -/
def idxOfId (ops : List Instr) (t : Nat) : Option Nat :=
  ops.findIdx? (fun o => o.id = t)

/-- The recursive `walk` of `_calc_stack_size`, with the mutable closure
state made explicit: `seen` is the active-path set (entries added before
the recursive calls and dropped on return, which the caller models by
passing the extended list only downward), `sd` is the persistent
`startdepths` dictionary threaded through and returned.  `fuel` totalizes
the recursion; every recursive call strictly grows `seen` by an identity
of an instruction in `ops`, so recursion depth is bounded by
`ops.length` and the callers pass `ops.length + 1`. -/
def walk (C : Catalog) (ops : List Instr) :
    Nat → Nat → Int → Int → List Nat → List (Nat × Int) →
    Except CodeError (Int × List (Nat × Int))
  | 0, _, _, _, _, _ => .error .outOfFuel
  | fuel + 1, idx, depth, maxd, seen, sd =>
    match ops[idx]? with
    | none => .ok (maxd, sd)
    | some op =>
      if op.id ∈ seen ∨ dictGetD sd op.id (-100000) ≥ depth then
        .ok (maxd, sd)
      else
        let seen' := op.id :: seen
        let sd' := dictInsert sd op.id depth
        match C.spec op.code with
        | none => .error .attributeError
        | some sp =>
          let depth1 := depth + sp.effect
          let maxd1 := if depth1 > maxd then depth1 else maxd
          if depth1 < 0 then .error .imbalancedStack
          else
            match jumpOperand sp op.arg with
            | .error e => .error e
            | .ok none => walk C ops fuel (idx + 1) depth1 maxd1 seen' sd'
            | .ok (some t) =>
              match idxOfId ops t with
              | none => .error .valueError
              | some j =>
                let isSetup := op.code = C.setupExcept ∨ op.code = C.setupFinally
                let td :=
                  if isSetup then depth1 + 3
                  else if op.code = C.forIter then depth1 - 2
                  else depth1
                let maxd2 := if isSetup ∧ td > maxd1 then td else maxd1
                match walk C ops fuel j td maxd2 seen' sd' with
                | .error e => .error e
                | .ok (m2, sd2) =>
                  if op.code = C.jumpAbsolute ∨ op.code = C.jumpForward then
                    .ok (m2, sd2)
                  else
                    walk C ops fuel (idx + 1) depth1 m2 seen' sd2

/-- `Code._calc_stack_size`: `walk(0, 0, 0)` on the instruction list. -/
def calcStackSize (C : Catalog) (ops : List Instr) : Except CodeError Int :=
  (walk C ops (ops.length + 1) 0 0 0 [] []).map (·.1)

/-- Identities of instructions not yet on the active path: the termination
measure of `walk` (each recursive call adds a fresh identity of a member
of `ops` to `seen`). -/
def remIds (ops : List Instr) (seen : List Nat) : Nat :=
  ((ops.map (·.id)).toFinset \ seen.toFinset).card

/-- Per-instruction well-formedness used by the stack-depth theorems: the
opcode is in the catalog, and a jump opcode carries a matching jump
operand whose target belongs to the sequence. -/
def wfOp (C : Catalog) (ops : List Instr) (op : Instr) : Bool :=
  match C.spec op.code with
  | none => false
  | some sp =>
    match sp.cat, op.arg with
    | .jumpRel, .jumpRel t => (idxOfId ops t).isSome
    | .jumpAbs, .jumpAbs t => (idxOfId ops t).isSome
    | .jumpRel, _ => false
    | .jumpAbs, _ => false
    | _, _ => true

/-- Instrumented total variant of `walk`, used only to state properties:
it follows exactly the same traversal, never aborts on a negative depth,
and instead returns (max depth, startdepths, flag) where the `Bool` flag
records whether the depth stayed non-negative after applying every visited
instruction's stack effect.  The branches that `walk` turns into errors
other than the imbalance (`AttributeError`, `ValueError`, unknown opcode)
return with the flag untouched; the theorems that relate the two exclude
those branches by hypothesis. -/
def walkInstr (C : Catalog) (ops : List Instr) :
    Nat → Nat → Int → Int → List Nat → List (Nat × Int) →
    Int × List (Nat × Int) × Bool
  | 0, _, _, maxd, _, sd => (maxd, sd, true)
  | fuel + 1, idx, depth, maxd, seen, sd =>
    match ops[idx]? with
    | none => (maxd, sd, true)
    | some op =>
      if op.id ∈ seen ∨ dictGetD sd op.id (-100000) ≥ depth then
        (maxd, sd, true)
      else
        let seen' := op.id :: seen
        let sd' := dictInsert sd op.id depth
        match C.spec op.code with
        | none => (maxd, sd, true)
        | some sp =>
          let depth1 := depth + sp.effect
          let maxd1 := if depth1 > maxd then depth1 else maxd
          let ok0 : Bool := decide (¬depth1 < 0)
          match jumpOperand sp op.arg with
          | .error _ => (maxd, sd, true)
          | .ok none =>
            let r := walkInstr C ops fuel (idx + 1) depth1 maxd1 seen' sd'
            (r.1, r.2.1, ok0 && r.2.2)
          | .ok (some t) =>
            match idxOfId ops t with
            | none => (maxd, sd, true)
            | some j =>
              let isSetup := op.code = C.setupExcept ∨ op.code = C.setupFinally
              let td :=
                if isSetup then depth1 + 3
                else if op.code = C.forIter then depth1 - 2
                else depth1
              let maxd2 := if isSetup ∧ td > maxd1 then td else maxd1
              let r1 := walkInstr C ops fuel j td maxd2 seen' sd'
              if op.code = C.jumpAbsolute ∨ op.code = C.jumpForward then
                (r1.1, r1.2.1, ok0 && r1.2.2)
              else
                let r2 := walkInstr C ops fuel (idx + 1) depth1 r1.1 seen' r1.2.1
                (r2.1, r2.2.1, ok0 && r1.2.2 && r2.2.2)

/-! ## Assembler (`Code.to_code`) -/

/-- The constant seeded into slot 0 of the constant pool: the unit's
docstring value (`None` when absent). -/
def docstringConst : Option String → PyConst
  | none => .pyNone
  | some s => .str s

/-- Python truthiness of the optional `vararg` / `varkwarg` name
(`if self.vararg:`): present and non-empty. -/
def truthyStr : Option String → Bool
  | some s => s ≠ ""
  | none => false

/-- The symbol pools built by Stage 1 of `to_code`. -/
structure Pools where
  varnames : List String
  names : List String
  cellvars : List String
  freevars : List String
  consts : List PyConst
  deriving DecidableEq, Repr

/-- The initial `co_varnames` pool: positional argument names, then
keyword-only argument names, then the vararg name if truthy, then the
varkwarg name if truthy, then the declared local variable names. -/
def coVarnamesInit (u : Code) : List String :=
  let v := osExtend [] u.args
  let v := osExtend v u.kwonlyargs
  let v := if truthyStr u.vararg then osAdd v (u.vararg.getD "") else v
  let v := if truthyStr u.varkwarg then osAdd v (u.varkwarg.getD "") else v
  osExtend v u.varnames

/-- `co_argcount`: the size of `co_varnames` right after the positional
argument names were added. -/
def coArgcount (u : Code) : Nat :=
  (osExtend ([] : List String) u.args).length

/-- Stage 1 of `to_code`, one instruction: feed the operand into the pool
selected by the opcode's category.  Reading a pool attribute that the
operand payload does not carry is an `AttributeError`. -/
def harvestOp (C : Catalog) (P : Pools) (op : Instr) : Except CodeError Pools :=
  let cat := match C.spec op.code with
    | some sp => sp.cat
    | none => OpCat.noneArg
  match cat with
  | .localVar =>
    match op.arg with
    | .localVar s => .ok { P with varnames := osAdd P.varnames s }
    | _ => .error .attributeError
  | .nameVar =>
    match op.arg with
    | .nameVar s => .ok { P with names := osAdd P.names s }
    | _ => .error .attributeError
  | .freeVar =>
    match op.arg with
    | .cellVar s => .ok { P with cellvars := osAdd P.cellvars s }
    | .freeVar s => .ok { P with freevars := osAdd P.freevars s }
    | _ => .error .attributeError
  | .constVal =>
    match op.arg with
    | .constVal c => .ok { P with consts := osAdd P.consts c }
    | _ => .error .attributeError
  | _ => .ok P

/-- Stage 1 of `to_code`: build the symbol pools, the constant pool seeded
with the docstring value. -/
def harvest (C : Catalog) (u : Code) : Except CodeError Pools :=
  u.ops.foldlM (harvestOp C)
    { varnames := coVarnamesInit u
      names := []
      cellvars := []
      freevars := []
      consts := [docstringConst u.docstring] }

/-- The operand symbol of an instruction is present in the matching
pool. -/
def symIn (C : Catalog) (P : Pools) (op : Instr) : Prop :=
  match C.spec op.code with
  | none => True
  | some sp =>
    match sp.cat, op.arg with
    | .localVar, .localVar s => s ∈ P.varnames
    | .nameVar, .nameVar s => s ∈ P.names
    | .freeVar, .cellVar s => s ∈ P.cellvars
    | .freeVar, .freeVar s => s ∈ P.freevars
    | .constVal, .constVal c => c ∈ P.consts
    | _, _ => True

/-- All five pools of `P` are contained in the corresponding pools of
`Q`, and `Q.varnames` extends `P.varnames` on the right. -/
def poolsMono (P Q : Pools) : Prop :=
  (∀ y ∈ P.varnames, y ∈ Q.varnames) ∧ (∀ y ∈ P.names, y ∈ Q.names) ∧
  (∀ y ∈ P.cellvars, y ∈ Q.cellvars) ∧ (∀ y ∈ P.freevars, y ∈ Q.freevars) ∧
  (∀ y ∈ P.consts, y ∈ Q.consts) ∧ (∃ e, Q.varnames = P.varnames ++ e)

/-- Argument byte emission of Stage 2: values above `0xFFFF` get the
extended-argument opcode and the two high bytes appended first (after the
instruction's own opcode byte, as the source does), then the two low bytes
little-endian. -/
def emitArg (C : Catalog) (arg : Nat) : List Nat :=
  if arg > 0xFFFF then
    [C.extendedArg, arg >>> 16 % 256, arg >>> 24 % 256, arg % 256, arg >>> 8 % 256]
  else
    [arg % 256, arg >>> 8 % 256]

/-- The `while inc_pos > 255` padding loop of the `co_lnotab` update:
emits `(255, 0)` entries until the positional delta fits a byte.  Fuel
totalizes the loop; callers pass the delta itself (each round removes
255 ≥ 1). -/
def padPos : Nat → Nat → List Nat × Nat
  | 0, n => ([], n)
  | fuel + 1, n =>
    if n > 255 then
      let (l, r) := padPos fuel (n - 255)
      (255 :: 0 :: l, r)
    else ([], n)

/-- The `while inc_line > 255` padding loop: emits `(inc_pos, 255)` then
zeroes the positional delta.  Fuel as in `padPos`. -/
def padLine : Nat → Nat → Int → List Nat × Nat × Int
  | 0, p, l => ([], p, l)
  | fuel + 1, p, l =>
    if l > 255 then
      let (es, p', l') := padLine fuel 0 (l - 255)
      (p :: 255 :: es, p', l')
    else ([], p, l)

/-- The `(255, 0)` entries emitted by `k` rounds of the positional
padding loop. -/
def padList : Nat → List Nat
  | 0 => []
  | k + 1 => 255 :: 0 :: padList k

/-- The entries emitted by `k` rounds of the line padding loop: the first
round carries the pending positional delta, later rounds carry zero. -/
def lineList : Nat → Nat → List Nat
  | _, 0 => []
  | p, k + 1 => p :: 255 :: lineList 0 k

/-- One `co_lnotab` update for an instruction carrying a line annotation:
the `(0, 0)` special case, then both padding loops, then the residual
entry.  A residual line delta outside a byte's range (in particular a
negative one, from a decreasing line annotation) fails like the
`bytearray` write does. -/
def emitLnotabEntry (incPos : Nat) (incLine : Int) : Except CodeError (List Nat) :=
  if incPos = 0 ∧ incLine = 0 then .ok [0, 0]
  else
    let (a, p1) := padPos incPos incPos
    let (b, p2, l2) := padLine incLine.toNat p1 incLine
    if p2 ≠ 0 ∨ l2 ≠ 0 then
      if 0 ≤ l2 ∧ l2 ≤ 255 ∧ p2 ≤ 255 then .ok (a ++ b ++ [p2, l2.toNat])
      else .error .lnotabByteRange
    else .ok (a ++ b)

/-- Mutable state of Stage 2 of `to_code`. -/
structure AsmState where
  code : List Nat
  addrs : List (Nat × Nat)
  jumps : List (Bool × Nat × Nat)
  lnotab : List Nat
  lastlineno : Nat
  lastlinepos : Nat
  deriving DecidableEq, Repr

/-- Stage 2 of `to_code`, one instruction: record the emission address,
update `co_lnotab`, resolve the operand to a pool index (jumps emit a zero
placeholder and are queued), and append the argument bytes. -/
def asmOp (C : Catalog) (P : Pools) (st : AsmState) (op : Instr) :
    Except CodeError AsmState := do
  let addr := st.code.length
  let code1 := st.code ++ [op.code]
  let addrs1 := addrInsert st.addrs op.id addr
  let (lnotab1, lastline1, lastpos1) ←
    match op.lineno with
    | none => Except.ok (st.lnotab, st.lastlineno, st.lastlinepos)
    | some line => do
      let e ← emitLnotabEntry (addr - st.lastlinepos) ((line : Int) - st.lastlineno)
      Except.ok (st.lnotab ++ e, line, addr)
  let cat := match C.spec op.code with
    | some sp => sp.cat
    | none => OpCat.noneArg
  let push (a : Nat) (jumps : List (Bool × Nat × Nat)) : AsmState :=
    { code := code1 ++ emitArg C a
      addrs := addrs1
      jumps
      lnotab := lnotab1
      lastlineno := lastline1
      lastlinepos := lastpos1 }
  match cat with
  | .noneArg =>
    .ok { code := code1, addrs := addrs1, jumps := st.jumps, lnotab := lnotab1,
          lastlineno := lastline1, lastlinepos := lastpos1 }
  | .localVar =>
    match op.arg with
    | .localVar s => .ok (push (P.varnames.indexOf s) st.jumps)
    | _ => .error .attributeError
  | .nameVar =>
    match op.arg with
    | .nameVar s => .ok (push (P.names.indexOf s) st.jumps)
    | _ => .error .attributeError
  | .freeVar =>
    match op.arg with
    | .cellVar s => .ok (push (P.cellvars.indexOf s) st.jumps)
    | .freeVar s => .ok (push (P.freevars.indexOf s + P.cellvars.length) st.jumps)
    | _ => .error .attributeError
  | .constVal =>
    match op.arg with
    | .constVal c => .ok (push (P.consts.indexOf c) st.jumps)
    | _ => .error .attributeError
  | .jumpRel =>
    match op.arg with
    | .jumpRel t => .ok (push 0 (st.jumps ++ [(true, addr, t)]))
    | _ => .error .attributeError
  | .jumpAbs =>
    match op.arg with
    | .jumpAbs t => .ok (push 0 (st.jumps ++ [(false, addr, t)]))
    | _ => .error .attributeError
  | .rawArg =>
    match op.arg with
    | .rawArg n => .ok (push n st.jumps)
    | _ => .error .attributeError

/-- Stage 2 of `to_code`: walk the instructions in order. -/
def stage2 (C : Catalog) (u : Code) (P : Pools) : Except CodeError AsmState :=
  u.ops.foldlM (asmOp C P)
    { code := [], addrs := [], jumps := [], lnotab := [],
      lastlineno := u.firstlineno, lastlinepos := 0 }

/-- Stage 3 of `to_code`, one queued jump `(isRel, addr, targetId)`: look
up the target's final address (`KeyError` means the jump dangles), for a
relative jump subtract `addr + 3`, fail if the value exceeds 16 bits, and
patch the two operand bytes little-endian (Python's `& 0xFF` and
`>> 8` on a possibly negative int, i.e. floor division and euclidean
remainders). -/
def patchJump (addrs : List (Nat × Nat)) (code : List Nat) :
    Bool × Nat × Nat → Except CodeError (List Nat)
  | (isRel, a, t) =>
    match addrs.lookup t with
    | none => .error .danglingJumpReference
    | some tgtAddr =>
      let tgt : Int := if isRel then (tgtAddr : Int) - ((a : Int) + 3) else (tgtAddr : Int)
      if tgt > 0xFFFF then .error .offsetRangeExceeded
      else
        .ok ((code.set (a + 1) (tgt % 256).toNat).set (a + 2)
          ((tgt.fdiv 256 % 256).toNat))

/-- Stage 3 of `to_code`: patch every queued jump in order. -/
def stage3 (addrs : List (Nat × Nat)) (jumps : List (Bool × Nat × Nat))
    (code : List Nat) : Except CodeError (List Nat) :=
  jumps.foldlM (patchJump addrs) code

/-- `Code._calc_flags`: derive the metadata flag bits from the set of
opcode classes present and the declared properties. -/
def calcFlags (C : Catalog) (u : Code) : Nat :=
  let opsSet := u.ops.map (·.code)
  let f := if (C.optimizeNeg.filter (· ∈ opsSet)).length = 0 then 1 else 0
  let f := if C.yieldValue ∈ opsSet then f ||| 32 else f
  let f := if (C.freeOps.filter (· ∈ opsSet)).length = 0 then f ||| 64 else f
  let f := if truthyStr u.vararg then f ||| 4 else f
  let f := if truthyStr u.varkwarg then f ||| 8 else f
  if u.newlocals then f ||| 2 else f

/-- `Code.to_code`: the assembler, Stages 1–4. -/
def to_code (C : Catalog) (u : Code) : Except CodeError PyCodeObj := do
  let P ← harvest C u
  let st ← stage2 C u P
  let code ← stage3 st.addrs st.jumps st.code
  let stacksize ← calcStackSize C u.ops
  .ok { argcount := coArgcount u
        kwonlyargcount := u.kwonlyargs.length
        nlocals := P.varnames.length
        stacksize
        flags := calcFlags C u
        code
        consts := P.consts
        names := P.names
        varnames := P.varnames
        filename := u.filename
        name := u.name
        firstlineno := u.firstlineno
        lnotab := st.lnotab
        freevars := P.freevars
        cellvars := P.cellvars }

/-! ## Disassembler (`Code.from_code`) -/

/-- The successive `(byte_increment, line_increment)` pairs of a
`co_lnotab` table (`zip(co_lnotab[0::2], co_lnotab[1::2])`; an odd
trailing byte is dropped, as `zip` truncates). -/
def lnotabPairs : List Nat → List (Nat × Nat)
  | b :: l :: rest => (b, l) :: lnotabPairs rest
  | _ => []

/-- One step of `dis.findlinestarts`: on a non-zero byte increment, yield
the pending `(addr, lineno)` if the line changed since the last yield and
advance the address; always accumulate the line increment. -/
def flsStep (s : Option Nat × Nat × Nat × List (Nat × Nat)) (e : Nat × Nat) :
    Option Nat × Nat × Nat × List (Nat × Nat) :=
  let (lastline, lineno, addr, out) := s
  if e.1 ≠ 0 then
    if some lineno ≠ lastline then
      (some lineno, lineno + e.2, addr + e.1, out ++ [(addr, lineno)])
    else
      (lastline, lineno + e.2, addr + e.1, out)
  else
    (lastline, lineno + e.2, addr, out)

/-- Modelled from the spec: `dis.findlinestarts` of the Python 3.2
standard library (an external collaborator of the disassembler, which
decodes the line-delta table into the byte-address-to-line mapping):
scan the `(byte_increment, line_increment)` pairs, yielding
`(address, line)` at every non-zero byte increment where the line changed,
and once more at the end if the final line was never yielded. -/
def findlinestarts (lnotab : List Nat) (firstlineno : Nat) : List (Nat × Nat) :=
  let r := (lnotabPairs lnotab).foldl flsStep (none, firstlineno, 0, [])
  if some r.2.1 ≠ r.1 then r.2.2.2 ++ [(r.2.2.1, r.2.1)] else r.2.2.2

/-- Mutable state of Stage 1 of `from_code`: the address-to-instruction
table, the decoded instruction list and the collected free/cell variable
sets.  A decoded instruction's identity is its byte address. -/
structure DecState where
  table : List (Nat × Nat)
  ops : List Instr
  freevars : List String
  cellvars : List String
  deriving DecidableEq, Repr

/-- Mapping a decoded operand value to symbolic form through the binary
form's pools (out-of-range pool indices are `IndexError`s); `freeVar`
operands disambiguate cell versus free by trying the cellvar pool first.
Returns the payload together with the updated free/cell sets. -/
def decodeOperand (co : PyCodeObj) (st : DecState) (cat : OpCat) (iAfter arg : Nat) :
    Except CodeError (PyArg × List String × List String) :=
  match cat with
  | .jumpRel => .ok (.jumpRel (iAfter + arg), st.freevars, st.cellvars)
  | .jumpAbs => .ok (.jumpAbs arg, st.freevars, st.cellvars)
  | .nameVar =>
    match co.names[arg]? with
    | some s => .ok (.nameVar s, st.freevars, st.cellvars)
    | none => .error .indexError
  | .localVar =>
    match co.varnames[arg]? with
    | some s => .ok (.localVar s, st.freevars, st.cellvars)
    | none => .error .indexError
  | .constVal =>
    match co.consts[arg]? with
    | some c => .ok (.constVal c, st.freevars, st.cellvars)
    | none => .error .indexError
  | .freeVar =>
    match co.cellvars[arg]? with
    | some c => .ok (.cellVar c, st.freevars, osAdd st.cellvars c)
    | none =>
      match co.freevars[arg - co.cellvars.length]? with
      | some f => .ok (.freeVar f, osAdd st.freevars f, st.cellvars)
      | none => .error .indexError
  | .rawArg => .ok (.rawArg arg, st.freevars, st.cellvars)
  | .noneArg => .ok (.noArg, st.freevars, st.cellvars)

/-- Stage 1 of `from_code`: the forward pass over the byte stream.  `ext`
is the running extended-argument accumulator: an extended-argument opcode
shifts its (accumulated) argument into the high bits and is dropped from
the output; as in the source, the accumulator is carried over unchanged
across every other instruction.  Fuel totalizes the loop; each round
advances `i` by at least one, and `from_code` passes
`co.code.length + 1`. -/
def decodeLoop (C : Catalog) (co : PyCodeObj) (lines : List (Nat × Nat)) :
    Nat → Nat → Nat → DecState → Except CodeError DecState
  | 0, _, _, _ => .error .outOfFuel
  | fuel + 1, i, ext, st =>
    if i < co.code.length then
      let b := co.code.getD i 0
      match C.spec b with
      | none => .error .unknownOpcode
      | some sp =>
        let lineno := lines.lookup i
        let table1 := st.table ++ [(i, i)]
        if sp.cat ≠ .noneArg then
          match co.code[i + 1]?, co.code[i + 2]? with
          | some lo, some hi =>
            let arg := lo + hi * 256 + ext
            if b = C.extendedArg then
              decodeLoop C co lines fuel (i + 3) (arg <<< 16) { st with table := table1 }
            else
              match decodeOperand co st sp.cat (i + 3) arg with
              | .error e => .error e
              | .ok (payload, free1, cell1) =>
                decodeLoop C co lines fuel (i + 3) ext
                  { table := table1
                    ops := st.ops ++ [⟨i, b, payload, lineno⟩]
                    freevars := free1
                    cellvars := cell1 }
          | _, _ => .error .truncated
        else
          decodeLoop C co lines fuel (i + 1) ext
            { st with table := table1, ops := st.ops ++ [⟨i, b, .noArg, lineno⟩] }
    else
      .ok st

/-- Stage 2 of `from_code`, one instruction: rewrite a jump operand's raw
byte address into a reference to the instruction decoded at that address
(`KeyError` when the address is not an instruction start). -/
def resolveJumpOp (C : Catalog) (table : List (Nat × Nat)) (op : Instr) :
    Except CodeError Instr :=
  let cat := match C.spec op.code with
    | some sp => sp.cat
    | none => OpCat.noneArg
  match cat, op.arg with
  | .jumpRel, .jumpRel a =>
    match table.lookup a with
    | some tid => .ok { op with arg := .jumpRel tid }
    | none => .error .tableKeyError
  | .jumpAbs, .jumpAbs a =>
    match table.lookup a with
    | some tid => .ok { op with arg := .jumpAbs tid }
    | none => .error .tableKeyError
  | .jumpRel, _ => .error .attributeError
  | .jumpAbs, _ => .error .attributeError
  | _, _ => .ok op

/-- Stage 2 of `from_code`: the rewrite over the whole instruction list. -/
def resolveDecodedJumps (C : Catalog) (table : List (Nat × Nat)) :
    List Instr → Except CodeError (List Instr)
  | [] => .ok []
  | op :: rest =>
    match resolveJumpOp C table op with
    | .error e => .error e
    | .ok op' =>
      match resolveDecodedJumps C table rest with
      | .error e => .error e
      | .ok rest' => .ok (op' :: rest')

/-- `Code.from_code`: the disassembler. -/
def from_code (C : Catalog) (co : PyCodeObj) : Except CodeError Code := do
  let lines := findlinestarts co.lnotab co.firstlineno
  let st ← decodeLoop C co lines (co.code.length + 1) 0 0 ⟨[], [], [], []⟩
  let ops ← resolveDecodedJumps C st.table st.ops
  let varnames := co.varnames
  let argcount := co.argcount
  let args := osExtend [] (varnames.take argcount)
  let kwonly := osExtend [] ((varnames.drop argcount).take co.kwonlyargcount)
  let argstop := argcount + co.kwonlyargcount
  let (vararg, argstop1) ←
    if co.flags &&& 4 ≠ 0 then
      match varnames[argstop]? with
      | some v => Except.ok (some v, argstop + 1)
      | none => Except.error CodeError.indexError
    else Except.ok (none, argstop)
  let (varkwarg, argstop2) ←
    if co.flags &&& 8 ≠ 0 then
      match varnames[argstop1]? with
      | some v => Except.ok (some v, argstop1 + 1)
      | none => Except.error CodeError.indexError
    else Except.ok (none, argstop1)
  let plainVars := osExtend [] (varnames.drop argstop2)
  let docstring := match co.consts with
    | .str s :: _ => some s
    | _ => none
  .ok { ops
        vararg
        varkwarg
        newlocals := co.flags &&& 2 != 0
        filename := co.filename
        firstlineno := co.firstlineno
        name := co.name
        args
        kwonlyargs := kwonly
        varnames := plainVars
        freevars := st.freevars
        cellvars := st.cellvars
        docstring }

/-! ## Reference descriptions of the emitted byte stream

Closed-form descriptions of the encoder's output on well-formed input,
used to relate `to_code` and `from_code` for the round-trip theorem. -/

/-- The operand category of an instruction's opcode (its `has_*` class
attributes), `noneArg` for opcodes unknown to the catalog. -/
def catOf (C : Catalog) (op : Instr) : OpCat :=
  match C.spec op.code with
  | some sp => sp.cat
  | none => OpCat.noneArg

/-- The resolved pool index / raw value of a non-jump operand. -/
def argValueNoJump (C : Catalog) (P : Pools) (op : Instr) : Nat :=
  match catOf C op, op.arg with
  | .localVar, .localVar s => P.varnames.indexOf s
  | .nameVar, .nameVar s => P.names.indexOf s
  | .freeVar, .cellVar s => P.cellvars.indexOf s
  | .freeVar, .freeVar s => P.freevars.indexOf s + P.cellvars.length
  | .constVal, .constVal c => P.consts.indexOf c
  | .rawArg, .rawArg n => n
  | _, _ => 0

/-- The bytes Stage 2 emits for one instruction (jumps carry the zero
placeholder). -/
def placeSeg (C : Catalog) (P : Pools) (op : Instr) : List Nat :=
  match catOf C op with
  | .noneArg => [op.code]
  | .jumpRel => op.code :: emitArg C 0
  | .jumpAbs => op.code :: emitArg C 0
  | _ => op.code :: emitArg C (argValueNoJump C P op)

/-- Emitted length of one instruction. -/
def segLen (C : Catalog) (P : Pools) (op : Instr) : Nat :=
  (placeSeg C P op).length

/-- Emission address of the instruction at position `k`. -/
def addrOf (C : Catalog) (P : Pools) (ops : List Instr) (k : Nat) : Nat :=
  (((ops.take k).map (segLen C P))).sum

/-- Stage-2 placeholder bytes of an instruction suffix. -/
def placeFrom (C : Catalog) (P : Pools) : List Instr → List Nat
  | [] => []
  | op :: rest => placeSeg C P op ++ placeFrom C P rest

/-- Queued jumps of an instruction suffix starting at address `a`. -/
def jumpsFrom (C : Catalog) (P : Pools) : List Instr → Nat → List (Bool × Nat × Nat)
  | [], _ => []
  | op :: rest, a =>
    (match catOf C op, op.arg with
      | .jumpRel, .jumpRel t => [(true, a, t)]
      | .jumpAbs, .jumpAbs t => [(false, a, t)]
      | _, _ => []) ++ jumpsFrom C P rest (a + segLen C P op)

/-- Address-map entries of a suffix, in processing order. -/
def addrsFrom (C : Catalog) (P : Pools) : List Instr → Nat → List (Nat × Nat)
  | [], _ => []
  | op :: rest, a => (op.id, a) :: addrsFrom C P rest (a + segLen C P op)

/-- The `(address, line)` annotations of a suffix starting at address
`a`. -/
def annotsFrom (C : Catalog) (P : Pools) : List Instr → Nat → List (Nat × Nat)
  | [], _ => []
  | op :: rest, a =>
    (match op.lineno with
      | some l => [(a, l)]
      | none => []) ++ annotsFrom C P rest (a + segLen C P op)

/-- The bytes of one `co_lnotab` update (the total value that
`emitLnotabEntry` returns when the line increment is non-negative). -/
def lnotabVal (incPos : Nat) (incLine : Int) : List Nat :=
  if incPos = 0 ∧ incLine = 0 then [0, 0]
  else
    let (a, p1) := padPos incPos incPos
    let (b, p2, l2) := padLine incLine.toNat p1 incLine
    if p2 ≠ 0 ∨ l2 ≠ 0 then a ++ b ++ [p2, l2.toNat] else a ++ b

/-- The whole `co_lnotab` of an annotation list, threaded through the
`(lastlineno, lastlinepos)` state. -/
def lnotabGo : List (Nat × Nat) → Nat → Nat → List Nat
  | [], _, _ => []
  | (a, l) :: rest, lastl, lastp =>
    lnotabVal (a - lastp) ((l : Int) - lastl) ++ lnotabGo rest l a

/-- Final `(lastlineno, lastlinepos)` after an annotation list. -/
def lastAnnot : List (Nat × Nat) → Nat → Nat → Nat × Nat
  | [], lastl, lastp => (lastl, lastp)
  | (a, l) :: rest, _, _ => lastAnnot rest l a

/-- Two-byte little-endian encoding of a 16-bit value. -/
def le2 (v : Nat) : List Nat := [v % 256, v / 256 % 256]

/-- The final (post-relocation) bytes of the instruction at position `k`. -/
def finalSeg (C : Catalog) (P : Pools) (ops : List Instr) (op : Instr) (k : Nat) :
    List Nat :=
  match catOf C op, op.arg with
  | .jumpRel, .jumpRel t =>
    op.code :: le2 (addrOf C P ops ((idxOfId ops t).getD 0) - (addrOf C P ops k + 3))
  | .jumpAbs, .jumpAbs t =>
    op.code :: le2 (addrOf C P ops ((idxOfId ops t).getD 0))
  | .noneArg, _ => [op.code]
  | _, _ => op.code :: emitArg C (argValueNoJump C P op)

/-- The final bytes of a suffix starting at position `k`. -/
def finalFrom (C : Catalog) (P : Pools) (ops : List Instr) : List Instr → Nat → List Nat
  | [], _ => []
  | op :: rest, k => finalSeg C P ops op k ++ finalFrom C P ops rest (k + 1)

/-- The symbolic operand the decoder reconstructs for an instruction: the
same symbol for pool operands, the target's final byte address for jumps
(which is also the identity of the decoded target instruction). -/
def decodedArg (C : Catalog) (P : Pools) (ops : List Instr) (op : Instr) : PyArg :=
  match catOf C op, op.arg with
  | .jumpRel, .jumpRel t => .jumpRel (addrOf C P ops ((idxOfId ops t).getD 0))
  | .jumpAbs, .jumpAbs t => .jumpAbs (addrOf C P ops ((idxOfId ops t).getD 0))
  | .noneArg, _ => .noArg
  | _, p => p

/-- The instruction list the decoder reconstructs (identities are byte
addresses; `lines` is the decoded line-start table). -/
def decodedFrom (C : Catalog) (P : Pools) (ops : List Instr)
    (lines : List (Nat × Nat)) : List Instr → Nat → List Instr
  | [], _ => []
  | op :: rest, k =>
    ⟨addrOf C P ops k, op.code, decodedArg C P ops op, lines.lookup (addrOf C P ops k)⟩ ::
      decodedFrom C P ops lines rest (k + 1)

/-- The decode-table entries of a suffix (every instruction start address,
mapped to itself). -/
def tableFrom (C : Catalog) (P : Pools) (ops : List Instr) : List Instr → Nat → List (Nat × Nat)
  | [], _ => []
  | _ :: rest, k => (addrOf C P ops k, addrOf C P ops k) :: tableFrom C P ops rest (k + 1)

/-! ## Well-formedness hypotheses of the round-trip theorem -/

/-- Encodable instruction: the opcode is in the catalog, is not the
extended-argument marker, and the operand payload matches the opcode's
category. -/
def wfEnc (C : Catalog) (op : Instr) : Bool :=
  match C.spec op.code with
  | none => false
  | some sp =>
    decide (op.code ≠ C.extendedArg) &&
    match sp.cat, op.arg with
    | .noneArg, .noArg => true
    | .localVar, .localVar _ => true
    | .nameVar, .nameVar _ => true
    | .constVal, .constVal _ => true
    | .freeVar, .cellVar _ => true
    | .freeVar, .freeVar _ => true
    | .jumpRel, .jumpRel _ => true
    | .jumpAbs, .jumpAbs _ => true
    | .rawArg, .rawArg _ => true
    | _, _ => false

/-- All pools small enough for plain 16-bit operands, and raw operands
within 16 bits. -/
def smallArgs (P : Pools) (ops : List Instr) : Bool :=
  decide (P.varnames.length ≤ 65536) && decide (P.names.length ≤ 65536) &&
  decide (P.consts.length ≤ 65536) &&
  decide (P.cellvars.length + P.freevars.length ≤ 65536) &&
  ops.all fun op =>
    match op.arg with
    | .rawArg n => decide (n ≤ 65535)
    | _ => true

/-- One jump operand's resolvability: the target is a member of the
sequence and the relocated 16-bit value is representable (non-negative
and at most `0xFFFF`). -/
def jumpOK1 (C : Catalog) (P : Pools) (ops : List Instr) (k : Nat) (op : Instr) : Bool :=
  match op.arg with
  | .jumpRel t =>
    match idxOfId ops t with
    | some m =>
      decide (addrOf C P ops k + 3 ≤ addrOf C P ops m) &&
      decide (addrOf C P ops m - (addrOf C P ops k + 3) ≤ 65535)
    | none => false
  | .jumpAbs t =>
    match idxOfId ops t with
    | some m => decide (addrOf C P ops m ≤ 65535)
    | none => false
  | _ => true

/-- Every jump resolves to a member of the sequence and its relocated
16-bit value is representable. -/
def jumpsOK (C : Catalog) (P : Pools) (ops : List Instr) : Bool :=
  (List.range ops.length).all fun k => jumpOK1 C P ops k (ops.getD k default)

/-- Strictly increasing chain test. -/
def chainLt : List Nat → Bool
  | [] => true
  | [_] => true
  | a :: b :: rest => decide (a < b) && chainLt (b :: rest)

/-- Line annotations suitable for exact round-tripping: the first
instruction is annotated with a line at or after `firstlineno`, and the
annotated lines strictly increase along the sequence. -/
def linesOK (F : Nat) (ops : List Instr) : Bool :=
  match ops with
  | [] => true
  | op0 :: _ =>
    (match op0.lineno with
      | some l0 => decide (F ≤ l0)
      | none => false) && chainLt (ops.filterMap (·.lineno))

/-- Optional parameter name as a list, when truthy. -/
def truthyList (o : Option String) : List String :=
  if truthyStr o then [o.getD ""] else []

/-- Annotation lines bounded below and non-decreasing (what the lnotab
encoder needs to succeed). -/
def annLe : List (Nat × Nat) → Nat → Prop
  | [], _ => True
  | (_, l) :: rest, L => L ≤ l ∧ annLe rest l

/-- Annotation addresses and lines strictly increasing from the given
bounds (what exact `findlinestarts` round-tripping needs). -/
def annStrict : List (Nat × Nat) → Nat → Nat → Prop
  | [], _, _ => True
  | (a, l) :: rest, a0, l0 => a0 < a ∧ l0 < l ∧ annStrict rest a l

/-- Position-normalized symbolic operand: like `PyArg`, but jump targets
are the target's position in the owning instruction sequence, so that
instruction identities (which decoding regenerates) do not matter. -/
inductive SymArg where
  | noArg
  | localVar (s : String)
  | nameVar (s : String)
  | constVal (c : PyConst)
  | cellVar (s : String)
  | freeVar (s : String)
  | jumpRel (pos : Nat)
  | jumpAbs (pos : Nat)
  | rawArg (n : Nat)
  deriving DecidableEq, Repr

/-- Position-normalized view of an instruction: opcode, symbolic operand
and line annotation. -/
structure ViewOp where
  code : Nat
  sym : SymArg
  lineno : Option Nat
  deriving DecidableEq, Repr

/-- Normalize one operand against the owning sequence (`none` if a jump
target is not a member). -/
def viewArg (all : List Instr) : PyArg → Option SymArg
  | .noArg => some .noArg
  | .localVar s => some (.localVar s)
  | .nameVar s => some (.nameVar s)
  | .constVal c => some (.constVal c)
  | .cellVar s => some (.cellVar s)
  | .freeVar s => some (.freeVar s)
  | .jumpRel t => (idxOfId all t).map SymArg.jumpRel
  | .jumpAbs t => (idxOfId all t).map SymArg.jumpAbs
  | .rawArg n => some (.rawArg n)

/-- Normalized view of a suffix of an instruction sequence. -/
def viewGo (all : List Instr) : List Instr → Option (List ViewOp)
  | [] => some []
  | op :: rest =>
    match viewArg all op.arg, viewGo all rest with
    | some sa, some vs => some (⟨op.code, sa, op.lineno⟩ :: vs)
    | _, _ => none

/-- Normalized view of an instruction sequence: opcodes, symbolic
operands with jump targets as positions, and line annotations. -/
def viewOps (ops : List Instr) : Option (List ViewOp) :=
  viewGo ops ops

/-! ## A concrete instruction catalog

A concrete instance of the external catalog, for witnesses and
counterexamples, using the CPython opcode numbering the package targets. -/

/-- Lookup table of the concrete catalog. -/
def pySpec : Nat → Option OpSpec
  | 1 => some ⟨.noneArg, -1⟩       -- POP_TOP
  | 4 => some ⟨.noneArg, 1⟩        -- DUP_TOP
  | 9 => some ⟨.noneArg, 0⟩        -- NOP
  | 83 => some ⟨.noneArg, -1⟩      -- RETURN_VALUE
  | 86 => some ⟨.noneArg, 0⟩       -- YIELD_VALUE
  | 90 => some ⟨.nameVar, -1⟩      -- STORE_NAME
  | 91 => some ⟨.nameVar, 0⟩       -- DELETE_NAME
  | 93 => some ⟨.jumpRel, 1⟩       -- FOR_ITER
  | 100 => some ⟨.constVal, 1⟩     -- LOAD_CONST
  | 101 => some ⟨.nameVar, 1⟩      -- LOAD_NAME
  | 110 => some ⟨.jumpRel, 0⟩      -- JUMP_FORWARD
  | 113 => some ⟨.jumpAbs, 0⟩      -- JUMP_ABSOLUTE
  | 114 => some ⟨.jumpAbs, -1⟩     -- POP_JUMP_IF_FALSE
  | 116 => some ⟨.nameVar, 1⟩      -- LOAD_GLOBAL
  | 121 => some ⟨.jumpRel, 0⟩      -- SETUP_EXCEPT
  | 122 => some ⟨.jumpRel, 0⟩      -- SETUP_FINALLY
  | 124 => some ⟨.localVar, 1⟩     -- LOAD_FAST
  | 125 => some ⟨.localVar, -1⟩    -- STORE_FAST
  | 132 => some ⟨.rawArg, 0⟩       -- MAKE_FUNCTION (raw numeric argument)
  | 135 => some ⟨.freeVar, 1⟩      -- LOAD_CLOSURE
  | 136 => some ⟨.freeVar, 1⟩      -- LOAD_DEREF
  | 137 => some ⟨.freeVar, -1⟩     -- STORE_DEREF
  | 144 => some ⟨.rawArg, 0⟩       -- EXTENDED_ARG
  | _ => none

/-- The concrete catalog instance. -/
def pyCatalog : Catalog where
  spec := pySpec
  extendedArg := 144
  setupExcept := 121
  setupFinally := 122
  jumpAbsolute := 113
  jumpForward := 110
  forIter := 93
  yieldValue := 86
  optimizeNeg := [101, 90, 91]
  freeOps := [135, 136, 137]

/-! ## Concrete inputs used by the claim theorems -/

/-- A byte stream with an extended-argument prefix (payload 1) followed by
two raw-argument instructions (`MAKE_FUNCTION 5`, `MAKE_FUNCTION 7`). -/
def c2Input : PyCodeObj where
  argcount := 0
  kwonlyargcount := 0
  nlocals := 0
  stacksize := 0
  flags := 0
  code := [144, 1, 0, 132, 5, 0, 132, 7, 0]
  consts := []
  names := []
  varnames := []
  filename := "f"
  name := "m"
  firstlineno := 1
  lnotab := []
  freevars := []
  cellvars := []

/-- A unit with a raw operand of `2 ^ 32`, beyond the 32 bits that the
single extended-argument level can carry. -/
def c4Unit : Code := { ops := [⟨0, 132, .rawArg 4294967296, none⟩] }

/-- The binary form the encoder actually produces for `c4Unit`: no error,
and the emitted bytes `[132, 144, 0, 0, 0, 0]` are identical to the ones
an operand of `0x100000000 - 0x100000000 = 0`... i.e. every bit at
position 32 and above has been masked away. -/
def c4Out : PyCodeObj where
  argcount := 0
  kwonlyargcount := 0
  nlocals := 0
  stacksize := 0
  flags := 65
  code := [132, 144, 0, 0, 0, 0]
  consts := [.pyNone]
  names := []
  varnames := []
  filename := "<string>"
  name := "<code>"
  firstlineno := 0
  lnotab := []
  freevars := []
  cellvars := []

/-- A balanced unit with a 16-bit-resolvable absolute jump and strictly
increasing line annotations, exercising the encode-decode round trip. -/
def c1Unit : Code :=
  { ops := [⟨10, 100, .constVal (.int 7), some 1⟩,
            ⟨11, 113, .jumpAbs 12, some 2⟩,
            ⟨12, 83, .noArg, some 3⟩]
    firstlineno := 1 }

/-- The pools `harvest` builds for `c1Unit`. -/
def c1Pools : Pools :=
  { varnames := [], names := [], cellvars := [], freevars := [],
    consts := [.pyNone, .int 7] }

/-- A unit with no jump instructions at all (so its jumps trivially fit in
16 bits) whose single instruction pops from an empty stack. -/
def c1BadUnit : Code := { ops := [⟨0, 1, .noArg, none⟩] }

/-- The binary form `to_code` produces on well-formed input (proved below):
pools from `harvest`, relocated bytes, the line-delta table of the
annotation list, and the derived metadata fields. -/
def encOut (C : Catalog) (u : Code) (P : Pools) (d : Int) : PyCodeObj :=
  { argcount := coArgcount u
    kwonlyargcount := u.kwonlyargs.length
    nlocals := P.varnames.length
    stacksize := d
    flags := calcFlags C u
    code := finalFrom C P u.ops u.ops 0
    consts := P.consts
    names := P.names
    varnames := P.varnames
    filename := u.filename
    name := u.name
    firstlineno := u.firstlineno
    lnotab := lnotabGo (annotsFrom C P u.ops 0) u.firstlineno 0
    freevars := P.freevars
    cellvars := P.cellvars }

/-! ## Sanity checks of the embedding -/

example :
    calcStackSize pyCatalog
      [⟨0, 100, .constVal (.int 1), none⟩, ⟨1, 100, .constVal (.int 2), none⟩,
       ⟨2, 83, .noArg, none⟩] = .ok 2 := by decide

example :
    calcStackSize pyCatalog [⟨0, 1, .noArg, none⟩] = .error .imbalancedStack := by
  decide

example :
    calcStackSize pyCatalog [⟨0, 113, .jumpAbs 0, none⟩] = .ok 0 := by decide

example :
    to_code pyCatalog
      { ops := [⟨0, 100, .constVal (.int 5), some 1⟩, ⟨1, 83, .noArg, none⟩],
        firstlineno := 1 } =
    .ok { argcount := 0, kwonlyargcount := 0, nlocals := 0, stacksize := 1,
          flags := 65, code := [100, 1, 0, 83],
          consts := [.pyNone, .int 5], names := [], varnames := [],
          filename := "<string>", name := "<code>", firstlineno := 1,
          lnotab := [0, 0], freevars := [], cellvars := [] } := by decide

example :
    (to_code pyCatalog
      { ops := [⟨0, 100, .constVal (.int 5), some 1⟩, ⟨1, 83, .noArg, none⟩],
        firstlineno := 1 }).bind (from_code pyCatalog) =
    .ok { ops := [⟨0, 100, .constVal (.int 5), some 1⟩, ⟨3, 83, .noArg, none⟩],
          firstlineno := 1 } := by decide

example :
    to_code pyCatalog
      { ops := [⟨0, 110, .jumpRel 1, none⟩, ⟨1, 9, .noArg, none⟩] } =
    .ok { argcount := 0, kwonlyargcount := 0, nlocals := 0, stacksize := 0,
          flags := 65, code := [110, 0, 0, 9],
          consts := [.pyNone], names := [], varnames := [],
          filename := "<string>", name := "<code>", firstlineno := 0,
          lnotab := [], freevars := [], cellvars := [] } := by decide

/-! ## Claim C2: the extended-argument accumulator is not reset -/

/-- C2: refuted on the code — the decoder carries the extended-argument
accumulator over unchanged after the first real instruction consumed it,
so it contributes to every later argument as well: decoding
`EXTENDED_ARG 1; MAKE_FUNCTION 5; MAKE_FUNCTION 7` gives the second
`MAKE_FUNCTION` operand `7 + 0x10000` instead of `7` (the claimed
consume-and-reset behaviour, which is what CPython and `dis` implement,
would reset the accumulator to zero after the first instruction). -/
theorem c2_extended_arg_not_reset :
    from_code pyCatalog c2Input =
      .ok { ops := [⟨3, 132, .rawArg 65541, none⟩, ⟨6, 132, .rawArg 65543, none⟩],
            filename := "f", firstlineno := 1, name := "m" } := by
  decide

/-! ## Claim C3: jump relocation -/

/-- C3: Stage 3 relocation (`stage3` folds `patchJump` over the queued
jumps): given the target's recorded final address `A`, a relative jump's
value is `A - (a + 3)` where `a` is the jump's own emission address, an
absolute jump's value is `A`; a value that fits 16 bits (in particular
`0xFFFF`) is patched into the two operand bytes little-endian, and a value
of `0x10000` or more fails with the offset-range error (there is no
extended-jump fallback path in the function). -/
theorem c3_relocation (addrs : List (Nat × Nat)) (code : List Nat) (isRel : Bool)
    (a t A : Nat) (hA : addrs.lookup t = some A) (v : Int)
    (hv : v = if isRel then (A : Int) - ((a : Int) + 3) else (A : Int)) :
    (0 ≤ v → v ≤ 0xFFFF →
      patchJump addrs code (isRel, a, t) =
        .ok ((code.set (a + 1) (v.toNat % 256)).set (a + 2) (v.toNat / 256 % 256))) ∧
    (0x10000 ≤ v → patchJump addrs code (isRel, a, t) = .error .offsetRangeExceeded) := by
  constructor
  · intro h0 h1
    obtain ⟨n, rfl⟩ : ∃ n : Nat, v = (n : Int) := ⟨v.toNat, (Int.toNat_of_nonneg h0).symm⟩
    simp only [patchJump, hA, ← hv]
    rw [if_neg (by omega)]
    have hfd : ((n : Int)).fdiv 256 = (n : Int) / 256 := Int.fdiv_eq_ediv _ (by omega)
    have e1 : (((n : Int)) % 256).toNat = ((n : Int)).toNat % 256 := by omega
    have e2 : (((n : Int)).fdiv 256 % 256).toNat = ((n : Int)).toNat / 256 % 256 := by
      rw [hfd]; omega
    rw [e1, e2]
  · intro h
    simp only [patchJump, hA, ← hv]
    rw [if_pos (by omega)]

/-- Witness for C3 at the offset boundary: a relative jump at address 0
whose target sits at final address 65538 resolves to `0xFFFF` and patches
successfully; with the target one byte further the value is `0x10000` and
relocation fails. -/
theorem c3_relocation_witness :
    patchJump [(7, 65538)] [113, 0, 0] (true, 0, 7) = .ok [113, 255, 255] ∧
    patchJump [(7, 65539)] [113, 0, 0] (true, 0, 7) = .error .offsetRangeExceeded := by
  constructor
  · exact ((c3_relocation [(7, 65538)] [113, 0, 0] true 0 7 65538 (by decide) 65535
      (by decide)).1 (by decide) (by decide)).trans (by decide)
  · exact (c3_relocation [(7, 65539)] [113, 0, 0] true 0 7 65539 (by decide) 65536
      (by decide)).2 (by decide)

/-! ## Claim C4: over-wide symbol indices are not rejected -/

/-- C4, counterexample: encoding a unit whose resolved operand is `2 ^ 32`
(exceeding the representable 32-bit width) succeeds instead of failing
with the offset-range error, and the emitted argument bytes are all zero:
the high bits were silently masked off by the `& 0xFF` writes. -/
theorem c4_counterexample : to_code pyCatalog c4Unit = .ok c4Out := by decide

/-- C4, amended: the encoder never fails on an over-wide operand value.
Any value above `0xFFFF` is emitted as the extended-argument opcode with
byte operands built by masking bits 16–23, 24–31, 0–7 and 8–15, so bits 32
and above are silently discarded: two operand values that differ by
`2 ^ 32` emit identical byte sequences. -/
theorem c4_amended (C : Catalog) (n : Nat) (h : 0xFFFF < n) :
    emitArg C n =
      [C.extendedArg, n >>> 16 % 256, n >>> 24 % 256, n % 256, n >>> 8 % 256] ∧
    emitArg C (n + 2 ^ 32) = emitArg C n := by
  have h2 : 0xFFFF < n + 2 ^ 32 := by omega
  have p32 : (2 : Nat) ^ 32 = 4294967296 := by norm_num
  have p16 : (2 : Nat) ^ 16 = 65536 := by norm_num
  have p24 : (2 : Nat) ^ 24 = 16777216 := by norm_num
  have p8 : (2 : Nat) ^ 8 = 256 := by norm_num
  have b1 : (n + 2 ^ 32) >>> 16 % 256 = n >>> 16 % 256 := by
    simp only [Nat.shiftRight_eq_div_pow, p32, p16]; omega
  have b2 : (n + 2 ^ 32) >>> 24 % 256 = n >>> 24 % 256 := by
    simp only [Nat.shiftRight_eq_div_pow, p32, p24]; omega
  have b3 : (n + 2 ^ 32) % 256 = n % 256 := by
    simp only [p32]; omega
  have b4 : (n + 2 ^ 32) >>> 8 % 256 = n >>> 8 % 256 := by
    simp only [Nat.shiftRight_eq_div_pow, p32, p8]; omega
  constructor
  · simp only [emitArg, if_pos h]
  · simp only [emitArg, if_pos h, if_pos h2, b1, b2, b3, b4]

/-- Witness for C4's amended claim: `0x10000` and `0x10000 + 2 ^ 32` emit
the same bytes. -/
theorem c4_amended_witness :
    emitArg pyCatalog (65536 + 2 ^ 32) = emitArg pyCatalog 65536 :=
  (c4_amended pyCatalog 65536 (by decide)).2

/-! ## Claims C6, C7, C8: the stack depth analysis -/

theorem remIds_cons_lt (ops : List Instr) (seen : List Nat) (x : Nat)
    (hx : x ∈ ops.map (·.id)) (hn : x ∉ seen) :
    remIds ops (x :: seen) < remIds ops seen := by
  unfold remIds
  apply Finset.card_lt_card
  rw [List.toFinset_cons]
  rw [Finset.ssubset_iff_of_subset
    (Finset.sdiff_subset_sdiff (Finset.Subset.refl _) (Finset.subset_insert _ _))]
  refine ⟨x, ?_, ?_⟩
  · simp only [Finset.mem_sdiff, List.mem_toFinset]
    exact ⟨hx, hn⟩
  · simp [Finset.mem_sdiff, Finset.mem_insert, List.mem_toFinset]

theorem remIds_le (ops : List Instr) (seen : List Nat) :
    remIds ops seen ≤ ops.length := by
  unfold remIds
  calc ((ops.map (·.id)).toFinset \ seen.toFinset).card
      ≤ (ops.map (·.id)).toFinset.card := Finset.card_le_card Finset.sdiff_subset
    _ ≤ (ops.map (·.id)).length := (ops.map (·.id)).toFinset_card_le
    _ = ops.length := List.length_map _ _

/-- Continuation shape shared by the jump branches of `walk` and
`walkInstr`: given that the recursive calls agree (induction hypotheses),
the error-propagating match of `walk` over the jump edge followed by the
conditional fall-through equals the flag-conjunction form of
`walkInstr`. -/
theorem walk_jump_cont (C : Catalog) (ops : List Instr) (f idx1 j : Nat)
    (depth1 td maxd2 : Int) (seen' : List Nat) (sd' : List (Nat × Int))
    (uncond : Prop) [Decidable uncond]
    (ihj : walk C ops f j td maxd2 seen' sd' =
      (if (walkInstr C ops f j td maxd2 seen' sd').2.2 = true
       then .ok ((walkInstr C ops f j td maxd2 seen' sd').1,
                 (walkInstr C ops f j td maxd2 seen' sd').2.1)
       else .error .imbalancedStack))
    (ihf : ∀ m sd2, walk C ops f idx1 depth1 m seen' sd2 =
      (if (walkInstr C ops f idx1 depth1 m seen' sd2).2.2 = true
       then .ok ((walkInstr C ops f idx1 depth1 m seen' sd2).1,
                 (walkInstr C ops f idx1 depth1 m seen' sd2).2.1)
       else .error .imbalancedStack)) :
    (if depth1 < 0 then (.error .imbalancedStack : Except CodeError (Int × List (Nat × Int)))
     else
       match walk C ops f j td maxd2 seen' sd' with
       | .error e => .error e
       | .ok (m2, sd2) =>
         if uncond then .ok (m2, sd2)
         else walk C ops f idx1 depth1 m2 seen' sd2) =
    (if (if uncond then
          ((walkInstr C ops f j td maxd2 seen' sd').1,
           (walkInstr C ops f j td maxd2 seen' sd').2.1,
           decide (¬depth1 < 0) && (walkInstr C ops f j td maxd2 seen' sd').2.2)
         else
          ((walkInstr C ops f idx1 depth1 (walkInstr C ops f j td maxd2 seen' sd').1
              seen' (walkInstr C ops f j td maxd2 seen' sd').2.1).1,
           (walkInstr C ops f idx1 depth1 (walkInstr C ops f j td maxd2 seen' sd').1
              seen' (walkInstr C ops f j td maxd2 seen' sd').2.1).2.1,
           decide (¬depth1 < 0) && (walkInstr C ops f j td maxd2 seen' sd').2.2 &&
             (walkInstr C ops f idx1 depth1 (walkInstr C ops f j td maxd2 seen' sd').1
                seen' (walkInstr C ops f j td maxd2 seen' sd').2.1).2.2)).2.2 = true
     then
       .ok ((if uncond then
              ((walkInstr C ops f j td maxd2 seen' sd').1,
               (walkInstr C ops f j td maxd2 seen' sd').2.1,
               decide (¬depth1 < 0) && (walkInstr C ops f j td maxd2 seen' sd').2.2)
             else
              ((walkInstr C ops f idx1 depth1 (walkInstr C ops f j td maxd2 seen' sd').1
                  seen' (walkInstr C ops f j td maxd2 seen' sd').2.1).1,
               (walkInstr C ops f idx1 depth1 (walkInstr C ops f j td maxd2 seen' sd').1
                  seen' (walkInstr C ops f j td maxd2 seen' sd').2.1).2.1,
               decide (¬depth1 < 0) && (walkInstr C ops f j td maxd2 seen' sd').2.2 &&
                 (walkInstr C ops f idx1 depth1 (walkInstr C ops f j td maxd2 seen' sd').1
                    seen' (walkInstr C ops f j td maxd2 seen' sd').2.1).2.2)).1,
            (if uncond then
              ((walkInstr C ops f j td maxd2 seen' sd').1,
               (walkInstr C ops f j td maxd2 seen' sd').2.1,
               decide (¬depth1 < 0) && (walkInstr C ops f j td maxd2 seen' sd').2.2)
             else
              ((walkInstr C ops f idx1 depth1 (walkInstr C ops f j td maxd2 seen' sd').1
                  seen' (walkInstr C ops f j td maxd2 seen' sd').2.1).1,
               (walkInstr C ops f idx1 depth1 (walkInstr C ops f j td maxd2 seen' sd').1
                  seen' (walkInstr C ops f j td maxd2 seen' sd').2.1).2.1,
               decide (¬depth1 < 0) && (walkInstr C ops f j td maxd2 seen' sd').2.2 &&
                 (walkInstr C ops f idx1 depth1 (walkInstr C ops f j td maxd2 seen' sd').1
                    seen' (walkInstr C ops f j td maxd2 seen' sd').2.1).2.2)).2.1)
     else .error .imbalancedStack) := by
  by_cases hneg : depth1 < 0
  · by_cases hu : uncond <;> simp [hneg, hu]
  · by_cases hu : uncond
    · rw [if_neg hneg, ihj]
      cases hb : (walkInstr C ops f j td maxd2 seen' sd').2.2 <;> simp [hneg, hu, hb]
    · rw [if_neg hneg, ihj]
      cases hb : (walkInstr C ops f j td maxd2 seen' sd').2.2
      · simp [hneg, hu, hb]
      · simp [hneg, hu, hb, ihf]

/-- The traversal of `_calc_stack_size` agrees with its instrumented total
variant: with enough fuel and well-formed instructions, `walk` returns the
imbalanced-stack error exactly when some visited instruction's exit depth
went negative, and the instrumented results otherwise. -/
theorem walk_eq_walkInstr (C : Catalog) (ops : List Instr)
    (hwf : ∀ op ∈ ops, wfOp C ops op = true) :
    ∀ fuel idx depth maxd seen sd, remIds ops seen < fuel →
      walk C ops fuel idx depth maxd seen sd =
        (if (walkInstr C ops fuel idx depth maxd seen sd).2.2 = true
         then .ok ((walkInstr C ops fuel idx depth maxd seen sd).1,
                   (walkInstr C ops fuel idx depth maxd seen sd).2.1)
         else .error .imbalancedStack) := by
  intro fuel
  induction fuel with
  | zero => intro idx depth maxd seen sd h; exact absurd h (Nat.not_lt_zero _)
  | succ f ih =>
    intro idx depth maxd seen sd hfuel
    cases hop : ops[idx]? with
    | none => simp [walk, walkInstr, hop]
    | some op =>
      have hmem : op ∈ ops := List.getElem?_mem hop
      have hwo := hwf op hmem
      by_cases hskip : op.id ∈ seen ∨ dictGetD sd op.id (-100000) ≥ depth
      · simp [walk, walkInstr, hop, hskip]
      · have hfresh : op.id ∉ seen := fun hc => hskip (Or.inl hc)
        have hlt : remIds ops (op.id :: seen) < f := by
          have h1 : op.id ∈ ops.map (·.id) := List.mem_map_of_mem _ hmem
          have := remIds_cons_lt ops seen op.id h1 hfresh
          omega
        simp only [walk, walkInstr, hop]
        rw [if_neg hskip, if_neg hskip]
        cases hsp : C.spec op.code with
        | none =>
          simp only [wfOp, hsp] at hwo
          exact absurd hwo (by decide)
        | some sp =>
          simp only [wfOp, hsp] at hwo
          simp only [hsp]
          cases hcat : sp.cat
          · -- noneArg
            simp only [jumpOperand, hcat]
            by_cases hneg : depth + sp.effect < 0
            · simp [hneg]
            · rw [if_neg hneg, ih _ _ _ _ _ hlt]
              simp [hneg]
          · -- localVar
            simp only [jumpOperand, hcat]
            by_cases hneg : depth + sp.effect < 0
            · simp [hneg]
            · rw [if_neg hneg, ih _ _ _ _ _ hlt]
              simp [hneg]
          · -- nameVar
            simp only [jumpOperand, hcat]
            by_cases hneg : depth + sp.effect < 0
            · simp [hneg]
            · rw [if_neg hneg, ih _ _ _ _ _ hlt]
              simp [hneg]
          · -- constVal
            simp only [jumpOperand, hcat]
            by_cases hneg : depth + sp.effect < 0
            · simp [hneg]
            · rw [if_neg hneg, ih _ _ _ _ _ hlt]
              simp [hneg]
          · -- freeVar
            simp only [jumpOperand, hcat]
            by_cases hneg : depth + sp.effect < 0
            · simp [hneg]
            · rw [if_neg hneg, ih _ _ _ _ _ hlt]
              simp [hneg]
          · -- jumpRel
            rw [hcat] at hwo
            cases harg : op.arg <;> rw [harg] at hwo <;>
              try exact absurd hwo Bool.false_ne_true
            rename_i t
            have hwo' : (idxOfId ops t).isSome = true := hwo
            obtain ⟨j, hj⟩ := Option.isSome_iff_exists.mp hwo'
            simp only [jumpOperand, hcat, harg, hj]
            exact walk_jump_cont C ops f (idx + 1) j _ _ _ _ _ _
              (ih _ _ _ _ _ hlt) (fun m sd2 => ih _ _ _ _ _ hlt)
          · -- jumpAbs
            rw [hcat] at hwo
            cases harg : op.arg <;> rw [harg] at hwo <;>
              try exact absurd hwo Bool.false_ne_true
            rename_i t
            have hwo' : (idxOfId ops t).isSome = true := hwo
            obtain ⟨j, hj⟩ := Option.isSome_iff_exists.mp hwo'
            simp only [jumpOperand, hcat, harg, hj]
            exact walk_jump_cont C ops f (idx + 1) j _ _ _ _ _ _
              (ih _ _ _ _ _ hlt) (fun m sd2 => ih _ _ _ _ _ hlt)
          · -- rawArg
            simp only [jumpOperand, hcat]
            by_cases hneg : depth + sp.effect < 0
            · simp [hneg]
            · rw [if_neg hneg, ih _ _ _ _ _ hlt]
              simp [hneg]

/-- C7: the analysis raises the imbalanced-stack error exactly when the
running depth goes negative after applying some traversed instruction's
stack effect, and otherwise completes without it.  The `Bool` component of
`walkInstr` is, by construction, the conjunction of `¬ depth < 0` over
every traversed instruction application (the same traversal without the
abort), so this equation states both directions of the claim: a negative
traversed depth forces `ImbalancedStackError`, and a well-balanced
sequence (flag `true`) yields the computed maximum without any error. -/
theorem c7_imbalance_iff_negative_depth (C : Catalog) (ops : List Instr)
    (hwf : ∀ op ∈ ops, wfOp C ops op = true) :
    calcStackSize C ops =
      (if (walkInstr C ops (ops.length + 1) 0 0 0 [] []).2.2 = true
       then .ok (walkInstr C ops (ops.length + 1) 0 0 0 [] []).1
       else .error .imbalancedStack) := by
  have h := walk_eq_walkInstr C ops hwf (ops.length + 1) 0 0 0 [] []
    (by have := remIds_le ops []; omega)
  unfold calcStackSize
  rw [h]
  cases hb : (walkInstr C ops (ops.length + 1) 0 0 0 [] []).2.2 <;>
    simp [hb, Except.map]

/-- Witness for C7: `LOAD_CONST; POP_TOP; POP_TOP` reaches depth `-1` at
the second `POP_TOP` and the analysis fails with the imbalanced-stack
error. -/
theorem c7_witness :
    calcStackSize pyCatalog
      [⟨0, 100, .constVal (.int 1), none⟩, ⟨1, 1, .noArg, none⟩,
       ⟨2, 1, .noArg, none⟩] = .error .imbalancedStack :=
  (c7_imbalance_iff_negative_depth pyCatalog
    [⟨0, 100, .constVal (.int 1), none⟩, ⟨1, 1, .noArg, none⟩,
     ⟨2, 1, .noArg, none⟩] (by decide)).trans (by decide)

/-- C6: at a fresh jump instruction with non-negative exit depth, the
recursive step of the analysis propagates, along the jump edge, the
fall-through exit depth plus 3 for an exception-handler-setup opcode
(also raising the tracked maximum to that value), the exit depth minus 2
for the iterate opcode, and the unchanged exit depth for every other jump
opcode — while the fall-through continuation always receives the
unchanged exit depth. -/
theorem c6_jump_edge_depths (C : Catalog) (ops : List Instr) (fuel idx : Nat)
    (depth maxd : Int) (seen : List Nat) (sd : List (Nat × Int))
    (op : Instr) (sp : OpSpec) (t j : Nat)
    (hop : ops[idx]? = some op)
    (hfresh : ¬(op.id ∈ seen ∨ dictGetD sd op.id (-100000) ≥ depth))
    (hsp : C.spec op.code = some sp)
    (hjump : jumpOperand sp op.arg = .ok (some t))
    (hj : idxOfId ops t = some j)
    (hnn : ¬(depth + sp.effect < 0)) :
    ((op.code = C.setupExcept ∨ op.code = C.setupFinally) →
      walk C ops (fuel + 1) idx depth maxd seen sd =
        (match walk C ops fuel j (depth + sp.effect + 3)
            (if depth + sp.effect + 3 >
                (if depth + sp.effect > maxd then depth + sp.effect else maxd) then
              depth + sp.effect + 3
             else if depth + sp.effect > maxd then depth + sp.effect else maxd)
            (op.id :: seen) (dictInsert sd op.id depth) with
         | .error e => .error e
         | .ok (m2, sd2) =>
           if op.code = C.jumpAbsolute ∨ op.code = C.jumpForward then .ok (m2, sd2)
           else walk C ops fuel (idx + 1) (depth + sp.effect) m2 (op.id :: seen) sd2)) ∧
    (¬(op.code = C.setupExcept ∨ op.code = C.setupFinally) → op.code = C.forIter →
      walk C ops (fuel + 1) idx depth maxd seen sd =
        (match walk C ops fuel j (depth + sp.effect - 2)
            (if depth + sp.effect > maxd then depth + sp.effect else maxd)
            (op.id :: seen) (dictInsert sd op.id depth) with
         | .error e => .error e
         | .ok (m2, sd2) =>
           if op.code = C.jumpAbsolute ∨ op.code = C.jumpForward then .ok (m2, sd2)
           else walk C ops fuel (idx + 1) (depth + sp.effect) m2 (op.id :: seen) sd2)) ∧
    (¬(op.code = C.setupExcept ∨ op.code = C.setupFinally) → op.code ≠ C.forIter →
      walk C ops (fuel + 1) idx depth maxd seen sd =
        (match walk C ops fuel j (depth + sp.effect)
            (if depth + sp.effect > maxd then depth + sp.effect else maxd)
            (op.id :: seen) (dictInsert sd op.id depth) with
         | .error e => .error e
         | .ok (m2, sd2) =>
           if op.code = C.jumpAbsolute ∨ op.code = C.jumpForward then .ok (m2, sd2)
           else walk C ops fuel (idx + 1) (depth + sp.effect) m2 (op.id :: seen) sd2)) := by
  refine ⟨?_, ?_, ?_⟩
  · intro hs
    simp only [walk, hop, hsp, hjump, hj]
    rw [if_neg hfresh, if_neg hnn]
    simp only [if_pos hs, eq_true hs, true_and, if_true]
  · intro hns hf
    simp only [walk, hop, hsp, hjump, hj]
    rw [if_neg hfresh, if_neg hnn]
    simp only [if_neg hns, if_pos hf, eq_false hns, false_and, if_false]
  · intro hns hf
    simp only [walk, hop, hsp, hjump, hj]
    rw [if_neg hfresh, if_neg hnn]
    simp only [if_neg hns, if_neg hf, eq_false hns, false_and, if_false]

/-- Witness for C6: a `SETUP_EXCEPT` targeting the following `NOP`
propagates depth 3 to its handler (max depth 3) while falling through at
depth 0. -/
theorem c6_witness :
    walk pyCatalog [⟨0, 121, .jumpRel 1, none⟩, ⟨1, 9, .noArg, none⟩]
      3 0 0 0 [] [] = .ok (3, [(1, 3), (0, 0)]) :=
  ((c6_jump_edge_depths pyCatalog
      [⟨0, 121, .jumpRel 1, none⟩, ⟨1, 9, .noArg, none⟩] 2 0 0 0 [] []
      ⟨0, 121, .jumpRel 1, none⟩ ⟨.jumpRel, 0⟩ 1 1
      (by decide) (by decide) (by decide) (by decide) (by decide) (by decide)).1
    (by decide)).trans (by decide)

/-- C8: the analysis terminates with a finite depth on a cyclic
instruction graph: for any catalog opcode that is an absolute jump with
stack effect `e ≥ 0` (and is none of the special-cased opcodes), the
one-instruction program that jumps to itself yields max depth `e` — the
re-visit of the instruction is cut off by the active-path `seen` set.
(Termination of the analysis itself is established once and for all by
the well-founded fuel bound of the Lean embedding: every recursive call
strictly shrinks the set of unvisited instruction identities.) -/
theorem c8_self_loop_finite (C : Catalog) (c : Nat) (e : Int)
    (hsp : C.spec c = some ⟨.jumpAbs, e⟩)
    (hns : c ≠ C.setupExcept) (hnf : c ≠ C.setupFinally) (hni : c ≠ C.forIter)
    (he : 0 ≤ e) :
    calcStackSize C [⟨0, c, .jumpAbs 0, none⟩] = .ok e := by
  unfold calcStackSize
  simp only [List.length_cons, List.length_nil, walk]
  simp [hsp, hns, hnf, hni, jumpOperand, idxOfId, dictGetD, dictInsert]
  rw [if_neg (by omega : ¬e < 0)]
  have hmax : (if 0 < e then e else 0) = e := by split <;> omega
  simp [Except.map, hmax]

/-- Witness for C8: `JUMP_ABSOLUTE` to itself analyses to depth 0. -/
theorem c8_witness :
    calcStackSize pyCatalog [⟨0, 113, .jumpAbs 0, none⟩] = .ok 0 :=
  c8_self_loop_finite pyCatalog 113 0 (by decide) (by decide) (by decide)
    (by decide) (by decide)

/-! ## Claims C9 and C10: decoder invariants -/

theorem decodeLoop_fuel_zero (C : Catalog) (co : PyCodeObj) (lines : List (Nat × Nat))
    (i ext : Nat) (st : DecState) :
    decodeLoop C co lines 0 i ext st = .error .outOfFuel := rfl

/-- Stage 1 of the decoder never appends an extended-argument opcode to
the instruction list, provided the catalog marks the extended-argument
opcode as argument-bearing (as `has_arg` does). -/
theorem decodeLoop_no_extArg (C : Catalog) (co : PyCodeObj) (lines : List (Nat × Nat))
    (hext : ∀ sp, C.spec C.extendedArg = some sp → sp.cat ≠ .noneArg) :
    ∀ fuel i ext st st', decodeLoop C co lines fuel i ext st = .ok st' →
      (∀ op ∈ st.ops, op.code ≠ C.extendedArg) →
      ∀ op ∈ st'.ops, op.code ≠ C.extendedArg := by
  intro fuel
  induction fuel with
  | zero =>
    intro i ext st st' h
    rw [decodeLoop_fuel_zero] at h
    cases h
  | succ f ih =>
    intro i ext st st' h hin
    simp only [decodeLoop] at h
    by_cases hlt : i < co.code.length
    · rw [if_pos hlt] at h
      cases hsp : C.spec (co.code.getD i 0) with
      | none => rw [hsp] at h; cases h
      | some sp =>
        rw [hsp] at h
        simp only at h
        by_cases hcat : sp.cat ≠ OpCat.noneArg
        · rw [if_pos hcat] at h
          cases h1 : co.code[i + 1]? with
          | none => rw [h1] at h; cases h2 : co.code[i + 2]? <;> rw [h2] at h <;> cases h
          | some lo =>
            rw [h1] at h
            cases h2 : co.code[i + 2]? with
            | none => rw [h2] at h; cases h
            | some hi =>
              rw [h2] at h
              simp only at h
              by_cases hb : co.code.getD i 0 = C.extendedArg
              · rw [if_pos hb] at h
                exact ih _ _ _ _ h hin
              · rw [if_neg hb] at h
                cases hdo : decodeOperand co st sp.cat (i + 3) (lo + hi * 256 + ext) with
                | error e => rw [hdo] at h; cases h
                | ok r =>
                  rw [hdo] at h
                  refine ih _ _ _ _ h ?_
                  intro op hmem
                  rcases List.mem_append.mp hmem with hold | hnew
                  · exact hin op hold
                  · rcases List.mem_singleton.mp hnew with rfl
                    exact hb
        · rw [if_neg hcat] at h
          refine ih _ _ _ _ h ?_
          intro op hmem
          rcases List.mem_append.mp hmem with hold | hnew
          · exact hin op hold
          · rcases List.mem_singleton.mp hnew with rfl
            intro hc
            have hcode : co.code.getD i 0 = C.extendedArg := hc
            rw [hcode] at hsp
            exact absurd (of_not_not hcat) (hext sp hsp)
    · rw [if_neg hlt] at h
      cases h
      exact hin

theorem osAdd_head {α : Type} [DecidableEq α] (l : List α) (x : α) (h : l ≠ []) :
    (osAdd l x).head? = l.head? ∧ osAdd l x ≠ [] := by
  unfold osAdd
  split
  · exact ⟨rfl, h⟩
  · cases l with
    | nil => exact absurd rfl h
    | cons a rest => exact ⟨rfl, by simp⟩

theorem harvestOp_consts (C : Catalog) (P : Pools) (op : Instr) (P' : Pools)
    (h : harvestOp C P op = .ok P') (hne : P.consts ≠ []) :
    P'.consts.head? = P.consts.head? ∧ P'.consts ≠ [] := by
  simp only [harvestOp] at h
  cases hcs : C.spec op.code with
  | none =>
    rw [hcs] at h
    simp only at h
    cases h
    exact ⟨rfl, hne⟩
  | some sp =>
    rw [hcs] at h
    simp only at h
    cases hcat : sp.cat <;> rw [hcat] at h <;> simp only at h
    · cases h; exact ⟨rfl, hne⟩
    · cases ha : op.arg <;> rw [ha] at h <;> cases h <;> exact ⟨rfl, hne⟩
    · cases ha : op.arg <;> rw [ha] at h <;> cases h <;> exact ⟨rfl, hne⟩
    · cases ha : op.arg <;> rw [ha] at h <;> cases h <;> exact osAdd_head _ _ hne
    · cases ha : op.arg <;> rw [ha] at h <;> cases h <;> exact ⟨rfl, hne⟩
    · cases h; exact ⟨rfl, hne⟩
    · cases h; exact ⟨rfl, hne⟩
    · cases h; exact ⟨rfl, hne⟩

theorem harvest_consts_head (C : Catalog) :
    ∀ (ops : List Instr) (P0 P : Pools), ops.foldlM (harvestOp C) P0 = .ok P →
      P0.consts ≠ [] → P.consts.head? = P0.consts.head? ∧ P.consts ≠ [] := by
  intro ops
  induction ops with
  | nil => intro P0 P h hne; cases h; exact ⟨rfl, hne⟩
  | cons op rest ih =>
    intro P0 P h hne
    rw [List.foldlM_cons] at h
    cases h1 : harvestOp C P0 op with
    | error e => rw [h1] at h; cases h
    | ok P1 =>
      rw [h1] at h
      simp only [Bind.bind, Except.bind] at h
      obtain ⟨he, hn⟩ := harvestOp_consts C P0 op P1 h1 hne
      obtain ⟨he2, hn2⟩ := ih P1 P h hn
      exact ⟨he2.trans he, hn2⟩

/-- Destructuring a successful `to_code` run into its stages. -/
theorem to_code_ok_fields (C : Catalog) (u : Code) (co' : PyCodeObj)
    (h : to_code C u = .ok co') :
    ∃ P st bytes ssize,
      harvest C u = .ok P ∧ stage2 C u P = .ok st ∧
      stage3 st.addrs st.jumps st.code = .ok bytes ∧
      calcStackSize C u.ops = .ok ssize ∧
      co' = { argcount := coArgcount u, kwonlyargcount := u.kwonlyargs.length,
              nlocals := P.varnames.length, stacksize := ssize,
              flags := calcFlags C u, code := bytes, consts := P.consts,
              names := P.names, varnames := P.varnames, filename := u.filename,
              name := u.name, firstlineno := u.firstlineno, lnotab := st.lnotab,
              freevars := P.freevars, cellvars := P.cellvars } := by
  unfold to_code at h
  cases h1 : harvest C u with
  | error e => rw [h1] at h; simp [Bind.bind, Except.bind] at h
  | ok P =>
    rw [h1] at h
    simp only [Bind.bind, Except.bind] at h
    cases h2 : stage2 C u P with
    | error e => rw [h2] at h; simp at h
    | ok st =>
      rw [h2] at h
      simp only at h
      cases h3 : stage3 st.addrs st.jumps st.code with
      | error e => rw [h3] at h; simp at h
      | ok bytes =>
        rw [h3] at h
        simp only at h
        cases h4 : calcStackSize C u.ops with
        | error e => rw [h4] at h; simp at h
        | ok ssize =>
          rw [h4] at h
          simp only at h
          cases h
          exact ⟨P, st, bytes, ssize, by simp [h1], by simp [h2], by simp [h3], by simp [h4], rfl⟩

theorem resolveJumpOp_code (C : Catalog) (table : List (Nat × Nat)) (op op' : Instr)
    (h : resolveJumpOp C table op = .ok op') : op'.code = op.code := by
  simp only [resolveJumpOp] at h
  split at h
  · split at h
    · cases h; rfl
    · cases h
  · split at h
    · cases h; rfl
    · cases h
  · cases h
  · cases h
  · cases h; rfl

theorem resolveDecodedJumps_codes (C : Catalog) (table : List (Nat × Nat)) :
    ∀ ops ops', resolveDecodedJumps C table ops = .ok ops' →
      ops'.map (·.code) = ops.map (·.code) := by
  intro ops
  induction ops with
  | nil => intro ops' h; cases h; rfl
  | cons op rest ih =>
    intro ops' h
    rw [resolveDecodedJumps] at h
    cases h1 : resolveJumpOp C table op with
    | error e => rw [h1] at h; cases h
    | ok op1 =>
      rw [h1] at h
      cases h2 : resolveDecodedJumps C table rest with
      | error e => rw [h2] at h; cases h
      | ok rest1 =>
        rw [h2] at h
        cases h
        simp only [List.map_cons]
        rw [resolveJumpOp_code C table op op1 h1, ih rest1 h2]

/-- Destructuring a successful `from_code` run: the decode loop and the
jump-resolution stage succeeded, the docstring is read off the first
constant-pool slot only when it is a string, and the scalar header fields
are passed through. -/
theorem from_code_ok_fields (C : Catalog) (co : PyCodeObj) (c : Code)
    (h : from_code C co = .ok c) :
    (∃ st, decodeLoop C co (findlinestarts co.lnotab co.firstlineno)
        (co.code.length + 1) 0 0 ⟨[], [], [], []⟩ = .ok st ∧
      resolveDecodedJumps C st.table st.ops = .ok c.ops ∧
      c.freevars = st.freevars ∧ c.cellvars = st.cellvars) ∧
    c.docstring = (match co.consts with
      | .str s :: _ => some s
      | _ => none) ∧
    c.filename = co.filename ∧ c.firstlineno = co.firstlineno ∧ c.name = co.name := by
  simp only [from_code] at h
  cases hdl : decodeLoop C co (findlinestarts co.lnotab co.firstlineno)
      (co.code.length + 1) 0 0 ⟨[], [], [], []⟩ with
  | error e => rw [hdl] at h; simp [Bind.bind, Except.bind] at h
  | ok st =>
    rw [hdl] at h
    simp only [Bind.bind, Except.bind] at h
    cases hrj : resolveDecodedJumps C st.table st.ops with
    | error e => rw [hrj] at h; simp at h
    | ok ops1 =>
      rw [hrj] at h
      simp only at h
      split at h
      · split at h
        · split at h
          · split at h
            · cases h
              exact ⟨⟨st, by simp [hdl], hrj, rfl, rfl⟩, rfl, rfl, rfl, rfl⟩
            · cases h
          · cases h
            exact ⟨⟨st, by simp [hdl], hrj, rfl, rfl⟩, rfl, rfl, rfl, rfl⟩
        · cases h
      · split at h
        · split at h
          · cases h
            exact ⟨⟨st, by simp [hdl], hrj, rfl, rfl⟩, rfl, rfl, rfl, rfl⟩
          · cases h
        · cases h
          exact ⟨⟨st, by simp [hdl], hrj, rfl, rfl⟩, rfl, rfl, rfl, rfl⟩

/-- C9: a decoded code unit never contains the extended-argument marker
opcode — the decoder folds every extended-argument pseudo-op into the
accumulator and omits it from the reconstructed instruction list
(hypothesis: the catalog marks the extended-argument opcode as
argument-bearing, which `has_arg` does). -/
theorem c9_decoded_no_extended_arg (C : Catalog) (co : PyCodeObj) (c : Code)
    (hext : ∀ sp, C.spec C.extendedArg = some sp → sp.cat ≠ .noneArg)
    (h : from_code C co = .ok c) :
    ∀ op ∈ c.ops, op.code ≠ C.extendedArg := by
  obtain ⟨⟨st, hdl, hrj, _, _⟩, _⟩ := from_code_ok_fields C co c h
  intro op hmem hc
  have hst : ∀ o ∈ st.ops, o.code ≠ C.extendedArg :=
    decodeLoop_no_extArg C co _ hext _ _ _ _ _ hdl (by intro o ho; cases ho)
  have hcodes := resolveDecodedJumps_codes C st.table st.ops c.ops hrj
  have : op.code ∈ c.ops.map (·.code) := List.mem_map_of_mem _ hmem
  rw [hcodes] at this
  obtain ⟨o, ho, hoc⟩ := List.mem_map.mp this
  exact hst o ho (by rw [hoc, hc])

/-- Witness for C9 at the `c2Input` stream (which starts with an
extended-argument opcode): the first decoded instruction is not the
extended-argument marker. -/
theorem c9_witness : (⟨3, 132, .rawArg 65541, none⟩ : Instr).code ≠ 144 :=
  c9_decoded_no_extended_arg pyCatalog c2Input
    { ops := [⟨3, 132, .rawArg 65541, none⟩, ⟨6, 132, .rawArg 65543, none⟩],
      filename := "f", firstlineno := 1, name := "m" }
    (by decide) (by decide) ⟨3, 132, .rawArg 65541, none⟩ (by decide)

/-- C10: docstring recovery is type-sensitive in exactly the claimed way:
a decoded unit's docstring is the first constant-pool entry precisely when
the pool is non-empty and that entry is a string (so a non-string slot 0 —
e.g. the `None` placeholder the encoder writes for an absent docstring —
decodes to no docstring), while the encoder always seeds slot 0 of the
constant pool with the unit's docstring value. -/
theorem c10_docstring_recovery (C : Catalog) (co : PyCodeObj) (c : Code)
    (u : Code) (co' : PyCodeObj) (s : String) :
    (from_code C co = .ok c →
      (c.docstring = some s ↔ co.consts.head? = some (.str s))) ∧
    (to_code C u = .ok co' →
      co'.consts.head? = some (docstringConst u.docstring)) := by
  constructor
  · intro h
    have hd := (from_code_ok_fields C co c h).2.1
    rw [hd]
    cases hcs : co.consts with
    | nil => simp
    | cons c0 rest =>
      cases c0 <;> simp
  · intro h
    obtain ⟨P, st, bytes, ssize, hP, _, _, _, rfl⟩ := to_code_ok_fields C u co' h
    have := harvest_consts_head C u.ops _ P hP (by simp [docstringConst])
    simpa using this.1

/-- Witness for C10: decoding a pool whose slot 0 holds the string "d"
yields that docstring, and encoding a unit with docstring "d" seeds the
constant pool with it. -/
theorem c10_witness :
    (({ ops := [⟨3, 132, .rawArg 65541, none⟩, ⟨6, 132, .rawArg 65543, none⟩],
        filename := "f", firstlineno := 1, name := "m",
        docstring := some "d" } : Code).docstring = some "d" ↔
      ({ c2Input with consts := [.str "d"] } : PyCodeObj).consts.head? =
        some (.str "d")) ∧
    ({ argcount := 0, kwonlyargcount := 0, nlocals := 0, stacksize := 0,
       flags := 65, code := [132, 144, 0, 0, 0, 0], consts := [.str "d"],
       names := [], varnames := [], filename := "<string>", name := "<code>",
       firstlineno := 0, lnotab := [], freevars := [],
       cellvars := [] } : PyCodeObj).consts.head? =
      some (docstringConst (some "d")) := by
  constructor
  · exact (c10_docstring_recovery pyCatalog { c2Input with consts := [.str "d"] }
      { ops := [⟨3, 132, .rawArg 65541, none⟩, ⟨6, 132, .rawArg 65543, none⟩],
        filename := "f", firstlineno := 1, name := "m", docstring := some "d" }
      { c4Unit with docstring := some "d" } c2Input "d").1 (by decide)
  · exact (c10_docstring_recovery pyCatalog { c2Input with consts := [.str "d"] }
      { ops := [⟨3, 132, .rawArg 65541, none⟩, ⟨6, 132, .rawArg 65543, none⟩],
        filename := "f", firstlineno := 1, name := "m", docstring := some "d" }
      { c4Unit with docstring := some "d" }
      { argcount := 0, kwonlyargcount := 0, nlocals := 0, stacksize := 0,
        flags := 65, code := [132, 144, 0, 0, 0, 0], consts := [.str "d"],
        names := [], varnames := [], filename := "<string>", name := "<code>",
        firstlineno := 0, lnotab := [], freevars := [], cellvars := [] } "d").2
      (by decide)

/-! ## Claim C5: dangling jump references -/

theorem lookup_eq_none_of_keys {β : Type} (m : List (Nat × β)) (t : Nat)
    (h : ∀ p ∈ m, p.1 ≠ t) : m.lookup t = none := by
  induction m with
  | nil => rfl
  | cons p rest ih =>
    obtain ⟨k, v⟩ := p
    have hk : k ≠ t := h (k, v) (List.mem_cons_self _ _)
    simp only [List.lookup]
    rw [show (t == k) = false from beq_eq_false_iff_ne.mpr (Ne.symm hk)]
    exact ih fun q hq => h q (List.mem_cons_of_mem _ hq)

/-- Shape of one Stage-2 step: the address map gains exactly the processed
instruction's identity at the current emission address, the jump queue
grows by at most one entry at the end, and a jump instruction's target is
queued at the current address. -/
theorem asmOp_shape (C : Catalog) (P : Pools) (st : AsmState) (op : Instr)
    (st' : AsmState) (h : asmOp C P st op = .ok st') :
    st'.addrs = (op.id, st.code.length) :: st.addrs ∧
    (∃ l, st'.jumps = st.jumps ++ l) ∧
    (∀ sp t, C.spec op.code = some sp →
      ((sp.cat = .jumpRel ∧ op.arg = .jumpRel t) ∨
       (sp.cat = .jumpAbs ∧ op.arg = .jumpAbs t)) →
      ∃ r a, (r, a, t) ∈ st'.jumps) := by
  simp only [asmOp, Bind.bind, Except.bind] at h
  cases hl : op.lineno with
  | none =>
    rw [hl] at h
    simp only at h
    cases hcs : C.spec op.code with
    | none =>
      rw [hcs] at h
      simp only at h
      cases h
      exact ⟨rfl, ⟨[], by simp⟩, fun sp t hsp => by cases hsp⟩
    | some sp0 =>
      rw [hcs] at h
      simp only at h
      cases hcat : sp0.cat <;> rw [hcat] at h <;> simp only at h
      · cases h
        refine ⟨rfl, ⟨[], by simp⟩, fun sp t hsp hj => ?_⟩
        cases hsp; rcases hj with ⟨hc, _⟩ | ⟨hc, _⟩ <;> rw [hcat] at hc <;> cases hc
      · cases ha : op.arg <;> rw [ha] at h <;> cases h <;>
          (refine ⟨rfl, ⟨[], by simp⟩, fun sp t hsp hj => ?_⟩;
           cases hsp; rcases hj with ⟨hc, _⟩ | ⟨hc, _⟩ <;> rw [hcat] at hc <;> cases hc)
      · cases ha : op.arg <;> rw [ha] at h <;> cases h <;>
          (refine ⟨rfl, ⟨[], by simp⟩, fun sp t hsp hj => ?_⟩;
           cases hsp; rcases hj with ⟨hc, _⟩ | ⟨hc, _⟩ <;> rw [hcat] at hc <;> cases hc)
      · cases ha : op.arg <;> rw [ha] at h <;> cases h <;>
          (refine ⟨rfl, ⟨[], by simp⟩, fun sp t hsp hj => ?_⟩;
           cases hsp; rcases hj with ⟨hc, _⟩ | ⟨hc, _⟩ <;> rw [hcat] at hc <;> cases hc)
      · cases ha : op.arg <;> rw [ha] at h <;> cases h <;>
          (refine ⟨rfl, ⟨[], by simp⟩, fun sp t hsp hj => ?_⟩;
           cases hsp; rcases hj with ⟨hc, _⟩ | ⟨hc, _⟩ <;> rw [hcat] at hc <;> cases hc)
      · cases ha : op.arg <;> rw [ha] at h <;> cases h <;>
          (refine ⟨rfl, ⟨[(true, st.code.length, _)], rfl⟩, fun sp t hsp hj => ?_⟩;
           cases hsp;
           rcases hj with ⟨_, hpa⟩ | ⟨hc, _⟩
           · cases hpa
             exact ⟨true, st.code.length, by simp⟩
           · rw [hcat] at hc; cases hc)
      · cases ha : op.arg <;> rw [ha] at h <;> cases h <;>
          (refine ⟨rfl, ⟨[(false, st.code.length, _)], rfl⟩, fun sp t hsp hj => ?_⟩;
           cases hsp;
           rcases hj with ⟨hc, _⟩ | ⟨_, hpa⟩
           · rw [hcat] at hc; cases hc
           · cases hpa
             exact ⟨false, st.code.length, by simp⟩)
      · cases ha : op.arg <;> rw [ha] at h <;> cases h <;>
          (refine ⟨rfl, ⟨[], by simp⟩, fun sp t hsp hj => ?_⟩;
           cases hsp; rcases hj with ⟨hc, _⟩ | ⟨hc, _⟩ <;> rw [hcat] at hc <;> cases hc)
  | some line =>
    rw [hl] at h
    simp only at h
    cases he : emitLnotabEntry (st.code.length - st.lastlinepos)
        ((line : Int) - st.lastlineno) with
    | error e => rw [he] at h; cases h
    | ok entry =>
      rw [he] at h
      simp only at h
      cases hcs : C.spec op.code with
      | none =>
        rw [hcs] at h
        simp only at h
        cases h
        exact ⟨rfl, ⟨[], by simp⟩, fun sp t hsp => by cases hsp⟩
      | some sp0 =>
        rw [hcs] at h
        simp only at h
        cases hcat : sp0.cat <;> rw [hcat] at h <;> simp only at h
        · cases h
          refine ⟨rfl, ⟨[], by simp⟩, fun sp t hsp hj => ?_⟩
          cases hsp; rcases hj with ⟨hc, _⟩ | ⟨hc, _⟩ <;> rw [hcat] at hc <;> cases hc
        · cases ha : op.arg <;> rw [ha] at h <;> cases h <;>
            (refine ⟨rfl, ⟨[], by simp⟩, fun sp t hsp hj => ?_⟩;
             cases hsp; rcases hj with ⟨hc, _⟩ | ⟨hc, _⟩ <;> rw [hcat] at hc <;> cases hc)
        · cases ha : op.arg <;> rw [ha] at h <;> cases h <;>
            (refine ⟨rfl, ⟨[], by simp⟩, fun sp t hsp hj => ?_⟩;
             cases hsp; rcases hj with ⟨hc, _⟩ | ⟨hc, _⟩ <;> rw [hcat] at hc <;> cases hc)
        · cases ha : op.arg <;> rw [ha] at h <;> cases h <;>
            (refine ⟨rfl, ⟨[], by simp⟩, fun sp t hsp hj => ?_⟩;
             cases hsp; rcases hj with ⟨hc, _⟩ | ⟨hc, _⟩ <;> rw [hcat] at hc <;> cases hc)
        · cases ha : op.arg <;> rw [ha] at h <;> cases h <;>
            (refine ⟨rfl, ⟨[], by simp⟩, fun sp t hsp hj => ?_⟩;
             cases hsp; rcases hj with ⟨hc, _⟩ | ⟨hc, _⟩ <;> rw [hcat] at hc <;> cases hc)
        · cases ha : op.arg <;> rw [ha] at h <;> cases h <;>
            (refine ⟨rfl, ⟨[(true, st.code.length, _)], rfl⟩, fun sp t hsp hj => ?_⟩;
             cases hsp;
             rcases hj with ⟨_, hpa⟩ | ⟨hc, _⟩
             · cases hpa
               exact ⟨true, st.code.length, by simp⟩
             · rw [hcat] at hc; cases hc)
        · cases ha : op.arg <;> rw [ha] at h <;> cases h <;>
            (refine ⟨rfl, ⟨[(false, st.code.length, _)], rfl⟩, fun sp t hsp hj => ?_⟩;
             cases hsp;
             rcases hj with ⟨hc, _⟩ | ⟨_, hpa⟩
             · rw [hcat] at hc; cases hc
             · cases hpa
               exact ⟨false, st.code.length, by simp⟩)
        · cases ha : op.arg <;> rw [ha] at h <;> cases h <;>
            (refine ⟨rfl, ⟨[], by simp⟩, fun sp t hsp hj => ?_⟩;
             cases hsp; rcases hj with ⟨hc, _⟩ | ⟨hc, _⟩ <;> rw [hcat] at hc <;> cases hc)

/-- Stage-2 fold invariants: queued jumps persist, every address-map key
is the identity of a processed instruction, and every jump instruction
gets queued. -/
theorem stage2_fold_jumps (C : Catalog) (P : Pools) :
    ∀ (ops : List Instr) (st0 st : AsmState),
      ops.foldlM (asmOp C P) st0 = .ok st →
      (∀ e ∈ st0.jumps, e ∈ st.jumps) ∧
      (∀ p ∈ st.addrs, p.1 ∈ ops.map (·.id) ∨ p ∈ st0.addrs) ∧
      (∀ op ∈ ops, ∀ sp t, C.spec op.code = some sp →
        ((sp.cat = .jumpRel ∧ op.arg = .jumpRel t) ∨
         (sp.cat = .jumpAbs ∧ op.arg = .jumpAbs t)) →
        ∃ r a, (r, a, t) ∈ st.jumps) := by
  intro ops
  induction ops with
  | nil =>
    intro st0 st h
    cases h
    exact ⟨fun e he => he, fun p hp => Or.inr hp, fun op hop => by cases hop⟩
  | cons op rest ih =>
    intro st0 st h
    rw [List.foldlM_cons] at h
    cases h1 : asmOp C P st0 op with
    | error e => rw [h1] at h; cases h
    | ok st1 =>
      rw [h1] at h
      simp only [Bind.bind, Except.bind] at h
      obtain ⟨haddr, ⟨l, hl⟩, hq⟩ := asmOp_shape C P st0 op st1 h1
      obtain ⟨hmono, hkeys, hrest⟩ := ih st1 st h
      refine ⟨?_, ?_, ?_⟩
      · intro e he
        exact hmono e (by rw [hl]; exact List.mem_append_left _ he)
      · intro p hp
        rcases hkeys p hp with hk | hk
        · exact Or.inl (List.mem_cons_of_mem _ hk)
        · rw [haddr] at hk
          rcases List.mem_cons.mp hk with rfl | hk2
          · exact Or.inl (List.mem_cons_self _ _)
          · exact Or.inr hk2
      · intro o ho sp t hsp hj
        rcases List.mem_cons.mp ho with rfl | ho2
        · obtain ⟨r, a, hin⟩ := hq sp t hsp hj
          exact ⟨r, a, hmono _ hin⟩
        · exact hrest o ho2 sp t hsp hj

/-- Stage 3 fails with the dangling-jump error whenever some queued jump's
target has no recorded address and every resolvable queued jump fits in 16
bits. -/
theorem stage3_dangling (addrs : List (Nat × Nat)) :
    ∀ (jumps : List (Bool × Nat × Nat)) (code : List Nat),
      (∃ e ∈ jumps, addrs.lookup e.2.2 = none) →
      (∀ e ∈ jumps, ∀ A, addrs.lookup e.2.2 = some A →
        (if e.1 then (A : Int) - ((e.2.1 : Int) + 3) else (A : Int)) ≤ 0xFFFF) →
      stage3 addrs jumps code = .error .danglingJumpReference := by
  intro jumps
  induction jumps with
  | nil => intro code hd; obtain ⟨e, he, _⟩ := hd; cases he
  | cons e0 rest ih =>
    intro code hd hr
    obtain ⟨r0, a0, t0⟩ := e0
    unfold stage3
    rw [List.foldlM_cons]
    cases hl : addrs.lookup t0 with
    | none =>
      have hp : patchJump addrs code (r0, a0, t0) = .error .danglingJumpReference := by
        simp [patchJump, hl]
      rw [hp]
      rfl
    | some A =>
      have hb := hr (r0, a0, t0) (List.mem_cons_self _ _) A hl
      have hp : patchJump addrs code (r0, a0, t0) =
          .ok ((code.set (a0 + 1)
              ((if r0 then (A : Int) - ((a0 : Int) + 3) else (A : Int)) % 256).toNat).set
            (a0 + 2)
              (((if r0 then (A : Int) - ((a0 : Int) + 3) else (A : Int)).fdiv 256 % 256).toNat)) := by
        simp only [patchJump, hl]
        rw [if_neg (by simp only at hb; omega)]
      rw [hp]
      simp only [Bind.bind, Except.bind]
      have hd' : ∃ e ∈ rest, addrs.lookup e.2.2 = none := by
        obtain ⟨e, he, hen⟩ := hd
        rcases List.mem_cons.mp he with rfl | he2
        · rw [hen] at hl; cases hl
        · exact ⟨e, he2, hen⟩
      exact ih _ hd' fun e he A' hA' => hr e (List.mem_cons_of_mem _ he) A' hA'

/-- C5: a code unit containing a jump whose operand references an
instruction outside its own instruction sequence fails to encode with the
dangling-jump error, producing no binary form.  (The pool-harvesting and
emission stages are assumed to succeed and the resolvable jumps to fit in
16 bits, so that no other error fires first: the relocation stage is where
the dangling reference is detected, via the failing address lookup.) -/
theorem c5_dangling_jump_fails (C : Catalog) (u : Code) (P : Pools) (st : AsmState)
    (hP : harvest C u = .ok P) (hst : stage2 C u P = .ok st)
    (hd : ∃ op ∈ u.ops, ∃ sp t, C.spec op.code = some sp ∧
      ((sp.cat = .jumpRel ∧ op.arg = .jumpRel t) ∨
       (sp.cat = .jumpAbs ∧ op.arg = .jumpAbs t)) ∧
      ¬t ∈ u.ops.map (·.id))
    (hr : ∀ e ∈ st.jumps, ∀ A, st.addrs.lookup e.2.2 = some A →
      (if e.1 then (A : Int) - ((e.2.1 : Int) + 3) else (A : Int)) ≤ 0xFFFF) :
    to_code C u = .error .danglingJumpReference := by
  have h3 : stage3 st.addrs st.jumps st.code = .error .danglingJumpReference := by
    obtain ⟨op, hmem, sp, t, hsp, hjp, hnt⟩ := hd
    unfold stage2 at hst
    obtain ⟨_, hkeys, hq⟩ := stage2_fold_jumps C P u.ops _ st hst
    obtain ⟨r, a, hin⟩ := hq op hmem sp t hsp hjp
    have hlook : st.addrs.lookup t = none := by
      refine lookup_eq_none_of_keys _ _ fun p hp hpt => ?_
      rcases hkeys p hp with hk | hk
      · rw [hpt] at hk; exact hnt hk
      · cases hk
    exact stage3_dangling st.addrs st.jumps st.code ⟨(r, a, t), hin, hlook⟩ hr
  unfold to_code
  rw [hP]
  simp only [Bind.bind, Except.bind]
  rw [hst]
  simp only
  rw [h3]

/-- Witness for C5: a lone absolute jump whose operand references identity
99, which is not in the sequence. -/
theorem c5_witness :
    to_code pyCatalog { ops := [⟨0, 113, .jumpAbs 99, none⟩] } =
      .error .danglingJumpReference :=
  c5_dangling_jump_fails pyCatalog { ops := [⟨0, 113, .jumpAbs 99, none⟩] }
    { varnames := [], names := [], cellvars := [], freevars := [],
      consts := [.pyNone] }
    { code := [113, 0, 0], addrs := [(0, 0)], jumps := [(false, 0, 99)],
      lnotab := [], lastlineno := 0, lastlinepos := 0 }
    (by decide) (by decide)
    ⟨⟨0, 113, .jumpAbs 99, none⟩, by decide, ⟨.jumpAbs, 0⟩, 99, by decide,
      Or.inr ⟨rfl, rfl⟩, by decide⟩
    (by decide)

/-! ## Claim C1: round trip.  Pool and harvest lemmas -/

theorem mem_osAdd {α : Type} [DecidableEq α] (l : List α) (x y : α) (h : y ∈ l) :
    y ∈ osAdd l x := by
  unfold osAdd
  split
  · exact h
  · exact List.mem_append_left _ h

theorem mem_osAdd_self {α : Type} [DecidableEq α] (l : List α) (x : α) :
    x ∈ osAdd l x := by
  unfold osAdd
  split
  · assumption
  · simp

theorem osAdd_prefix {α : Type} [DecidableEq α] (l : List α) (x : α) :
    ∃ e, osAdd l x = l ++ e := by
  unfold osAdd
  split
  · exact ⟨[], by simp⟩
  · exact ⟨[x], rfl⟩

theorem osExtend_cons {α : Type} [DecidableEq α] (l : List α) (x : α) (xs : List α) :
    osExtend l (x :: xs) = osExtend (osAdd l x) xs := rfl

theorem mem_osExtend {α : Type} [DecidableEq α] (xs : List α) :
    ∀ (l : List α) (y : α), y ∈ l → y ∈ osExtend l xs := by
  induction xs with
  | nil => intro l y h; exact h
  | cons x xs ih =>
    intro l y h
    rw [osExtend_cons]
    exact ih (osAdd l x) y (mem_osAdd l x y h)

theorem osExtend_prefix {α : Type} [DecidableEq α] (xs : List α) :
    ∀ (l : List α), ∃ e, osExtend l xs = l ++ e := by
  induction xs with
  | nil => intro l; exact ⟨[], by simp [osExtend]⟩
  | cons x xs ih =>
    intro l
    rw [osExtend_cons]
    obtain ⟨e1, he1⟩ := osAdd_prefix l x
    obtain ⟨e2, he2⟩ := ih (osAdd l x)
    exact ⟨e1 ++ e2, by rw [he2, he1, List.append_assoc]⟩

theorem osExtend_of_disjoint {α : Type} [DecidableEq α] (xs : List α) :
    ∀ (l : List α), xs.Nodup → (∀ x ∈ xs, x ∉ l) → osExtend l xs = l ++ xs := by
  induction xs with
  | nil => intro l _ _; simp [osExtend]
  | cons x xs ih =>
    intro l hnd hdis
    rw [osExtend_cons]
    have hx : x ∉ l := hdis x (List.mem_cons_self _ _)
    have hadd : osAdd l x = l ++ [x] := by unfold osAdd; rw [if_neg hx]
    rw [hadd]
    rw [ih (l ++ [x]) (List.Nodup.of_cons hnd) ?_]
    · simp
    · intro y hy hmem
      rcases List.mem_append.mp hmem with h1 | h2
      · exact hdis y (List.mem_cons_of_mem _ hy) h1
      · rcases List.mem_singleton.mp h2 with rfl
        exact (List.nodup_cons.mp hnd).1 hy

theorem harvestOp_mono (C : Catalog) (P : Pools) (op : Instr) (P' : Pools)
    (h : harvestOp C P op = .ok P') :
    (∀ y ∈ P.varnames, y ∈ P'.varnames) ∧ (∀ y ∈ P.names, y ∈ P'.names) ∧
    (∀ y ∈ P.cellvars, y ∈ P'.cellvars) ∧ (∀ y ∈ P.freevars, y ∈ P'.freevars) ∧
    (∀ y ∈ P.consts, y ∈ P'.consts) ∧
    (∃ e, P'.varnames = P.varnames ++ e) := by
  simp only [harvestOp] at h
  cases hcs : C.spec op.code with
  | none =>
    rw [hcs] at h; simp only at h; cases h
    exact ⟨fun y hy => hy, fun y hy => hy, fun y hy => hy, fun y hy => hy,
      fun y hy => hy, ⟨[], by simp⟩⟩
  | some sp =>
    rw [hcs] at h
    simp only at h
    cases hcat : sp.cat <;> rw [hcat] at h <;> simp only at h <;>
      first
      | (cases h
         exact ⟨fun y hy => hy, fun y hy => hy, fun y hy => hy, fun y hy => hy,
           fun y hy => hy, ⟨[], by simp⟩⟩)
      | (cases ha : op.arg <;> rw [ha] at h <;> cases h <;>
         refine ⟨?_, ?_, ?_, ?_, ?_, ?_⟩ <;>
         first
         | exact fun y hy => hy
         | exact fun y hy => mem_osAdd _ _ _ hy
         | exact osAdd_prefix _ _
         | exact ⟨[], by simp⟩)

/-! ### Extraction of the boolean well-formedness hypotheses -/

theorem findIdx_aux_spec (t : Nat) :
    ∀ (ops : List Instr) (i m : Nat),
      List.findIdx? (fun o => o.id = t) ops i = some m →
      ∃ k op, m = i + k ∧ ops[k]? = some op ∧ op.id = t := by
  intro ops
  induction ops with
  | nil => intro i m h; rw [List.findIdx?_nil] at h; cases h
  | cons op rest ih =>
    intro i m h
    rw [List.findIdx?_cons] at h
    by_cases hp : op.id = t
    · simp only [decide_eq_true hp, if_true] at h
      cases h
      exact ⟨0, op, by omega, by simp, hp⟩
    · simp only [decide_eq_false hp, if_false] at h
      obtain ⟨k, op2, hm, hk, hid⟩ := ih (i + 1) m h
      exact ⟨k + 1, op2, by omega, by simpa using hk, hid⟩

theorem idxOfId_spec (ops : List Instr) (t m : Nat) (h : idxOfId ops t = some m) :
    ∃ op, ops[m]? = some op ∧ op.id = t := by
  unfold idxOfId at h
  obtain ⟨k, op, hm, hk, hid⟩ := findIdx_aux_spec t ops 0 m h
  refine ⟨op, ?_, hid⟩
  rw [hm]
  simpa using hk

theorem idxOfId_lt (ops : List Instr) (t m : Nat) (h : idxOfId ops t = some m) :
    m < ops.length := by
  obtain ⟨op, hk, _⟩ := idxOfId_spec ops t m h
  exact (List.getElem?_eq_some.mp hk).1

theorem smallArgs_spec (P : Pools) (ops : List Instr) (h : smallArgs P ops = true) :
    P.varnames.length ≤ 65536 ∧ P.names.length ≤ 65536 ∧ P.consts.length ≤ 65536 ∧
    P.cellvars.length + P.freevars.length ≤ 65536 ∧
    ∀ op ∈ ops, ∀ n, op.arg = .rawArg n → n ≤ 65535 := by
  unfold smallArgs at h
  simp only [Bool.and_eq_true, decide_eq_true_eq, List.all_eq_true] at h
  obtain ⟨⟨⟨⟨h1, h2⟩, h3⟩, h4⟩, h5⟩ := h
  refine ⟨h1, h2, h3, h4, fun op hop n ha => ?_⟩
  have h6 := h5 op hop
  rw [ha] at h6
  simpa using h6

theorem jumpsOK_spec (C : Catalog) (P : Pools) (ops : List Instr)
    (h : jumpsOK C P ops = true) (k : Nat) (op : Instr) (hk : ops[k]? = some op) :
    (∀ t, op.arg = .jumpRel t →
      ∃ m, idxOfId ops t = some m ∧
        addrOf C P ops k + 3 ≤ addrOf C P ops m ∧
        addrOf C P ops m - (addrOf C P ops k + 3) ≤ 65535) ∧
    (∀ t, op.arg = .jumpAbs t →
      ∃ m, idxOfId ops t = some m ∧ addrOf C P ops m ≤ 65535) := by
  have hlt : k < ops.length := (List.getElem?_eq_some.mp hk).1
  unfold jumpsOK at h
  rw [List.all_eq_true] at h
  have h1 := h k (List.mem_range.mpr hlt)
  have hgd : ops.getD k default = op := by
    rw [List.getD_eq_getElem?_getD, hk]; rfl
  rw [hgd] at h1
  unfold jumpOK1 at h1
  constructor
  · intro t ht
    rw [ht] at h1
    simp only at h1
    cases hix : idxOfId ops t with
    | none => rw [hix] at h1; cases h1
    | some m =>
      rw [hix] at h1
      simp only [Bool.and_eq_true, decide_eq_true_eq] at h1
      exact ⟨m, rfl, h1.1, h1.2⟩
  · intro t ht
    rw [ht] at h1
    simp only at h1
    cases hix : idxOfId ops t with
    | none => rw [hix] at h1; cases h1
    | some m =>
      rw [hix] at h1
      simp only [decide_eq_true_eq] at h1
      exact ⟨m, rfl, h1⟩

theorem chainLt_cons_spec (a b : Nat) (l : List Nat)
    (h : chainLt (a :: b :: l) = true) : a < b ∧ chainLt (b :: l) = true := by
  unfold chainLt at h
  simp only [Bool.and_eq_true, decide_eq_true_eq] at h
  exact h

/-! ### Harvest completeness -/

theorem poolsMono_refl (P : Pools) : poolsMono P P :=
  ⟨fun _ hy => hy, fun _ hy => hy, fun _ hy => hy, fun _ hy => hy, fun _ hy => hy,
   ⟨[], by simp⟩⟩

theorem poolsMono_trans (P Q R : Pools) (h1 : poolsMono P Q) (h2 : poolsMono Q R) :
    poolsMono P R := by
  obtain ⟨a1, b1, c1, d1, e1, ⟨x1, hx1⟩⟩ := h1
  obtain ⟨a2, b2, c2, d2, e2, ⟨x2, hx2⟩⟩ := h2
  exact ⟨fun y hy => a2 y (a1 y hy), fun y hy => b2 y (b1 y hy),
    fun y hy => c2 y (c1 y hy), fun y hy => d2 y (d1 y hy),
    fun y hy => e2 y (e1 y hy),
    ⟨x1 ++ x2, by rw [hx2, hx1, List.append_assoc]⟩⟩

theorem symIn_mono (C : Catalog) (P Q : Pools) (op : Instr)
    (hm : poolsMono P Q) (h : symIn C P op) : symIn C Q op := by
  obtain ⟨a, b, c, d, e, _⟩ := hm
  unfold symIn at h ⊢
  cases hcs : C.spec op.code with
  | none => trivial
  | some sp =>
    rw [hcs] at h
    simp only at h ⊢
    cases hcat : sp.cat <;> (try rw [hcat] at h) <;>
      cases ha : op.arg <;> (try rw [ha] at h) <;> (try simp only at h ⊢) <;>
      first
      | exact a _ h
      | exact b _ h
      | exact c _ h
      | exact d _ h
      | exact e _ h
      | trivial

theorem harvestOp_poolsMono (C : Catalog) (P : Pools) (op : Instr) (Q : Pools)
    (h : harvestOp C P op = .ok Q) : poolsMono P Q :=
  harvestOp_mono C P op Q h

theorem harvestOp_symIn (C : Catalog) (P : Pools) (op : Instr) (Q : Pools)
    (h : harvestOp C P op = .ok Q) : symIn C Q op := by
  unfold symIn
  simp only [harvestOp] at h
  cases hcs : C.spec op.code with
  | none => exact trivial
  | some sp =>
    rw [hcs] at h
    simp only at h ⊢
    cases hcat : sp.cat <;> (try rw [hcat] at h) <;> (try simp only at h) <;>
      cases ha : op.arg <;> (try rw [ha] at h) <;> (try simp only at h ⊢) <;>
      first
      | (cases h; exact mem_osAdd_self _ _)
      | (cases h; trivial)
      | cases h

theorem harvest_fold (C : Catalog) :
    ∀ (ops : List Instr) (P0 P : Pools), ops.foldlM (harvestOp C) P0 = .ok P →
      poolsMono P0 P ∧ ∀ op ∈ ops, symIn C P op := by
  intro ops
  induction ops with
  | nil =>
    intro P0 P h
    cases h
    exact ⟨poolsMono_refl P0, fun op hop => by cases hop⟩
  | cons op rest ih =>
    intro P0 P h
    rw [List.foldlM_cons] at h
    cases h1 : harvestOp C P0 op with
    | error e => rw [h1] at h; simp only [Bind.bind, Except.bind] at h; cases h
    | ok P1 =>
      rw [h1] at h
      simp only [Bind.bind, Except.bind] at h
      obtain ⟨hmono2, hsymrest⟩ := ih P1 P h
      refine ⟨poolsMono_trans P0 P1 P (harvestOp_poolsMono C P0 op P1 h1) hmono2, ?_⟩
      intro o ho
      rcases List.mem_cons.mp ho with rfl | ho2
      · exact symIn_mono C P1 P o hmono2 (harvestOp_symIn C P0 o P1 h1)
      · exact hsymrest o ho2

theorem harvest_spec (C : Catalog) (u : Code) (P : Pools)
    (h : harvest C u = .ok P) :
    (∃ e, P.varnames = coVarnamesInit u ++ e) ∧
    docstringConst u.docstring ∈ P.consts ∧
    ∀ op ∈ u.ops, symIn C P op := by
  unfold harvest at h
  obtain ⟨hmono, hsym⟩ := harvest_fold C u.ops _ P h
  obtain ⟨a, b, c, d, e, ⟨x, hx⟩⟩ := hmono
  exact ⟨⟨x, hx⟩, e _ (List.mem_cons_self _ _), hsym⟩

/-! ### Addresses, segment lengths, byte-stream decomposition -/

theorem segLen_pos (C : Catalog) (P : Pools) (op : Instr) : 1 ≤ segLen C P op := by
  unfold segLen placeSeg
  cases catOf C op <;> simp

theorem addrOf_zero (C : Catalog) (P : Pools) (ops : List Instr) :
    addrOf C P ops 0 = 0 := rfl

theorem addrOf_succ (C : Catalog) (P : Pools) (ops : List Instr) (k : Nat) (op : Instr)
    (h : ops[k]? = some op) :
    addrOf C P ops (k + 1) = addrOf C P ops k + segLen C P op := by
  unfold addrOf
  rw [List.take_succ, h]
  simp

theorem addrOf_succ_ge (C : Catalog) (P : Pools) (ops : List Instr) (k : Nat) :
    addrOf C P ops k ≤ addrOf C P ops (k + 1) := by
  cases h : ops[k]? with
  | none =>
    have hlen : ops.length ≤ k := by
      by_contra hc
      rw [List.getElem?_eq_getElem (by omega)] at h
      cases h
    unfold addrOf
    rw [List.take_of_length_le hlen, List.take_of_length_le (by omega)]
  | some op => rw [addrOf_succ C P ops k op h]; omega

theorem addrOf_mono (C : Catalog) (P : Pools) (ops : List Instr) (j : Nat) :
    ∀ k, j ≤ k → addrOf C P ops j ≤ addrOf C P ops k := by
  intro k
  induction k with
  | zero =>
    intro h
    have : j = 0 := by omega
    subst this; exact Nat.le_refl _
  | succ n ih =>
    intro h
    rcases Nat.lt_or_ge j (n + 1) with h1 | h1
    · exact Nat.le_trans (ih (by omega)) (addrOf_succ_ge C P ops n)
    · have : j = n + 1 := by omega
      subst this; exact Nat.le_refl _

theorem addrOf_lt (C : Catalog) (P : Pools) (ops : List Instr) (j k : Nat)
    (hjk : j < k) (hj : j < ops.length) :
    addrOf C P ops j < addrOf C P ops k := by
  have h1 : addrOf C P ops (j + 1) = addrOf C P ops j + segLen C P (ops.get ⟨j, hj⟩) :=
    addrOf_succ C P ops j _ (by rw [List.getElem?_eq_getElem hj]; rfl)
  have h2 := segLen_pos C P (ops.get ⟨j, hj⟩)
  have h3 := addrOf_mono C P ops (j + 1) k hjk
  omega

theorem addrOf_inj (C : Catalog) (P : Pools) (ops : List Instr) (j k : Nat)
    (hj : j < ops.length) (hk : k < ops.length)
    (h : addrOf C P ops j = addrOf C P ops k) : j = k := by
  rcases Nat.lt_trichotomy j k with hc | hc | hc
  · exact absurd h (Nat.ne_of_lt (addrOf_lt C P ops j k hc hj))
  · exact hc
  · exact absurd h.symm (Nat.ne_of_lt (addrOf_lt C P ops k j hc hk))

theorem emitArg_small (C : Catalog) (v : Nat) (h : v ≤ 65535) :
    emitArg C v = [v % 256, v / 256 % 256] := by
  unfold emitArg
  rw [if_neg (by omega)]
  rw [Nat.shiftRight_eq_div_pow]

theorem finalSeg_length (C : Catalog) (P : Pools) (all : List Instr) (op : Instr) (k : Nat) :
    (finalSeg C P all op k).length = segLen C P op := by
  have h0 : emitArg C 0 = [0, 0] := by simp [emitArg]
  unfold finalSeg segLen placeSeg
  cases hc : catOf C op <;> cases ha : op.arg <;>
    simp [le2, h0, argValueNoJump, hc, ha]

theorem finalFrom_append (C : Catalog) (P : Pools) (all : List Instr) :
    ∀ (l1 l2 : List Instr) (j : Nat),
      finalFrom C P all (l1 ++ l2) j =
        finalFrom C P all l1 j ++ finalFrom C P all l2 (j + l1.length) := by
  intro l1
  induction l1 with
  | nil => intro l2 j; simp [finalFrom]
  | cons op rest ih =>
    intro l2 j
    have heq : j + 1 + rest.length = j + (rest.length + 1) := by omega
    simp only [List.cons_append, finalFrom, List.append_eq, ih l2 (j + 1), heq,
      List.append_assoc, List.length_cons]

theorem finalFrom_length (C : Catalog) (P : Pools) (all : List Instr) :
    ∀ (sfx : List Instr) (j : Nat),
      (finalFrom C P all sfx j).length = (sfx.map (segLen C P)).sum := by
  intro sfx
  induction sfx with
  | nil => intro j; rfl
  | cons op rest ih =>
    intro j
    simp only [finalFrom, List.length_append, List.map_cons, List.sum_cons,
      finalSeg_length, ih (j + 1)]

theorem placeFrom_length (C : Catalog) (P : Pools) :
    ∀ (sfx : List Instr), (placeFrom C P sfx).length = (sfx.map (segLen C P)).sum := by
  intro sfx
  induction sfx with
  | nil => rfl
  | cons op rest ih =>
    simp only [placeFrom, List.length_append, List.map_cons, List.sum_cons, ih]
    rfl

theorem finalFrom_decomp (C : Catalog) (P : Pools) (all : List Instr) (j : Nat)
    (h : j ≤ all.length) :
    finalFrom C P all all 0 =
      finalFrom C P all (all.take j) 0 ++ finalFrom C P all (all.drop j) j := by
  have := finalFrom_append C P all (all.take j) (all.drop j) 0
  rw [List.take_append_drop] at this
  simp only [Nat.zero_add, List.length_take_of_le h] at this
  exact this

theorem finalFrom_take_length (C : Catalog) (P : Pools) (all : List Instr) (j : Nat) :
    (finalFrom C P all (all.take j) 0).length = addrOf C P all j := by
  rw [finalFrom_length]; rfl

theorem getElem?_append_len {α : Type} (pre l : List α) (n : Nat) :
    (pre ++ l)[pre.length + n]? = l[n]? := by
  rw [List.getElem?_append_right (Nat.le_add_right _ _)]
  congr 1
  omega

theorem getElem?_append_len0 {α : Type} (pre l : List α) :
    (pre ++ l)[pre.length]? = l[0]? := by
  have h := getElem?_append_len pre l 0
  simpa using h

theorem set_append_len {α : Type} (pre : List α) :
    ∀ (l : List α) (i : Nat) (v : α),
      (pre ++ l).set (pre.length + i) v = pre ++ l.set i v := by
  induction pre with
  | nil => intro l i v; simp
  | cons x xs ih =>
    intro l i v
    simp only [List.cons_append, List.length_cons]
    have : xs.length + 1 + i = (xs.length + i) + 1 := by omega
    rw [this, List.set_cons_succ, ih]

/-! ### The `co_lnotab` padding loops and `findlinestarts` -/

theorem padPos_spec : ∀ (fuel n : Nat), n ≤ 255 * fuel + 255 →
    ∃ k r, padPos fuel n = (padList k, r) ∧ n = 255 * k + r ∧ r ≤ 255 ∧
      (k = 0 ∨ 1 ≤ r) := by
  intro fuel
  induction fuel with
  | zero =>
    intro n h
    exact ⟨0, n, rfl, by omega, by omega, Or.inl rfl⟩
  | succ f ih =>
    intro n h
    unfold padPos
    by_cases hn : n > 255
    · rw [if_pos hn]
      obtain ⟨k, r, hpad, hnr, hr, hkr⟩ := ih (n - 255) (by omega)
      rw [hpad]
      refine ⟨k + 1, r, rfl, by omega, hr, Or.inr ?_⟩
      rcases hkr with rfl | h1
      · omega
      · exact h1
    · rw [if_neg hn]
      exact ⟨0, n, rfl, by omega, by omega, Or.inl rfl⟩

theorem padLine_spec : ∀ (fuel : Nat) (p : Nat) (l : Int), 0 ≤ l →
    l ≤ 255 * (fuel : Int) + 255 →
    ∃ k r, padLine fuel p l = (lineList p k, (if k = 0 then p else 0), r) ∧
      l = 255 * k + r ∧ 0 ≤ r ∧ r ≤ 255 ∧ (k = 0 ∨ 1 ≤ r) := by
  intro fuel
  induction fuel with
  | zero =>
    intro p l h0 h
    exact ⟨0, l, rfl, by omega, h0, by omega, Or.inl rfl⟩
  | succ f ih =>
    intro p l h0 h
    unfold padLine
    by_cases hl : l > 255
    · rw [if_pos hl]
      obtain ⟨k, r, hpad, hlr, hr0, hr, hkr⟩ := ih 0 (l - 255) (by omega) (by push_cast; push_cast at h; omega)
      rw [hpad]
      have h2 : (if k = 0 then (0 : Nat) else 0) = 0 := by cases k <;> rfl
      rw [h2]
      refine ⟨k + 1, r, rfl, by omega, hr0, hr, Or.inr ?_⟩
      rcases hkr with rfl | h1
      · omega
      · exact h1
    · rw [if_neg hl]
      exact ⟨0, l, rfl, by omega, h0, by omega, Or.inl rfl⟩

theorem emitLnotab_ok (p : Nat) (d : Int) (hd : 0 ≤ d) :
    emitLnotabEntry p d = .ok (lnotabVal p d) := by
  unfold emitLnotabEntry lnotabVal
  by_cases h0 : p = 0 ∧ d = 0
  · rw [if_pos h0, if_pos h0]
  · rw [if_neg h0, if_neg h0]
    obtain ⟨k1, r1, hpad, hp, hr1, hk1⟩ := padPos_spec p p (by omega)
    obtain ⟨k2, r2, hline, hd2, hr20, hr2, hk2⟩ :=
      padLine_spec d.toNat r1 d hd (by omega)
    rw [hpad]
    simp only
    rw [hline]
    simp only
    by_cases hg : (if k2 = 0 then r1 else 0) ≠ 0 ∨ r2 ≠ 0
    · rw [if_pos hg, if_pos hg,
        if_pos (show 0 ≤ r2 ∧ r2 ≤ 255 ∧ (if k2 = 0 then r1 else 0) ≤ 255 from
          ⟨hr20, hr2, by by_cases hk : k2 = 0 <;> simp [hk] <;> omega⟩)]
    · rw [if_neg hg, if_neg hg]

theorem flsStep_yield (X : Option Nat) (L A : Nat) (out : List (Nat × Nat))
    (e : Nat × Nat) (he : e.1 ≠ 0) (hX : X ≠ some L) :
    flsStep (X, L, A, out) e = (some L, L + e.2, A + e.1, out ++ [(A, L)]) := by
  unfold flsStep
  simp only
  rw [if_pos he, if_pos (Ne.symm hX)]

theorem flsStep_no_yield (L A : Nat) (out : List (Nat × Nat))
    (e : Nat × Nat) (he : e.1 ≠ 0) :
    flsStep (some L, L, A, out) e = (some L, L + e.2, A + e.1, out) := by
  unfold flsStep
  simp only
  rw [if_pos he, if_neg (by simp)]

theorem flsStep_zero (X : Option Nat) (L A : Nat) (out : List (Nat × Nat))
    (e : Nat × Nat) (he : e.1 = 0) :
    flsStep (X, L, A, out) e = (X, L + e.2, A, out) := by
  unfold flsStep
  simp only
  rw [if_neg (by simp [he])]

theorem fls_R1 : ∀ (k L A : Nat) (out : List (Nat × Nat)),
    List.foldl flsStep ((some L : Option Nat), L, A, out)
      (List.replicate k ((255 : Nat), (0 : Nat))) =
    (some L, L, A + 255 * k, out) := by
  intro k
  induction k with
  | zero => intro L A out; simp
  | succ n ih =>
    intro L A out
    rw [List.replicate_succ, List.foldl_cons, flsStep_no_yield _ _ _ _ (by simp)]
    simp only [Nat.add_zero]
    rw [ih L (A + 255) out]
    have h1 : A + 255 + 255 * n = A + 255 * (n + 1) := by ring
    rw [h1]

theorem fls_R2 : ∀ (k : Nat) (X : Option Nat) (L A : Nat) (out : List (Nat × Nat)),
    List.foldl flsStep (X, L, A, out) (List.replicate k ((0 : Nat), (255 : Nat))) =
    (X, L + 255 * k, A, out) := by
  intro k
  induction k with
  | zero => intro X L A out; simp
  | succ n ih =>
    intro X L A out
    rw [List.replicate_succ, List.foldl_cons, flsStep_zero _ _ _ _ _ rfl]
    rw [ih X (L + 255) A out]
    have h1 : L + 255 + 255 * n = L + 255 * (n + 1) := by ring
    rw [h1]

theorem lnotabPairs_padList : ∀ (k : Nat) (rest : List Nat),
    lnotabPairs (padList k ++ rest) =
      List.replicate k ((255 : Nat), (0 : Nat)) ++ lnotabPairs rest := by
  intro k
  induction k with
  | zero => intro rest; simp [padList]
  | succ n ih =>
    intro rest
    simp only [padList, List.cons_append, lnotabPairs, List.append_eq, ih,
      List.replicate_succ]

theorem lnotabPairs_lineList0 : ∀ (k : Nat) (rest : List Nat),
    lnotabPairs (lineList 0 k ++ rest) =
      List.replicate k ((0 : Nat), (255 : Nat)) ++ lnotabPairs rest := by
  intro k
  induction k with
  | zero => intro rest; simp [lineList]
  | succ n ih =>
    intro rest
    simp only [lineList, List.cons_append, lnotabPairs, List.append_eq, ih,
      List.replicate_succ]

theorem lnotabPairs_lineList (p k : Nat) (rest : List Nat) :
    lnotabPairs (lineList p (k + 1) ++ rest) =
      (p, 255) :: (List.replicate k ((0 : Nat), (255 : Nat)) ++ lnotabPairs rest) := by
  show lnotabPairs (p :: 255 :: (lineList 0 k ++ rest)) = _
  simp only [lnotabPairs, lnotabPairs_lineList0]

theorem padList_length : ∀ k : Nat, (padList k).length = 2 * k := by
  intro k
  induction k with
  | zero => rfl
  | succ n ih => simp only [padList, List.length_cons, ih]; omega

theorem lineList_length : ∀ (k p : Nat), (lineList p k).length = 2 * k := by
  intro k
  induction k with
  | zero => intro p; rfl
  | succ n ih => intro p; simp only [lineList, List.length_cons, ih]; omega

theorem lnotabVal_even (p : Nat) (d : Int) (hd : 0 ≤ d) :
    (lnotabVal p d).length % 2 = 0 := by
  unfold lnotabVal
  by_cases h0 : p = 0 ∧ d = 0
  · rw [if_pos h0]; rfl
  · rw [if_neg h0]
    obtain ⟨k1, r1, hpad, hpe, hr1, hk1⟩ := padPos_spec p p (by omega)
    obtain ⟨k2, r2, hline, hd2, hr20, hr2, hk2⟩ :=
      padLine_spec d.toNat r1 d hd (by omega)
    rw [hpad]
    simp only
    rw [hline]
    simp only
    by_cases hg : (if k2 = 0 then r1 else 0) ≠ 0 ∨ r2 ≠ 0
    · rw [if_pos hg]
      simp only [List.length_append, padList_length, lineList_length,
        List.length_cons, List.length_nil]
      omega
    · rw [if_neg hg]
      simp only [List.length_append, padList_length, lineList_length]
      omega

theorem lnotabPairs_append :
    ∀ (xs : List Nat), xs.length % 2 = 0 → ∀ (ys : List Nat),
      lnotabPairs (xs ++ ys) = lnotabPairs xs ++ lnotabPairs ys
  | [], _, ys => rfl
  | [x], h, ys => by simp at h
  | x :: y :: rest, h, ys => by
    simp only [List.cons_append, lnotabPairs, List.append_eq]
    rw [lnotabPairs_append rest (by simp only [List.length_cons] at h; omega) ys]

theorem fls_block0 (d : Int) (hd : 0 ≤ d) (X : Option Nat) (L A : Nat)
    (out : List (Nat × Nat)) :
    List.foldl flsStep (X, L, A, out) (lnotabPairs (lnotabVal 0 d)) =
      (X, L + d.toNat, A, out) := by
  unfold lnotabVal
  by_cases h0 : (0 : Nat) = 0 ∧ d = 0
  · rw [if_pos h0]
    obtain ⟨-, rfl⟩ := h0
    simp only [lnotabPairs, List.foldl_cons, List.foldl_nil,
      flsStep_zero X L A out (0, 0) rfl]
    rfl
  · rw [if_neg h0]
    have hd1 : 1 ≤ d := by
      simp only [true_and] at h0
      omega
    obtain ⟨k2, r2, hline, hd2, hr20, hr2, hk2⟩ :=
      padLine_spec d.toNat 0 d hd (by omega)
    show List.foldl flsStep (X, L, A, out)
      (lnotabPairs
        (match padPos 0 0 with
         | (a, p1) =>
           match padLine d.toNat p1 d with
           | (b, p2, l2) =>
             if p2 ≠ 0 ∨ l2 ≠ 0 then a ++ b ++ [p2, l2.toNat] else a ++ b)) = _
    simp only [padPos]
    rw [hline]
    simp only
    have h2 : (if k2 = 0 then (0 : Nat) else 0) = 0 := by cases k2 <;> rfl
    rw [h2]
    have hg : ((0 : Nat) ≠ 0 ∨ r2 ≠ 0) := by
      right
      rcases hk2 with rfl | h1
      · omega
      · omega
    rw [if_pos hg]
    simp only [List.nil_append]
    rw [lnotabPairs_lineList0, List.foldl_append, fls_R2]
    simp only [lnotabPairs, List.foldl_cons, List.foldl_nil,
      flsStep_zero X (L + 255 * k2) A out (0, r2.toNat) rfl]
    have e1 : L + 255 * k2 + (0, r2.toNat).2 = L + d.toNat := by
      simp only
      omega
    rw [e1]

theorem fls_block (p : Nat) (d : Int) (hp : 1 ≤ p) (hd : 0 ≤ d) (X : Option Nat)
    (L A : Nat) (out : List (Nat × Nat)) (hX : X ≠ some L) :
    List.foldl flsStep (X, L, A, out) (lnotabPairs (lnotabVal p d)) =
      (some L, L + d.toNat, A + p, out ++ [(A, L)]) := by
  unfold lnotabVal
  rw [if_neg (by omega)]
  obtain ⟨k1, r1, hpad, hpe, hr1, hk1⟩ := padPos_spec p p (by omega)
  obtain ⟨k2, r2, hline, hd2, hr20, hr2, hk2⟩ :=
    padLine_spec d.toNat r1 d hd (by omega)
  rw [hpad]
  simp only
  rw [hline]
  simp only
  have hr1pos : 1 ≤ r1 := by
    rcases hk1 with rfl | h1
    · omega
    · exact h1
  have hg : (if k2 = 0 then r1 else 0) ≠ 0 ∨ r2 ≠ 0 := by
    by_cases hk : k2 = 0
    · left; simp only [hk, if_true]; omega
    · right
      rcases hk2 with rfl | h1
      · exact absurd rfl hk
      · omega
  rw [if_pos hg]
  rw [List.append_assoc, lnotabPairs_padList, List.foldl_append]
  cases k1 with
  | zero =>
    simp only [List.replicate, List.foldl_nil]
    have hr1p : r1 = p := by omega
    subst hr1p
    cases k2 with
    | zero =>
      simp only [if_true, lineList, List.nil_append, lnotabPairs, List.foldl_cons,
        List.foldl_nil]
      rw [flsStep_yield X L A out (r1, r2.toNat) (by simp; omega) hX]
      have e1 : L + (r1, r2.toNat).2 = L + d.toNat := by simp only; omega
      have e2 : A + (r1, r2.toNat).1 = A + r1 := by simp only
      rw [e1, e2]
    | succ n =>
      rw [if_neg (by omega)]
      rw [lnotabPairs_lineList, List.foldl_cons]
      rw [flsStep_yield X L A out (r1, 255) (by simp; omega) hX]
      simp only
      rw [List.foldl_append, fls_R2]
      simp only [lnotabPairs, List.foldl_cons, List.foldl_nil]
      rw [flsStep_zero _ _ _ _ (0, r2.toNat) rfl]
      have e1 : L + 255 + 255 * n + (0, r2.toNat).2 = L + d.toNat := by
        simp only
        omega
      rw [e1]
  | succ m =>
    rw [List.replicate_succ, List.foldl_cons]
    rw [flsStep_yield X L A out (255, 0) (by simp) hX]
    simp only [Nat.add_zero]
    rw [fls_R1]
    cases k2 with
    | zero =>
      simp only [if_true, lineList, List.nil_append, lnotabPairs, List.foldl_cons,
        List.foldl_nil]
      rw [flsStep_no_yield L _ _ (r1, r2.toNat) (by simp; omega)]
      have e1 : L + (r1, r2.toNat).2 = L + d.toNat := by simp only; omega
      have e2 : A + 255 + 255 * m + (r1, r2.toNat).1 = A + p := by simp only; omega
      rw [e1, e2]
    | succ n =>
      rw [if_neg (by omega)]
      rw [lnotabPairs_lineList, List.foldl_cons]
      rw [flsStep_no_yield L _ _ (r1, 255) (by simp; omega)]
      simp only
      rw [List.foldl_append, fls_R2]
      simp only [lnotabPairs, List.foldl_cons, List.foldl_nil]
      rw [flsStep_zero _ _ _ _ (0, r2.toNat) rfl]
      have e1 : L + 255 + 255 * n + (0, r2.toNat).2 = L + d.toNat := by
        simp only
        omega
      have e2 : A + 255 + 255 * m + r1 = A + p := by omega
      rw [e1, e2]

theorem fls_finish : ∀ (annots : List (Nat × Nat)) (A L : Nat) (X : Option Nat)
    (out : List (Nat × Nat)), X ≠ some L → annStrict annots A L →
    (let r := List.foldl flsStep (X, L, A, out) (lnotabPairs (lnotabGo annots L A))
     if some r.2.1 ≠ r.1 then r.2.2.2 ++ [(r.2.2.1, r.2.1)] else r.2.2.2) =
      out ++ (A, L) :: annots := by
  intro annots
  induction annots with
  | nil =>
    intro A L X out hX _
    simp only [lnotabGo, lnotabPairs, List.foldl_nil]
    rw [if_pos (Ne.symm hX)]
  | cons al rest ih =>
    obtain ⟨a, l⟩ := al
    intro A L X out hX hstrict
    obtain ⟨haA, hlL, hrest⟩ := hstrict
    simp only [lnotabGo]
    rw [lnotabPairs_append _ (lnotabVal_even _ _ (by omega)) _, List.foldl_append]
    rw [fls_block (a - A) ((l : Int) - L) (by omega) (by omega) X L A out hX]
    have e1 : L + ((l : Int) - (L : Int)).toNat = l := by omega
    have e2 : A + (a - A) = a := by omega
    rw [e1, e2]
    have hX2 : (some L : Option Nat) ≠ some l := by
      intro hc
      injection hc with hc2
      omega
    have := ih a l (some L) (out ++ [(A, L)]) hX2 hrest
    simp only at this ⊢
    rw [this, List.append_assoc]
    rfl

theorem findlinestarts_roundtrip (F l0 : Nat) (rest : List (Nat × Nat))
    (hF : F ≤ l0) (hstrict : annStrict rest 0 l0) :
    findlinestarts (lnotabGo ((0, l0) :: rest) F 0) F = (0, l0) :: rest := by
  unfold findlinestarts
  simp only [lnotabGo, Nat.sub_self]
  rw [lnotabPairs_append _ (lnotabVal_even _ _ (by omega)) _, List.foldl_append]
  rw [fls_block0 ((l0 : Int) - F) (by omega) none F 0 []]
  have e1 : F + ((l0 : Int) - (F : Int)).toNat = l0 := by omega
  rw [e1]
  have := fls_finish rest 0 l0 none [] (by simp) hstrict
  simp only at this ⊢
  rw [this]
  simp

/-! ### Annotation lists and the address map -/

theorem annotsFrom_strict (C : Catalog) (P : Pools) :
    ∀ (ops : List Instr) (a A L : Nat), A < a →
      chainLt (L :: ops.filterMap (·.lineno)) = true →
      annStrict (annotsFrom C P ops a) A L := by
  intro ops
  induction ops with
  | nil => intro a A L _ _; trivial
  | cons op rest ih =>
    intro a A L hA hchain
    unfold annotsFrom
    cases hl : op.lineno with
    | none =>
      simp only [List.nil_append]
      apply ih (a + segLen C P op) A L (by have := segLen_pos C P op; omega)
      simpa [List.filterMap_cons, hl] using hchain
    | some l =>
      have hchain2 : chainLt (L :: l :: rest.filterMap (·.lineno)) = true := by
        simpa [List.filterMap_cons, hl] using hchain
      obtain ⟨hLl, hrest⟩ := chainLt_cons_spec L l _ hchain2
      exact ⟨hA, hLl, ih (a + segLen C P op) a l
        (by have := segLen_pos C P op; omega) hrest⟩

theorem annLe_of_strict : ∀ (annots : List (Nat × Nat)) (A L L2 : Nat),
    L2 ≤ L → annStrict annots A L → annLe annots L2 := by
  intro annots
  induction annots with
  | nil => intro A L L2 _ _; trivial
  | cons al rest ih =>
    obtain ⟨a, l⟩ := al
    intro A L L2 hL2 h
    obtain ⟨h1, h2, h3⟩ := h
    exact ⟨by omega, ih a l l (Nat.le_refl l) h3⟩

theorem annotsFrom_key_ge (C : Catalog) (P : Pools) :
    ∀ (sfx : List Instr) (a : Nat) (x : Nat × Nat),
      x ∈ annotsFrom C P sfx a → a ≤ x.1 := by
  intro sfx
  induction sfx with
  | nil => intro a x h; cases h
  | cons op rest ih =>
    intro a x h
    unfold annotsFrom at h
    cases hl : op.lineno with
    | none =>
      rw [hl] at h
      simp only [List.nil_append] at h
      have := ih (a + segLen C P op) x h
      omega
    | some l =>
      rw [hl] at h
      simp only [List.cons_append, List.nil_append] at h
      rcases List.mem_cons.mp h with rfl | h2
      · exact Nat.le_refl a
      · have := ih (a + segLen C P op) x h2
        omega

theorem drop_cons_getElem (all : List Instr) (j : Nat) (op0 : Instr) (rest : List Instr)
    (hdrop : all.drop j = op0 :: rest) : all[j]? = some op0 := by
  have h0 : (all.drop j)[0]? = some op0 := by rw [hdrop]; simp
  rwa [List.getElem?_drop, Nat.add_zero] at h0

theorem drop_cons_tail (all : List Instr) (j : Nat) (op0 : Instr) (rest : List Instr)
    (hdrop : all.drop j = op0 :: rest) : all.drop (j + 1) = rest := by
  have h0 : (all.drop j).drop 1 = rest := by rw [hdrop]; rfl
  rw [List.drop_drop] at h0
  exact h0

theorem annotsFrom_lookup (C : Catalog) (P : Pools) (all : List Instr) :
    ∀ (sfx : List Instr) (j : Nat), all.drop j = sfx →
      ∀ (k : Nat) (op : Instr), j ≤ k → all[k]? = some op →
        (annotsFrom C P sfx (addrOf C P all j)).lookup (addrOf C P all k) =
          op.lineno := by
  intro sfx
  induction sfx with
  | nil =>
    intro j hdrop k op hjk hk
    exfalso
    have hlen : all.length ≤ j := List.drop_eq_nil_iff.mp hdrop
    have hklen : k < all.length := (List.getElem?_eq_some.mp hk).1
    omega
  | cons op0 rest ih =>
    intro j hdrop k op hjk hk
    have hops0 : all[j]? = some op0 := drop_cons_getElem all j op0 rest hdrop
    have hdrop2 : all.drop (j + 1) = rest := drop_cons_tail all j op0 rest hdrop
    have hjlen : j < all.length := (List.getElem?_eq_some.mp hops0).1
    have haddr : addrOf C P all j + segLen C P op0 = addrOf C P all (j + 1) :=
      (addrOf_succ C P all j op0 hops0).symm
    unfold annotsFrom
    by_cases hkj : k = j
    · subst hkj
      have heq : op0 = op := by
        rw [hops0] at hk
        injection hk
      subst heq
      cases hl : op0.lineno with
      | some l =>
        simp only [hl, List.cons_append, List.nil_append, List.lookup, beq_self_eq_true]
      | none =>
        simp only [hl, List.nil_append]
        refine lookup_eq_none_of_keys _ _ fun x hx => ?_
        have h1 := annotsFrom_key_ge C P rest _ x hx
        have h2 : addrOf C P all k < addrOf C P all (k + 1) :=
          addrOf_lt C P all k (k + 1) (by omega) hjlen
        omega
    · have hjk2 : j + 1 ≤ k := by omega
      have hrec := ih (j + 1) hdrop2 k op hjk2 hk
      cases hl : op0.lineno with
      | none =>
        simp only [hl, List.nil_append]
        rw [haddr]
        exact hrec
      | some l =>
        simp only [hl, List.cons_append, List.nil_append, List.lookup]
        have hne : addrOf C P all k ≠ addrOf C P all j := by
          have := addrOf_lt C P all j k (by omega) hjlen
          omega
        rw [beq_eq_false_iff_ne.mpr hne]
        rw [haddr]
        exact hrec

theorem addrOf_cons_succ (C : Catalog) (P : Pools) (o : Instr) (rest : List Instr)
    (k : Nat) :
    addrOf C P (o :: rest) (k + 1) = segLen C P o + addrOf C P rest k := by
  unfold addrOf
  rw [List.take_succ_cons]
  simp [List.sum_cons]

theorem addrsFrom_keys (C : Catalog) (P : Pools) :
    ∀ (ops : List Instr) (a : Nat),
      (addrsFrom C P ops a).map Prod.fst = ops.map Instr.id := by
  intro ops
  induction ops with
  | nil => intro a; rfl
  | cons op rest ih =>
    intro a
    simp only [addrsFrom, List.map_cons, ih]

theorem addrsFrom_mem (C : Catalog) (P : Pools) :
    ∀ (ops : List Instr) (a k : Nat) (op : Instr), ops[k]? = some op →
      (op.id, a + addrOf C P ops k) ∈ addrsFrom C P ops a := by
  intro ops
  induction ops with
  | nil => intro a k op h; rw [List.getElem?_nil] at h; cases h
  | cons o rest ih =>
    intro a k op h
    cases k with
    | zero =>
      rw [List.getElem?_cons_zero] at h
      injection h with h
      subst h
      simp only [addrsFrom, addrOf_zero, Nat.add_zero]
      exact List.mem_cons_self _ _
    | succ n =>
      rw [List.getElem?_cons_succ] at h
      have := ih (a + segLen C P o) n op h
      rw [addrOf_cons_succ]
      refine List.mem_cons_of_mem _ ?_
      have heq : a + (segLen C P o + addrOf C P rest n) =
          a + segLen C P o + addrOf C P rest n := by omega
      rw [heq]
      exact this

theorem lookup_of_mem_nodup {β : Type} :
    ∀ (m : List (Nat × β)) (k : Nat) (v : β),
      (m.map Prod.fst).Nodup → (k, v) ∈ m → m.lookup k = some v := by
  intro m
  induction m with
  | nil => intro k v _ h; cases h
  | cons p rest ih =>
    obtain ⟨k0, v0⟩ := p
    intro k v hnd hmem
    rcases List.mem_cons.mp hmem with heq | h2
    · injection heq with h1 h2
      subst h1; subst h2
      simp [List.lookup]
    · have hk0 : k0 ∉ (rest.map Prod.fst) := by
        rw [List.map_cons] at hnd
        exact (List.nodup_cons.mp hnd).1
      have hkmem : k ∈ rest.map Prod.fst :=
        List.mem_map.mpr ⟨(k, v), h2, rfl⟩
      have hne : k ≠ k0 := by
        intro hc
        subst hc
        exact hk0 hkmem
      simp only [List.lookup]
      rw [beq_eq_false_iff_ne.mpr hne]
      exact ih k v (by rw [List.map_cons] at hnd; exact (List.nodup_cons.mp hnd).2) h2

/-! ### Stage 2 characterization -/

theorem asmOp_eq (C : Catalog) (P : Pools) (st : AsmState) (op : Instr)
    (hwf : wfEnc C op = true)
    (hln : ∀ line, op.lineno = some line → st.lastlineno ≤ line) :
    asmOp C P st op = .ok
      { code := st.code ++ placeSeg C P op
        addrs := (op.id, st.code.length) :: st.addrs
        jumps := st.jumps ++ jumpsFrom C P [op] st.code.length
        lnotab := st.lnotab ++
          lnotabGo (annotsFrom C P [op] st.code.length) st.lastlineno st.lastlinepos
        lastlineno :=
          (lastAnnot (annotsFrom C P [op] st.code.length) st.lastlineno st.lastlinepos).1
        lastlinepos :=
          (lastAnnot (annotsFrom C P [op] st.code.length) st.lastlineno
            st.lastlinepos).2 } := by
  unfold wfEnc at hwf
  cases hcs : C.spec op.code with
  | none => rw [hcs] at hwf; cases hwf
  | some sp =>
    rw [hcs] at hwf
    simp only [Bool.and_eq_true, decide_eq_true_eq] at hwf
    obtain ⟨hext, hmatch⟩ := hwf
    simp only [asmOp, Bind.bind, Except.bind]
    cases hl : op.lineno with
    | none =>
      simp only
      rw [hcs]
      simp only
      cases hcat : sp.cat <;> rw [hcat] at hmatch <;>
        cases ha : op.arg <;> rw [ha] at hmatch <;>
        first
        | exact absurd hmatch Bool.false_ne_true
        | simp [placeSeg, catOf, hcs, hcat, ha, argValueNoJump, jumpsFrom,
            annotsFrom, lnotabGo, lastAnnot, addrInsert, hl]
    | some line =>
      simp only
      rw [emitLnotab_ok (st.code.length - st.lastlinepos)
        ((line : Int) - st.lastlineno) (by have := hln line hl; omega)]
      simp only
      rw [hcs]
      simp only
      cases hcat : sp.cat <;> rw [hcat] at hmatch <;>
        cases ha : op.arg <;> rw [ha] at hmatch <;>
        first
        | exact absurd hmatch Bool.false_ne_true
        | simp [placeSeg, catOf, hcs, hcat, ha, argValueNoJump, jumpsFrom,
            annotsFrom, lnotabGo, lastAnnot, addrInsert, hl]

theorem stage2_fold (C : Catalog) (P : Pools) :
    ∀ (ops : List Instr) (st : AsmState),
      (∀ op ∈ ops, wfEnc C op = true) →
      annLe (annotsFrom C P ops st.code.length) st.lastlineno →
      ops.foldlM (asmOp C P) st = .ok
        { code := st.code ++ placeFrom C P ops
          addrs := (addrsFrom C P ops st.code.length).reverse ++ st.addrs
          jumps := st.jumps ++ jumpsFrom C P ops st.code.length
          lnotab := st.lnotab ++
            lnotabGo (annotsFrom C P ops st.code.length) st.lastlineno st.lastlinepos
          lastlineno :=
            (lastAnnot (annotsFrom C P ops st.code.length) st.lastlineno
              st.lastlinepos).1
          lastlinepos :=
            (lastAnnot (annotsFrom C P ops st.code.length) st.lastlineno
              st.lastlinepos).2 } := by
  intro ops
  induction ops with
  | nil =>
    intro st _ _
    simp only [List.foldlM_nil, placeFrom, addrsFrom, jumpsFrom, annotsFrom,
      lnotabGo, lastAnnot, List.reverse_nil, List.nil_append, List.append_nil]
    rfl
  | cons op rest ih =>
    intro st hwf hann
    have hwfop : wfEnc C op = true := hwf op (List.mem_cons_self _ _)
    have hwfrest : ∀ o ∈ rest, wfEnc C o = true :=
      fun o ho => hwf o (List.mem_cons_of_mem _ ho)
    have hlen : (st.code ++ placeSeg C P op).length =
        st.code.length + segLen C P op := by
      rw [List.length_append]; rfl
    rw [List.foldlM_cons]
    cases hl : op.lineno with
    | none =>
      have hlncond : ∀ line, op.lineno = some line → st.lastlineno ≤ line := by
        intro line hc; rw [hl] at hc; cases hc
      rw [asmOp_eq C P st op hwfop hlncond]
      simp only [Bind.bind, Except.bind]
      have hannop : annotsFrom C P [op] st.code.length = [] := by
        simp [annotsFrom, hl]
      have hanncons : annotsFrom C P (op :: rest) st.code.length =
          annotsFrom C P rest (st.code.length + segLen C P op) := by
        simp [annotsFrom, hl]
      rw [hannop]
      simp only [lnotabGo, lastAnnot, List.append_nil]
      rw [ih _ hwfrest (by rw [hlen]; rw [hanncons] at hann; exact hann)]
      simp only [hlen, hanncons]
      simp only [placeFrom, addrsFrom, jumpsFrom, List.reverse_cons,
        List.append_assoc, List.cons_append, List.nil_append]
    | some line =>
      have hanncons : annotsFrom C P (op :: rest) st.code.length =
          (st.code.length, line) :: annotsFrom C P rest
            (st.code.length + segLen C P op) := by
        simp [annotsFrom, hl]
      rw [hanncons] at hann
      have hlncond : ∀ l2, op.lineno = some l2 → st.lastlineno ≤ l2 := by
        intro l2 hc
        rw [hl] at hc
        injection hc with hc2
        subst hc2
        exact hann.1
      rw [asmOp_eq C P st op hwfop hlncond]
      simp only [Bind.bind, Except.bind]
      have hannop : annotsFrom C P [op] st.code.length = [(st.code.length, line)] := by
        simp [annotsFrom, hl]
      rw [hannop]
      simp only [lnotabGo, lastAnnot, List.append_nil]
      rw [ih _ hwfrest (by rw [hlen]; exact hann.2)]
      simp only [hlen, hanncons]
      simp only [placeFrom, addrsFrom, jumpsFrom, lnotabGo, lastAnnot,
        List.reverse_cons, List.append_assoc, List.cons_append, List.nil_append]

/-! ### Stage 3 characterization -/

theorem int_byte_lo (v : Nat) : (((v : Int) % 256).toNat) = v % 256 := by
  omega

theorem int_byte_hi (v : Nat) : ((((v : Int).fdiv 256) % 256).toNat) = v / 256 % 256 := by
  rw [Int.fdiv_eq_ediv _ (by omega)]
  omega

theorem set2_mid (pre : List Nat) (x b1 b2 : Nat) (R : List Nat) (v1 v2 : Nat) :
    ((pre ++ (x :: b1 :: b2 :: R)).set (pre.length + 1) v1).set
      (pre.length + 2) v2 = pre ++ (x :: v1 :: v2 :: R) := by
  rw [set_append_len pre _ 1 v1, set_append_len pre _ 2 v2]
  simp [List.set]

theorem patchJump_rel (addrs : List (Nat × Nat)) (code : List Nat) (a t A : Nat)
    (hl : addrs.lookup t = some A) (hge : a + 3 ≤ A) (hle : A - (a + 3) ≤ 65535) :
    patchJump addrs code (true, a, t) =
      .ok ((code.set (a + 1) ((A - (a + 3)) % 256)).set (a + 2)
        ((A - (a + 3)) / 256 % 256)) := by
  unfold patchJump
  simp only
  rw [hl]
  have hv : ((A : Int)) - ((a : Int) + 3) = ((A - (a + 3) : Nat) : Int) := by
    push_cast
    omega
  simp only [if_true]
  rw [hv]
  rw [if_neg (by push_cast; omega)]
  rw [int_byte_lo, int_byte_hi]

theorem patchJump_abs (addrs : List (Nat × Nat)) (code : List Nat) (a t A : Nat)
    (hl : addrs.lookup t = some A) (hle : A ≤ 65535) :
    patchJump addrs code (false, a, t) =
      .ok ((code.set (a + 1) (A % 256)).set (a + 2) (A / 256 % 256)) := by
  unfold patchJump
  simp only
  rw [hl]
  simp only [Bool.false_eq_true, if_false]
  rw [if_neg (by push_cast; omega)]
  rw [int_byte_lo, int_byte_hi]

theorem stage3_from (C : Catalog) (P : Pools) (all : List Instr)
    (addrs : List (Nat × Nat))
    (hlook : ∀ (t m : Nat), idxOfId all t = some m →
      addrs.lookup t = some (addrOf C P all m))
    (hwf : ∀ op ∈ all, wfEnc C op = true)
    (hj : jumpsOK C P all = true) :
    ∀ (sfx : List Instr) (j : Nat), all.drop j = sfx →
      ∀ (pre : List Nat), pre.length = addrOf C P all j →
      stage3 addrs (jumpsFrom C P sfx (addrOf C P all j))
          (pre ++ placeFrom C P sfx) =
        .ok (pre ++ finalFrom C P all sfx j) := by
  intro sfx
  induction sfx with
  | nil =>
    intro j hdrop pre hpre
    simp only [stage3, jumpsFrom, placeFrom, finalFrom, List.foldlM_nil,
      List.append_nil]
    rfl
  | cons op rest ih =>
    intro j hdrop pre hpre
    have hops : all[j]? = some op := drop_cons_getElem all j op rest hdrop
    have hdrop2 : all.drop (j + 1) = rest := drop_cons_tail all j op rest hdrop
    have hmem : op ∈ all := List.getElem?_mem hops
    have hwfop : wfEnc C op = true := hwf op hmem
    have haddr1 : addrOf C P all (j + 1) = addrOf C P all j + segLen C P op :=
      addrOf_succ C P all j op hops
    unfold wfEnc at hwfop
    cases hcs : C.spec op.code with
    | none => rw [hcs] at hwfop; cases hwfop
    | some sp =>
      rw [hcs] at hwfop
      simp only [Bool.and_eq_true, decide_eq_true_eq] at hwfop
      obtain ⟨hext, hmatch⟩ := hwfop
      have hcat2 : catOf C op = sp.cat := by unfold catOf; rw [hcs]
      have hseg : segLen C P op = (placeSeg C P op).length := rfl
      have hplc : placeFrom C P (op :: rest) =
          placeSeg C P op ++ placeFrom C P rest := rfl
      have hff : finalFrom C P all (op :: rest) j =
          finalSeg C P all op j ++ finalFrom C P all rest (j + 1) := rfl
      cases hcat : sp.cat <;> rw [hcat] at hmatch <;>
        cases ha : op.arg <;> rw [ha] at hmatch <;>
        try exact absurd hmatch Bool.false_ne_true
      -- noneArg / noArg
      · have hjf : jumpsFrom C P (op :: rest) (addrOf C P all j) =
            jumpsFrom C P rest (addrOf C P all j + segLen C P op) := by
          simp [jumpsFrom, hcat2, hcat, ha]
        have hfin : finalSeg C P all op j = placeSeg C P op := by
          simp [finalSeg, placeSeg, hcat2, hcat, ha]
        rw [hjf, hplc, hff, hfin]
        have hpre2 : (pre ++ placeSeg C P op).length = addrOf C P all (j + 1) := by
          rw [List.length_append, ← hseg, haddr1, hpre]
        have hthis := ih (j + 1) hdrop2 (pre ++ placeSeg C P op) hpre2
        rw [haddr1] at hthis
        simp only [List.append_assoc] at hthis
        exact hthis
      -- localVar / localVar
      · have hjf : jumpsFrom C P (op :: rest) (addrOf C P all j) =
            jumpsFrom C P rest (addrOf C P all j + segLen C P op) := by
          simp [jumpsFrom, hcat2, hcat, ha]
        have hfin : finalSeg C P all op j = placeSeg C P op := by
          simp [finalSeg, placeSeg, hcat2, hcat, ha]
        rw [hjf, hplc, hff, hfin]
        have hpre2 : (pre ++ placeSeg C P op).length = addrOf C P all (j + 1) := by
          rw [List.length_append, ← hseg, haddr1, hpre]
        have hthis := ih (j + 1) hdrop2 (pre ++ placeSeg C P op) hpre2
        rw [haddr1] at hthis
        simp only [List.append_assoc] at hthis
        exact hthis
      -- nameVar / nameVar
      · have hjf : jumpsFrom C P (op :: rest) (addrOf C P all j) =
            jumpsFrom C P rest (addrOf C P all j + segLen C P op) := by
          simp [jumpsFrom, hcat2, hcat, ha]
        have hfin : finalSeg C P all op j = placeSeg C P op := by
          simp [finalSeg, placeSeg, hcat2, hcat, ha]
        rw [hjf, hplc, hff, hfin]
        have hpre2 : (pre ++ placeSeg C P op).length = addrOf C P all (j + 1) := by
          rw [List.length_append, ← hseg, haddr1, hpre]
        have hthis := ih (j + 1) hdrop2 (pre ++ placeSeg C P op) hpre2
        rw [haddr1] at hthis
        simp only [List.append_assoc] at hthis
        exact hthis
      -- constVal / constVal
      · have hjf : jumpsFrom C P (op :: rest) (addrOf C P all j) =
            jumpsFrom C P rest (addrOf C P all j + segLen C P op) := by
          simp [jumpsFrom, hcat2, hcat, ha]
        have hfin : finalSeg C P all op j = placeSeg C P op := by
          simp [finalSeg, placeSeg, hcat2, hcat, ha]
        rw [hjf, hplc, hff, hfin]
        have hpre2 : (pre ++ placeSeg C P op).length = addrOf C P all (j + 1) := by
          rw [List.length_append, ← hseg, haddr1, hpre]
        have hthis := ih (j + 1) hdrop2 (pre ++ placeSeg C P op) hpre2
        rw [haddr1] at hthis
        simp only [List.append_assoc] at hthis
        exact hthis
      -- freeVar / cellVar
      · have hjf : jumpsFrom C P (op :: rest) (addrOf C P all j) =
            jumpsFrom C P rest (addrOf C P all j + segLen C P op) := by
          simp [jumpsFrom, hcat2, hcat, ha]
        have hfin : finalSeg C P all op j = placeSeg C P op := by
          simp [finalSeg, placeSeg, hcat2, hcat, ha]
        rw [hjf, hplc, hff, hfin]
        have hpre2 : (pre ++ placeSeg C P op).length = addrOf C P all (j + 1) := by
          rw [List.length_append, ← hseg, haddr1, hpre]
        have hthis := ih (j + 1) hdrop2 (pre ++ placeSeg C P op) hpre2
        rw [haddr1] at hthis
        simp only [List.append_assoc] at hthis
        exact hthis
      -- freeVar / freeVar
      · have hjf : jumpsFrom C P (op :: rest) (addrOf C P all j) =
            jumpsFrom C P rest (addrOf C P all j + segLen C P op) := by
          simp [jumpsFrom, hcat2, hcat, ha]
        have hfin : finalSeg C P all op j = placeSeg C P op := by
          simp [finalSeg, placeSeg, hcat2, hcat, ha]
        rw [hjf, hplc, hff, hfin]
        have hpre2 : (pre ++ placeSeg C P op).length = addrOf C P all (j + 1) := by
          rw [List.length_append, ← hseg, haddr1, hpre]
        have hthis := ih (j + 1) hdrop2 (pre ++ placeSeg C P op) hpre2
        rw [haddr1] at hthis
        simp only [List.append_assoc] at hthis
        exact hthis
      -- jumpRel / jumpRel
      · rename_i t
        obtain ⟨hjr, -⟩ := jumpsOK_spec C P all hj j op hops
        obtain ⟨m, him, hb1, hb2⟩ := hjr t ha
        have hlook2 := hlook t m him
        have hjf : jumpsFrom C P (op :: rest) (addrOf C P all j) =
            (true, addrOf C P all j, t) ::
              jumpsFrom C P rest (addrOf C P all j + segLen C P op) := by
          simp [jumpsFrom, hcat2, hcat, ha]
        have hplace : placeSeg C P op = [op.code, 0, 0] := by
          simp [placeSeg, hcat2, hcat, emitArg]
        have hfin2 : finalSeg C P all op j =
            op.code :: le2 (addrOf C P all m - (addrOf C P all j + 3)) := by
          simp only [finalSeg, hcat2, hcat, ha, him, Option.getD_some]
        have hslen : segLen C P op = 3 := by
          rw [hseg, hplace]
          rfl
        rw [hjf, hplc, hff]
        unfold stage3
        rw [List.foldlM_cons]
        have hpatch := patchJump_rel addrs
          (pre ++ (placeSeg C P op ++ placeFrom C P rest))
          (addrOf C P all j) t (addrOf C P all m) hlook2 hb1 hb2
        have hset : ((pre ++ (placeSeg C P op ++ placeFrom C P rest)).set
              (addrOf C P all j + 1)
              ((addrOf C P all m - (addrOf C P all j + 3)) % 256)).set
              (addrOf C P all j + 2)
              ((addrOf C P all m - (addrOf C P all j + 3)) / 256 % 256) =
            pre ++ (finalSeg C P all op j ++ placeFrom C P rest) := by
          rw [hplace, hfin2, ← hpre]
          rw [show (pre ++ ([op.code, 0, 0] ++ placeFrom C P rest)) =
            (pre ++ (op.code :: 0 :: 0 :: placeFrom C P rest)) by simp]
          rw [set2_mid pre op.code 0 0 (placeFrom C P rest) _ _]
          rfl
        rw [hset] at hpatch
        rw [hpatch]
        simp only [Bind.bind, Except.bind]
        have hpre2 : (pre ++ finalSeg C P all op j).length =
            addrOf C P all (j + 1) := by
          rw [List.length_append, finalSeg_length, haddr1, hpre]
        have hthis := ih (j + 1) hdrop2 (pre ++ finalSeg C P all op j) hpre2
        rw [haddr1] at hthis
        unfold stage3 at hthis
        simp only [List.append_assoc] at hthis
        exact hthis
      -- jumpAbs / jumpAbs
      · rename_i t
        obtain ⟨-, hja⟩ := jumpsOK_spec C P all hj j op hops
        obtain ⟨m, him, hb2⟩ := hja t ha
        have hlook2 := hlook t m him
        have hjf : jumpsFrom C P (op :: rest) (addrOf C P all j) =
            (false, addrOf C P all j, t) ::
              jumpsFrom C P rest (addrOf C P all j + segLen C P op) := by
          simp [jumpsFrom, hcat2, hcat, ha]
        have hplace : placeSeg C P op = [op.code, 0, 0] := by
          simp [placeSeg, hcat2, hcat, emitArg]
        have hfin2 : finalSeg C P all op j =
            op.code :: le2 (addrOf C P all m) := by
          simp only [finalSeg, hcat2, hcat, ha, him, Option.getD_some]
        have hslen : segLen C P op = 3 := by
          rw [hseg, hplace]
          rfl
        rw [hjf, hplc, hff]
        unfold stage3
        rw [List.foldlM_cons]
        have hpatch := patchJump_abs addrs
          (pre ++ (placeSeg C P op ++ placeFrom C P rest))
          (addrOf C P all j) t (addrOf C P all m) hlook2 hb2
        have hset : ((pre ++ (placeSeg C P op ++ placeFrom C P rest)).set
              (addrOf C P all j + 1) (addrOf C P all m % 256)).set
              (addrOf C P all j + 2) (addrOf C P all m / 256 % 256) =
            pre ++ (finalSeg C P all op j ++ placeFrom C P rest) := by
          rw [hplace, hfin2, ← hpre]
          rw [show (pre ++ ([op.code, 0, 0] ++ placeFrom C P rest)) =
            (pre ++ (op.code :: 0 :: 0 :: placeFrom C P rest)) by simp]
          rw [set2_mid pre op.code 0 0 (placeFrom C P rest) _ _]
          rfl
        rw [hset] at hpatch
        rw [hpatch]
        simp only [Bind.bind, Except.bind]
        have hpre2 : (pre ++ finalSeg C P all op j).length =
            addrOf C P all (j + 1) := by
          rw [List.length_append, finalSeg_length, haddr1, hpre]
        have hthis := ih (j + 1) hdrop2 (pre ++ finalSeg C P all op j) hpre2
        rw [haddr1] at hthis
        unfold stage3 at hthis
        simp only [List.append_assoc] at hthis
        exact hthis
      -- rawArg / rawArg
      · have hjf : jumpsFrom C P (op :: rest) (addrOf C P all j) =
            jumpsFrom C P rest (addrOf C P all j + segLen C P op) := by
          simp [jumpsFrom, hcat2, hcat, ha]
        have hfin : finalSeg C P all op j = placeSeg C P op := by
          simp [finalSeg, placeSeg, hcat2, hcat, ha]
        rw [hjf, hplc, hff, hfin]
        have hpre2 : (pre ++ placeSeg C P op).length = addrOf C P all (j + 1) := by
          rw [List.length_append, ← hseg, haddr1, hpre]
        have hthis := ih (j + 1) hdrop2 (pre ++ placeSeg C P op) hpre2
        rw [haddr1] at hthis
        simp only [List.append_assoc] at hthis
        exact hthis

theorem to_code_eq (C : Catalog) (u : Code) (P : Pools) (d : Int)
    (hP : harvest C u = .ok P)
    (hwf : ∀ op ∈ u.ops, wfEnc C op = true)
    (hids : (u.ops.map Instr.id).Nodup)
    (hj : jumpsOK C P u.ops = true)
    (hann : annLe (annotsFrom C P u.ops 0) u.firstlineno)
    (hstack : calcStackSize C u.ops = .ok d) :
    to_code C u = .ok
      { argcount := coArgcount u
        kwonlyargcount := u.kwonlyargs.length
        nlocals := P.varnames.length
        stacksize := d
        flags := calcFlags C u
        code := finalFrom C P u.ops u.ops 0
        consts := P.consts
        names := P.names
        varnames := P.varnames
        filename := u.filename
        name := u.name
        firstlineno := u.firstlineno
        lnotab := lnotabGo (annotsFrom C P u.ops 0) u.firstlineno 0
        freevars := P.freevars
        cellvars := P.cellvars } := by
  unfold to_code
  rw [hP]
  simp only [Bind.bind, Except.bind]
  have hst := stage2_fold C P u.ops
    { code := [], addrs := [], jumps := [], lnotab := [],
      lastlineno := u.firstlineno, lastlinepos := 0 } hwf (by simpa using hann)
  simp only [List.length_nil, List.nil_append, List.append_nil] at hst
  unfold stage2
  rw [hst]
  simp only
  have hlook : ∀ (t m : Nat), idxOfId u.ops t = some m →
      (addrsFrom C P u.ops 0).reverse.lookup t = some (addrOf C P u.ops m) := by
    intro t m him
    obtain ⟨opm, hkm, hidm⟩ := idxOfId_spec u.ops t m him
    have hmem2 : (opm.id, 0 + addrOf C P u.ops m) ∈ addrsFrom C P u.ops 0 :=
      addrsFrom_mem C P u.ops 0 m opm hkm
    rw [Nat.zero_add] at hmem2
    rw [hidm] at hmem2
    apply lookup_of_mem_nodup
    · rw [List.map_reverse, addrsFrom_keys]
      exact List.nodup_reverse.mpr hids
    · exact List.mem_reverse.mpr hmem2
  have h3 := stage3_from C P u.ops ((addrsFrom C P u.ops 0).reverse) hlook hwf hj
    u.ops 0 rfl [] rfl
  simp only [List.nil_append] at h3
  rw [show addrOf C P u.ops 0 = 0 from rfl] at h3
  rw [h3]
  simp only
  rw [hstack]

/-! ### Decode loop characterization -/

theorem finalSeg_shape (C : Catalog) (P : Pools) (all : List Instr) (op : Instr)
    (j : Nat) : ∃ tl, finalSeg C P all op j = op.code :: tl := by
  unfold finalSeg
  cases catOf C op <;> cases op.arg <;> exact ⟨_, rfl⟩

theorem decodeLoop_from (C : Catalog) (P : Pools) (all : List Instr) (co : PyCodeObj)
    (lines : List (Nat × Nat))
    (hco : co.code = finalFrom C P all all 0)
    (hvn : co.varnames = P.varnames) (hnm : co.names = P.names)
    (hcn : co.consts = P.consts) (hfv : co.freevars = P.freevars)
    (hcv : co.cellvars = P.cellvars)
    (hwf : ∀ op ∈ all, wfEnc C op = true)
    (hsym : ∀ op ∈ all, symIn C P op)
    (hsm : smallArgs P all = true)
    (hj : jumpsOK C P all = true) :
    ∀ (sfx : List Instr) (j : Nat), all.drop j = sfx →
      ∀ (st : DecState) (fuel : Nat),
        co.code.length + 1 ≤ fuel + addrOf C P all j →
        ∃ fv cv, decodeLoop C co lines fuel (addrOf C P all j) 0 st =
          .ok ⟨st.table ++ tableFrom C P all sfx j,
               st.ops ++ decodedFrom C P all lines sfx j, fv, cv⟩ := by
  obtain ⟨hs1, hs2, hs3, hs4, hs5⟩ := smallArgs_spec P all hsm
  intro sfx
  induction sfx with
  | nil =>
    intro j hdrop st fuel hfuel
    have hlen : all.length ≤ j := List.drop_eq_nil_iff.mp hdrop
    have haj : addrOf C P all j = co.code.length := by
      rw [hco, finalFrom_length]
      unfold addrOf
      rw [List.take_of_length_le hlen]
    cases fuel with
    | zero => omega
    | succ f =>
      refine ⟨st.freevars, st.cellvars, ?_⟩
      rw [decodeLoop]
      rw [if_neg (by omega)]
      simp [tableFrom, decodedFrom]
  | cons op rest ih =>
    intro j hdrop st fuel hfuel
    have hops : all[j]? = some op := drop_cons_getElem all j op rest hdrop
    have hdrop2 : all.drop (j + 1) = rest := drop_cons_tail all j op rest hdrop
    have hmem : op ∈ all := List.getElem?_mem hops
    have hwfop : wfEnc C op = true := hwf op hmem
    have hsymop : symIn C P op := hsym op hmem
    have hjlt : j < all.length := (List.getElem?_eq_some.mp hops).1
    have haddr1 : addrOf C P all (j + 1) = addrOf C P all j + segLen C P op :=
      addrOf_succ C P all j op hops
    have hcodedec : co.code =
        finalFrom C P all (all.take j) 0 ++
          (finalSeg C P all op j ++ finalFrom C P all rest (j + 1)) := by
      rw [hco, finalFrom_decomp C P all j (by omega), hdrop]
      rfl
    have hPRE : (finalFrom C P all (all.take j) 0).length = addrOf C P all j :=
      finalFrom_take_length C P all j
    have hseglen : (finalSeg C P all op j).length = segLen C P op :=
      finalSeg_length C P all op j
    have hsegpos := segLen_pos C P op
    have hlen : co.code.length = addrOf C P all j +
        ((finalSeg C P all op j).length + (finalFrom C P all rest (j + 1)).length) := by
      rw [hcodedec]
      simp [List.length_append, hPRE]
    have hilt : addrOf C P all j < co.code.length := by omega
    obtain ⟨tl0, htl0⟩ := finalSeg_shape C P all op j
    have hb0 : co.code[addrOf C P all j]? = some op.code := by
      rw [hcodedec, ← hPRE, getElem?_append_len0]
      simp [htl0]
    unfold wfEnc at hwfop
    cases hcs : C.spec op.code with
    | none => rw [hcs] at hwfop; cases hwfop
    | some sp =>
      rw [hcs] at hwfop
      simp only [Bool.and_eq_true, decide_eq_true_eq] at hwfop
      obtain ⟨hext, hmatch⟩ := hwfop
      have hcat2 : catOf C op = sp.cat := by unfold catOf; rw [hcs]
      unfold symIn at hsymop
      rw [hcs] at hsymop
      simp only at hsymop
      cases fuel with
      | zero => omega
      | succ f =>
        rw [decodeLoop]
        rw [if_pos hilt]
        rw [List.getD_eq_getElem?_getD, hb0]
        simp only [Option.getD_some]
        rw [hcs]
        simp only
        cases hcat : sp.cat <;> rw [hcat] at hmatch <;>
          (try rw [hcat] at hsymop) <;>
          cases ha : op.arg <;> rw [ha] at hmatch <;>
          (try rw [ha] at hsymop) <;>
          (try simp only at hsymop) <;>
          try exact absurd hmatch Bool.false_ne_true
        -- noneArg / noArg
        · rw [if_neg (by simp)]
          have hfs : finalSeg C P all op j = [op.code] := by
            simp [finalSeg, hcat2, hcat, ha]
          have hseg1 : segLen C P op = 1 := by
            rw [← hseglen, hfs]
            rfl
          obtain ⟨fv, cv, hrec⟩ := ih (j + 1) hdrop2
            ⟨st.table ++ [(addrOf C P all j, addrOf C P all j)],
             st.ops ++ [⟨addrOf C P all j, op.code, .noArg,
               lines.lookup (addrOf C P all j)⟩],
             st.freevars, st.cellvars⟩ f (by omega)
          refine ⟨fv, cv, ?_⟩
          rw [show addrOf C P all j + 1 = addrOf C P all (j + 1) by omega]
          rw [hrec]
          simp [tableFrom, decodedFrom, decodedArg, hcat2, hcat, ha,
            List.append_assoc]
        · rename_i s
          rw [if_pos (by simp)]
          have hvle : P.varnames.indexOf s ≤ 65535 := by
            have hin := List.indexOf_lt_length.mpr hsymop
            omega
          have hfs : finalSeg C P all op j =
              [op.code, P.varnames.indexOf s % 256, P.varnames.indexOf s / 256 % 256] := by
            simp [finalSeg, hcat2, hcat, ha, argValueNoJump,
              emitArg_small C (P.varnames.indexOf s) hvle]
          have hseg3 : segLen C P op = 3 := by
            rw [← hseglen, hfs]
            rfl
          have hb1 : co.code[addrOf C P all j + 1]? =
              some (P.varnames.indexOf s % 256) := by
            rw [hcodedec, ← hPRE, getElem?_append_len]
            simp [hfs]
          have hb2 : co.code[addrOf C P all j + 2]? =
              some (P.varnames.indexOf s / 256 % 256) := by
            rw [hcodedec, ← hPRE, getElem?_append_len]
            simp [hfs]
          rw [hb1, hb2]
          simp only
          rw [if_neg hext]
          have hargv : P.varnames.indexOf s % 256 +
              P.varnames.indexOf s / 256 % 256 * 256 + 0 = P.varnames.indexOf s := by
            omega
          rw [hargv]
          have hgi : P.varnames[P.varnames.indexOf s]? = some s :=
            List.getElem?_indexOf hsymop
          have hdec : decodeOperand co st OpCat.localVar (addrOf C P all j + 3)
              (P.varnames.indexOf s) = .ok (.localVar s, st.freevars, st.cellvars) := by
            unfold decodeOperand
            simp only
            rw [hvn, hgi]
          rw [hdec]
          simp only
          obtain ⟨fv, cv, hrec⟩ := ih (j + 1) hdrop2
            ⟨st.table ++ [(addrOf C P all j, addrOf C P all j)],
             st.ops ++ [⟨addrOf C P all j, op.code, .localVar s,
               lines.lookup (addrOf C P all j)⟩],
             st.freevars, st.cellvars⟩ f (by omega)
          refine ⟨fv, cv, ?_⟩
          rw [show addrOf C P all j + 3 = addrOf C P all (j + 1) by omega]
          rw [hrec]
          simp [tableFrom, decodedFrom, decodedArg, hcat2, hcat, ha, List.append_assoc]
        · rename_i s
          rw [if_pos (by simp)]
          have hvle : P.names.indexOf s ≤ 65535 := by
            have hin := List.indexOf_lt_length.mpr hsymop
            omega
          have hfs : finalSeg C P all op j =
              [op.code, P.names.indexOf s % 256, P.names.indexOf s / 256 % 256] := by
            simp [finalSeg, hcat2, hcat, ha, argValueNoJump,
              emitArg_small C (P.names.indexOf s) hvle]
          have hseg3 : segLen C P op = 3 := by
            rw [← hseglen, hfs]
            rfl
          have hb1 : co.code[addrOf C P all j + 1]? =
              some (P.names.indexOf s % 256) := by
            rw [hcodedec, ← hPRE, getElem?_append_len]
            simp [hfs]
          have hb2 : co.code[addrOf C P all j + 2]? =
              some (P.names.indexOf s / 256 % 256) := by
            rw [hcodedec, ← hPRE, getElem?_append_len]
            simp [hfs]
          rw [hb1, hb2]
          simp only
          rw [if_neg hext]
          have hargv : P.names.indexOf s % 256 +
              P.names.indexOf s / 256 % 256 * 256 + 0 = P.names.indexOf s := by
            omega
          rw [hargv]
          have hgi : P.names[P.names.indexOf s]? = some s :=
            List.getElem?_indexOf hsymop
          have hdec : decodeOperand co st OpCat.nameVar (addrOf C P all j + 3)
              (P.names.indexOf s) = .ok (.nameVar s, st.freevars, st.cellvars) := by
            unfold decodeOperand
            simp only
            rw [hnm, hgi]
          rw [hdec]
          simp only
          obtain ⟨fv, cv, hrec⟩ := ih (j + 1) hdrop2
            ⟨st.table ++ [(addrOf C P all j, addrOf C P all j)],
             st.ops ++ [⟨addrOf C P all j, op.code, .nameVar s,
               lines.lookup (addrOf C P all j)⟩],
             st.freevars, st.cellvars⟩ f (by omega)
          refine ⟨fv, cv, ?_⟩
          rw [show addrOf C P all j + 3 = addrOf C P all (j + 1) by omega]
          rw [hrec]
          simp [tableFrom, decodedFrom, decodedArg, hcat2, hcat, ha, List.append_assoc]
        · rename_i c2
          rw [if_pos (by simp)]
          have hvle : P.consts.indexOf c2 ≤ 65535 := by
            have hin := List.indexOf_lt_length.mpr hsymop
            omega
          have hfs : finalSeg C P all op j =
              [op.code, P.consts.indexOf c2 % 256, P.consts.indexOf c2 / 256 % 256] := by
            simp [finalSeg, hcat2, hcat, ha, argValueNoJump,
              emitArg_small C (P.consts.indexOf c2) hvle]
          have hseg3 : segLen C P op = 3 := by
            rw [← hseglen, hfs]
            rfl
          have hb1 : co.code[addrOf C P all j + 1]? =
              some (P.consts.indexOf c2 % 256) := by
            rw [hcodedec, ← hPRE, getElem?_append_len]
            simp [hfs]
          have hb2 : co.code[addrOf C P all j + 2]? =
              some (P.consts.indexOf c2 / 256 % 256) := by
            rw [hcodedec, ← hPRE, getElem?_append_len]
            simp [hfs]
          rw [hb1, hb2]
          simp only
          rw [if_neg hext]
          have hargv : P.consts.indexOf c2 % 256 +
              P.consts.indexOf c2 / 256 % 256 * 256 + 0 = P.consts.indexOf c2 := by
            omega
          rw [hargv]
          have hgi : P.consts[P.consts.indexOf c2]? = some c2 :=
            List.getElem?_indexOf hsymop
          have hdec : decodeOperand co st OpCat.constVal (addrOf C P all j + 3)
              (P.consts.indexOf c2) = .ok (.constVal c2, st.freevars, st.cellvars) := by
            unfold decodeOperand
            simp only
            rw [hcn, hgi]
          rw [hdec]
          simp only
          obtain ⟨fv, cv, hrec⟩ := ih (j + 1) hdrop2
            ⟨st.table ++ [(addrOf C P all j, addrOf C P all j)],
             st.ops ++ [⟨addrOf C P all j, op.code, .constVal c2,
               lines.lookup (addrOf C P all j)⟩],
             st.freevars, st.cellvars⟩ f (by omega)
          refine ⟨fv, cv, ?_⟩
          rw [show addrOf C P all j + 3 = addrOf C P all (j + 1) by omega]
          rw [hrec]
          simp [tableFrom, decodedFrom, decodedArg, hcat2, hcat, ha, List.append_assoc]
        · rename_i s
          -- freeVar / cellVar
          rw [if_pos (by simp)]
          have hin := List.indexOf_lt_length.mpr hsymop
          have hvle : P.cellvars.indexOf s ≤ 65535 := by omega
          have hfs : finalSeg C P all op j =
              [op.code, P.cellvars.indexOf s % 256, P.cellvars.indexOf s / 256 % 256] := by
            simp [finalSeg, hcat2, hcat, ha, argValueNoJump,
              emitArg_small C (P.cellvars.indexOf s) hvle]
          have hseg3 : segLen C P op = 3 := by
            rw [← hseglen, hfs]
            rfl
          have hb1 : co.code[addrOf C P all j + 1]? =
              some (P.cellvars.indexOf s % 256) := by
            rw [hcodedec, ← hPRE, getElem?_append_len]
            simp [hfs]
          have hb2 : co.code[addrOf C P all j + 2]? =
              some (P.cellvars.indexOf s / 256 % 256) := by
            rw [hcodedec, ← hPRE, getElem?_append_len]
            simp [hfs]
          rw [hb1, hb2]
          simp only
          rw [if_neg hext]
          have hargv : P.cellvars.indexOf s % 256 +
              P.cellvars.indexOf s / 256 % 256 * 256 + 0 = P.cellvars.indexOf s := by
            omega
          rw [hargv]
          have hgi : P.cellvars[P.cellvars.indexOf s]? = some s :=
            List.getElem?_indexOf hsymop
          have hdec : decodeOperand co st OpCat.freeVar (addrOf C P all j + 3)
              (P.cellvars.indexOf s) =
              .ok (.cellVar s, st.freevars, osAdd st.cellvars s) := by
            unfold decodeOperand
            simp only
            rw [hcv, hgi]
          rw [hdec]
          simp only
          obtain ⟨fv, cv, hrec⟩ := ih (j + 1) hdrop2
            ⟨st.table ++ [(addrOf C P all j, addrOf C P all j)],
             st.ops ++ [⟨addrOf C P all j, op.code, .cellVar s,
               lines.lookup (addrOf C P all j)⟩],
             st.freevars, osAdd st.cellvars s⟩ f (by omega)
          refine ⟨fv, cv, ?_⟩
          rw [show addrOf C P all j + 3 = addrOf C P all (j + 1) by omega]
          rw [hrec]
          simp [tableFrom, decodedFrom, decodedArg, hcat2, hcat, ha, List.append_assoc]
        · rename_i s
          -- freeVar / freeVar
          rw [if_pos (by simp)]
          have hin := List.indexOf_lt_length.mpr hsymop
          have hvle : P.freevars.indexOf s + P.cellvars.length ≤ 65535 := by omega
          have hfs : finalSeg C P all op j =
              [op.code, (P.freevars.indexOf s + P.cellvars.length) % 256,
               (P.freevars.indexOf s + P.cellvars.length) / 256 % 256] := by
            simp [finalSeg, hcat2, hcat, ha, argValueNoJump,
              emitArg_small C (P.freevars.indexOf s + P.cellvars.length) hvle]
          have hseg3 : segLen C P op = 3 := by
            rw [← hseglen, hfs]
            rfl
          have hb1 : co.code[addrOf C P all j + 1]? =
              some ((P.freevars.indexOf s + P.cellvars.length) % 256) := by
            rw [hcodedec, ← hPRE, getElem?_append_len]
            simp [hfs]
          have hb2 : co.code[addrOf C P all j + 2]? =
              some ((P.freevars.indexOf s + P.cellvars.length) / 256 % 256) := by
            rw [hcodedec, ← hPRE, getElem?_append_len]
            simp [hfs]
          rw [hb1, hb2]
          simp only
          rw [if_neg hext]
          have hargv : (P.freevars.indexOf s + P.cellvars.length) % 256 +
              (P.freevars.indexOf s + P.cellvars.length) / 256 % 256 * 256 + 0 =
              P.freevars.indexOf s + P.cellvars.length := by
            omega
          rw [hargv]
          have hgc : P.cellvars[P.freevars.indexOf s + P.cellvars.length]? = none :=
            List.getElem?_eq_none (by omega)
          have hsub : P.freevars.indexOf s + P.cellvars.length - P.cellvars.length =
              P.freevars.indexOf s := by omega
          have hgi : P.freevars[P.freevars.indexOf s]? = some s :=
            List.getElem?_indexOf hsymop
          have hdec : decodeOperand co st OpCat.freeVar (addrOf C P all j + 3)
              (P.freevars.indexOf s + P.cellvars.length) =
              .ok (.freeVar s, osAdd st.freevars s, st.cellvars) := by
            unfold decodeOperand
            simp only
            rw [hcv, hgc]
            simp only
            rw [hsub, hfv, hgi]
          rw [hdec]
          simp only
          obtain ⟨fv, cv, hrec⟩ := ih (j + 1) hdrop2
            ⟨st.table ++ [(addrOf C P all j, addrOf C P all j)],
             st.ops ++ [⟨addrOf C P all j, op.code, .freeVar s,
               lines.lookup (addrOf C P all j)⟩],
             osAdd st.freevars s, st.cellvars⟩ f (by omega)
          refine ⟨fv, cv, ?_⟩
          rw [show addrOf C P all j + 3 = addrOf C P all (j + 1) by omega]
          rw [hrec]
          simp [tableFrom, decodedFrom, decodedArg, hcat2, hcat, ha, List.append_assoc]
        · rename_i t
          -- jumpRel / jumpRel
          rw [if_pos (by simp)]
          obtain ⟨hjr, -⟩ := jumpsOK_spec C P all hj j op hops
          obtain ⟨m, him, hjb1, hjb2⟩ := hjr t ha
          have hfs : finalSeg C P all op j =
              [op.code, (addrOf C P all m - (addrOf C P all j + 3)) % 256,
               (addrOf C P all m - (addrOf C P all j + 3)) / 256 % 256] := by
            simp only [finalSeg, hcat2, hcat, ha, him, Option.getD_some]
            rfl
          have hseg3 : segLen C P op = 3 := by
            rw [← hseglen, hfs]
            rfl
          have hb1 : co.code[addrOf C P all j + 1]? =
              some ((addrOf C P all m - (addrOf C P all j + 3)) % 256) := by
            rw [hcodedec, ← hPRE, getElem?_append_len]
            simp [hfs, hPRE]
          have hb2 : co.code[addrOf C P all j + 2]? =
              some ((addrOf C P all m - (addrOf C P all j + 3)) / 256 % 256) := by
            rw [hcodedec, ← hPRE, getElem?_append_len]
            simp [hfs, hPRE]
          rw [hb1, hb2]
          simp only
          rw [if_neg hext]
          have hargv : (addrOf C P all m - (addrOf C P all j + 3)) % 256 +
              (addrOf C P all m - (addrOf C P all j + 3)) / 256 % 256 * 256 + 0 =
              addrOf C P all m - (addrOf C P all j + 3) := by
            omega
          rw [hargv]
          have hdec : decodeOperand co st OpCat.jumpRel (addrOf C P all j + 3)
              (addrOf C P all m - (addrOf C P all j + 3)) =
              .ok (.jumpRel (addrOf C P all m), st.freevars, st.cellvars) := by
            unfold decodeOperand
            simp only
            rw [show addrOf C P all j + 3 + (addrOf C P all m - (addrOf C P all j + 3)) =
              addrOf C P all m by omega]
          rw [hdec]
          simp only
          obtain ⟨fv, cv, hrec⟩ := ih (j + 1) hdrop2
            ⟨st.table ++ [(addrOf C P all j, addrOf C P all j)],
             st.ops ++ [⟨addrOf C P all j, op.code, .jumpRel (addrOf C P all m),
               lines.lookup (addrOf C P all j)⟩],
             st.freevars, st.cellvars⟩ f (by omega)
          refine ⟨fv, cv, ?_⟩
          rw [show addrOf C P all j + 3 = addrOf C P all (j + 1) by omega]
          rw [hrec]
          simp [tableFrom, decodedFrom, decodedArg, hcat2, hcat, ha, him,
            List.append_assoc]
        · rename_i t
          -- jumpAbs / jumpAbs
          rw [if_pos (by simp)]
          obtain ⟨-, hja⟩ := jumpsOK_spec C P all hj j op hops
          obtain ⟨m, him, hjb2⟩ := hja t ha
          have hfs : finalSeg C P all op j =
              [op.code, addrOf C P all m % 256, addrOf C P all m / 256 % 256] := by
            simp only [finalSeg, hcat2, hcat, ha, him, Option.getD_some]
            rfl
          have hseg3 : segLen C P op = 3 := by
            rw [← hseglen, hfs]
            rfl
          have hb1 : co.code[addrOf C P all j + 1]? =
              some (addrOf C P all m % 256) := by
            rw [hcodedec, ← hPRE, getElem?_append_len]
            simp [hfs]
          have hb2 : co.code[addrOf C P all j + 2]? =
              some (addrOf C P all m / 256 % 256) := by
            rw [hcodedec, ← hPRE, getElem?_append_len]
            simp [hfs]
          rw [hb1, hb2]
          simp only
          rw [if_neg hext]
          have hargv : addrOf C P all m % 256 +
              addrOf C P all m / 256 % 256 * 256 + 0 = addrOf C P all m := by
            omega
          rw [hargv]
          have hdec : decodeOperand co st OpCat.jumpAbs (addrOf C P all j + 3)
              (addrOf C P all m) =
              .ok (.jumpAbs (addrOf C P all m), st.freevars, st.cellvars) := by
            unfold decodeOperand
            simp only
          rw [hdec]
          simp only
          obtain ⟨fv, cv, hrec⟩ := ih (j + 1) hdrop2
            ⟨st.table ++ [(addrOf C P all j, addrOf C P all j)],
             st.ops ++ [⟨addrOf C P all j, op.code, .jumpAbs (addrOf C P all m),
               lines.lookup (addrOf C P all j)⟩],
             st.freevars, st.cellvars⟩ f (by omega)
          refine ⟨fv, cv, ?_⟩
          rw [show addrOf C P all j + 3 = addrOf C P all (j + 1) by omega]
          rw [hrec]
          simp [tableFrom, decodedFrom, decodedArg, hcat2, hcat, ha, him,
            List.append_assoc]
        · rename_i n
          -- rawArg / rawArg
          rw [if_pos (by simp)]
          have hvle : n ≤ 65535 := hs5 op hmem n ha
          have hfs : finalSeg C P all op j =
              [op.code, n % 256, n / 256 % 256] := by
            simp [finalSeg, hcat2, hcat, ha, argValueNoJump, emitArg_small C n hvle]
          have hseg3 : segLen C P op = 3 := by
            rw [← hseglen, hfs]
            rfl
          have hb1 : co.code[addrOf C P all j + 1]? = some (n % 256) := by
            rw [hcodedec, ← hPRE, getElem?_append_len]
            simp [hfs]
          have hb2 : co.code[addrOf C P all j + 2]? = some (n / 256 % 256) := by
            rw [hcodedec, ← hPRE, getElem?_append_len]
            simp [hfs]
          rw [hb1, hb2]
          simp only
          rw [if_neg hext]
          have hargv : n % 256 + n / 256 % 256 * 256 + 0 = n := by omega
          rw [hargv]
          have hdec : decodeOperand co st OpCat.rawArg (addrOf C P all j + 3) n =
              .ok (.rawArg n, st.freevars, st.cellvars) := by
            unfold decodeOperand
            simp only
          rw [hdec]
          simp only
          obtain ⟨fv, cv, hrec⟩ := ih (j + 1) hdrop2
            ⟨st.table ++ [(addrOf C P all j, addrOf C P all j)],
             st.ops ++ [⟨addrOf C P all j, op.code, .rawArg n,
               lines.lookup (addrOf C P all j)⟩],
             st.freevars, st.cellvars⟩ f (by omega)
          refine ⟨fv, cv, ?_⟩
          rw [show addrOf C P all j + 3 = addrOf C P all (j + 1) by omega]
          rw [hrec]
          simp [tableFrom, decodedFrom, decodedArg, hcat2, hcat, ha, List.append_assoc]

/-! ### Decode stage 2 and the position-normalized view -/

theorem tableFrom_lookup (C : Catalog) (P : Pools) (all : List Instr) :
    ∀ (sfx : List Instr) (j : Nat), all.drop j = sfx →
      ∀ k, j ≤ k → k < all.length →
        (tableFrom C P all sfx j).lookup (addrOf C P all k) =
          some (addrOf C P all k) := by
  intro sfx
  induction sfx with
  | nil =>
    intro j hdrop k hjk hk
    have := List.drop_eq_nil_iff.mp hdrop
    omega
  | cons op rest ih =>
    intro j hdrop k hjk hklen
    have hops : all[j]? = some op := drop_cons_getElem all j op rest hdrop
    have hjlt : j < all.length := (List.getElem?_eq_some.mp hops).1
    have hdrop2 : all.drop (j + 1) = rest := drop_cons_tail all j op rest hdrop
    by_cases hkj : k = j
    · subst hkj
      simp [tableFrom, List.lookup]
    · have hne : addrOf C P all k ≠ addrOf C P all j := by
        have := addrOf_lt C P all j k (by omega) hjlt
        omega
      simp only [tableFrom, List.lookup]
      rw [beq_eq_false_iff_ne.mpr hne]
      exact ih (j + 1) hdrop2 k (by omega) hklen

theorem resolve_decoded (C : Catalog) (P : Pools) (all : List Instr)
    (lines : List (Nat × Nat)) (table : List (Nat × Nat))
    (hwf : ∀ op ∈ all, wfEnc C op = true)
    (hj : jumpsOK C P all = true)
    (htab : ∀ k, k < all.length →
      table.lookup (addrOf C P all k) = some (addrOf C P all k)) :
    ∀ (sfx : List Instr) (j : Nat), all.drop j = sfx →
      resolveDecodedJumps C table (decodedFrom C P all lines sfx j) =
        .ok (decodedFrom C P all lines sfx j) := by
  intro sfx
  induction sfx with
  | nil => intro j hdrop; rfl
  | cons op rest ih =>
    intro j hdrop
    have hops : all[j]? = some op := drop_cons_getElem all j op rest hdrop
    have hdrop2 : all.drop (j + 1) = rest := drop_cons_tail all j op rest hdrop
    have hmem : op ∈ all := List.getElem?_mem hops
    have hwfop : wfEnc C op = true := hwf op hmem
    unfold wfEnc at hwfop
    cases hcs : C.spec op.code with
    | none => rw [hcs] at hwfop; cases hwfop
    | some sp =>
      rw [hcs] at hwfop
      simp only [Bool.and_eq_true, decide_eq_true_eq] at hwfop
      obtain ⟨hext, hmatch⟩ := hwfop
      have hcat2 : catOf C op = sp.cat := by unfold catOf; rw [hcs]
      simp only [decodedFrom, resolveDecodedJumps]
      have hrest := ih (j + 1) hdrop2
      cases hcat : sp.cat <;> rw [hcat] at hmatch <;>
        cases ha : op.arg <;> rw [ha] at hmatch <;>
        try exact absurd hmatch Bool.false_ne_true
      · have hhead : resolveJumpOp C table
            ⟨addrOf C P all j, op.code, decodedArg C P all op,
             lines.lookup (addrOf C P all j)⟩ =
            .ok ⟨addrOf C P all j, op.code, decodedArg C P all op,
             lines.lookup (addrOf C P all j)⟩ := by
          simp [resolveJumpOp, decodedArg, hcs, hcat2, hcat, ha]
        rw [hhead, hrest]
      · have hhead : resolveJumpOp C table
            ⟨addrOf C P all j, op.code, decodedArg C P all op,
             lines.lookup (addrOf C P all j)⟩ =
            .ok ⟨addrOf C P all j, op.code, decodedArg C P all op,
             lines.lookup (addrOf C P all j)⟩ := by
          simp [resolveJumpOp, decodedArg, hcs, hcat2, hcat, ha]
        rw [hhead, hrest]
      · have hhead : resolveJumpOp C table
            ⟨addrOf C P all j, op.code, decodedArg C P all op,
             lines.lookup (addrOf C P all j)⟩ =
            .ok ⟨addrOf C P all j, op.code, decodedArg C P all op,
             lines.lookup (addrOf C P all j)⟩ := by
          simp [resolveJumpOp, decodedArg, hcs, hcat2, hcat, ha]
        rw [hhead, hrest]
      · have hhead : resolveJumpOp C table
            ⟨addrOf C P all j, op.code, decodedArg C P all op,
             lines.lookup (addrOf C P all j)⟩ =
            .ok ⟨addrOf C P all j, op.code, decodedArg C P all op,
             lines.lookup (addrOf C P all j)⟩ := by
          simp [resolveJumpOp, decodedArg, hcs, hcat2, hcat, ha]
        rw [hhead, hrest]
      · have hhead : resolveJumpOp C table
            ⟨addrOf C P all j, op.code, decodedArg C P all op,
             lines.lookup (addrOf C P all j)⟩ =
            .ok ⟨addrOf C P all j, op.code, decodedArg C P all op,
             lines.lookup (addrOf C P all j)⟩ := by
          simp [resolveJumpOp, decodedArg, hcs, hcat2, hcat, ha]
        rw [hhead, hrest]
      · have hhead : resolveJumpOp C table
            ⟨addrOf C P all j, op.code, decodedArg C P all op,
             lines.lookup (addrOf C P all j)⟩ =
            .ok ⟨addrOf C P all j, op.code, decodedArg C P all op,
             lines.lookup (addrOf C P all j)⟩ := by
          simp [resolveJumpOp, decodedArg, hcs, hcat2, hcat, ha]
        rw [hhead, hrest]
      · rename_i t
        obtain ⟨hjr, -⟩ := jumpsOK_spec C P all hj j op hops
        obtain ⟨m, him, hjb1, hjb2⟩ := hjr t ha
        have hmlt : m < all.length := idxOfId_lt all t m him
        have hpd : decodedArg C P all op = .jumpRel (addrOf C P all m) := by
          simp [decodedArg, hcat2, hcat, ha, him]
        have hhead : resolveJumpOp C table
            ⟨addrOf C P all j, op.code, decodedArg C P all op,
             lines.lookup (addrOf C P all j)⟩ =
            .ok ⟨addrOf C P all j, op.code, decodedArg C P all op,
             lines.lookup (addrOf C P all j)⟩ := by
          rw [hpd]
          simp [resolveJumpOp, hcs, hcat, htab m hmlt]
        rw [hhead, hrest]
      · rename_i t
        obtain ⟨-, hja⟩ := jumpsOK_spec C P all hj j op hops
        obtain ⟨m, him, hjb2⟩ := hja t ha
        have hmlt : m < all.length := idxOfId_lt all t m him
        have hpd : decodedArg C P all op = .jumpAbs (addrOf C P all m) := by
          simp [decodedArg, hcat2, hcat, ha, him]
        have hhead : resolveJumpOp C table
            ⟨addrOf C P all j, op.code, decodedArg C P all op,
             lines.lookup (addrOf C P all j)⟩ =
            .ok ⟨addrOf C P all j, op.code, decodedArg C P all op,
             lines.lookup (addrOf C P all j)⟩ := by
          rw [hpd]
          simp [resolveJumpOp, hcs, hcat, htab m hmlt]
        rw [hhead, hrest]
      · have hhead : resolveJumpOp C table
            ⟨addrOf C P all j, op.code, decodedArg C P all op,
             lines.lookup (addrOf C P all j)⟩ =
            .ok ⟨addrOf C P all j, op.code, decodedArg C P all op,
             lines.lookup (addrOf C P all j)⟩ := by
          simp [resolveJumpOp, decodedArg, hcs, hcat2, hcat, ha]
        rw [hhead, hrest]

theorem findIdx_decodedFrom (C : Catalog) (P : Pools) (all : List Instr)
    (lines : List (Nat × Nat)) (m : Nat) (hm : m < all.length) :
    ∀ (sfx : List Instr) (j : Nat), all.drop j = sfx → j ≤ m →
      ∀ (i : Nat),
        List.findIdx? (fun o => o.id = addrOf C P all m)
          (decodedFrom C P all lines sfx j) i = some (i + (m - j)) := by
  intro sfx
  induction sfx with
  | nil =>
    intro j hdrop hjm i
    exfalso
    have := List.drop_eq_nil_iff.mp hdrop
    omega
  | cons op rest ih =>
    intro j hdrop hjm i
    have hops : all[j]? = some op := drop_cons_getElem all j op rest hdrop
    have hjlt : j < all.length := (List.getElem?_eq_some.mp hops).1
    have hdrop2 : all.drop (j + 1) = rest := drop_cons_tail all j op rest hdrop
    simp only [decodedFrom]
    rw [List.findIdx?_cons]
    by_cases hmj : m = j
    · subst hmj
      simp
    · have hlt := addrOf_lt C P all j m (by omega) hjlt
      have hne2 : addrOf C P all j ≠ addrOf C P all m := by omega
      have hrec := ih (j + 1) hdrop2 (by omega) (i + 1)
      have heq : i + 1 + (m - (j + 1)) = i + (m - j) := by omega
      rw [heq] at hrec
      simp only [hne2, decide_eq_false, if_false, hrec]
      simp

theorem idxOfId_decodedFrom (C : Catalog) (P : Pools) (all : List Instr)
    (lines : List (Nat × Nat)) (m : Nat) (hm : m < all.length) :
    idxOfId (decodedFrom C P all lines all 0) (addrOf C P all m) = some m := by
  unfold idxOfId
  have := findIdx_decodedFrom C P all lines m hm all 0 rfl (by omega) 0
  simpa using this

theorem viewGo_roundtrip (C : Catalog) (P : Pools) (all : List Instr)
    (lines : List (Nat × Nat))
    (hwf : ∀ op ∈ all, wfEnc C op = true)
    (hj : jumpsOK C P all = true)
    (hline : ∀ k op, all[k]? = some op →
      lines.lookup (addrOf C P all k) = op.lineno) :
    ∀ (sfx : List Instr) (j : Nat), all.drop j = sfx →
      viewGo (decodedFrom C P all lines all 0)
        (decodedFrom C P all lines sfx j) = viewGo all sfx := by
  intro sfx
  induction sfx with
  | nil => intro j hdrop; rfl
  | cons op rest ih =>
    intro j hdrop
    have hops : all[j]? = some op := drop_cons_getElem all j op rest hdrop
    have hdrop2 : all.drop (j + 1) = rest := drop_cons_tail all j op rest hdrop
    have hmem : op ∈ all := List.getElem?_mem hops
    have hwfop : wfEnc C op = true := hwf op hmem
    have hlk : lines.lookup (addrOf C P all j) = op.lineno := hline j op hops
    unfold wfEnc at hwfop
    cases hcs : C.spec op.code with
    | none => rw [hcs] at hwfop; cases hwfop
    | some sp =>
      rw [hcs] at hwfop
      simp only [Bool.and_eq_true, decide_eq_true_eq] at hwfop
      obtain ⟨hext, hmatch⟩ := hwfop
      have hcat2 : catOf C op = sp.cat := by unfold catOf; rw [hcs]
      have hrest := ih (j + 1) hdrop2
      cases hcat : sp.cat <;> rw [hcat] at hmatch <;>
        cases ha : op.arg <;> rw [ha] at hmatch <;>
        try exact absurd hmatch Bool.false_ne_true
      · simp [decodedFrom, viewGo, viewArg, decodedArg, hcat2, hcat, ha, hlk, hrest]
      · simp [decodedFrom, viewGo, viewArg, decodedArg, hcat2, hcat, ha, hlk, hrest]
      · simp [decodedFrom, viewGo, viewArg, decodedArg, hcat2, hcat, ha, hlk, hrest]
      · simp [decodedFrom, viewGo, viewArg, decodedArg, hcat2, hcat, ha, hlk, hrest]
      · simp [decodedFrom, viewGo, viewArg, decodedArg, hcat2, hcat, ha, hlk, hrest]
      · simp [decodedFrom, viewGo, viewArg, decodedArg, hcat2, hcat, ha, hlk, hrest]
      · rename_i t
        obtain ⟨hjr, -⟩ := jumpsOK_spec C P all hj j op hops
        obtain ⟨m, him, hjb1, hjb2⟩ := hjr t ha
        have hmlt : m < all.length := idxOfId_lt all t m him
        have hidx := idxOfId_decodedFrom C P all lines m hmlt
        simp [decodedFrom, viewGo, viewArg, decodedArg, hcat2, hcat, ha, hlk,
          hrest, him, hidx]
      · rename_i t
        obtain ⟨-, hja⟩ := jumpsOK_spec C P all hj j op hops
        obtain ⟨m, him, hjb2⟩ := hja t ha
        have hmlt : m < all.length := idxOfId_lt all t m him
        have hidx := idxOfId_decodedFrom C P all lines m hmlt
        simp [decodedFrom, viewGo, viewArg, decodedArg, hcat2, hcat, ha, hlk,
          hrest, him, hidx]
      · simp [decodedFrom, viewGo, viewArg, decodedArg, hcat2, hcat, ha, hlk, hrest]

/-! ### Flag bits and the argument-name prefix of `co_varnames` -/

theorem or_and_right_nat (a b c : Nat) :
    (a ||| b) &&& c = (a &&& c) ||| (b &&& c) := by
  rw [Nat.and_comm _ c, Nat.and_or_distrib_left, Nat.and_comm c a, Nat.and_comm c b]

theorem ite_orr (c : Prop) [Decidable c] (f y : Nat) :
    (if c then f ||| y else f) = f ||| (if c then y else 0) := by
  split
  · rfl
  · rw [Nat.or_zero]

theorem calcFlags_decomp (C : Catalog) (u : Code) :
    ∃ F, calcFlags C u =
      ((F ||| (if truthyStr u.vararg then 4 else 0)) |||
        (if truthyStr u.varkwarg then 8 else 0)) |||
        (if u.newlocals then 2 else 0) ∧ F &&& 12 = 0 := by
  unfold calcFlags
  simp only [ite_orr]
  refine ⟨_, rfl, ?_⟩
  split <;> split <;> split <;> decide

theorem calcFlags_and4 (C : Catalog) (u : Code) :
    calcFlags C u &&& 4 = if truthyStr u.vararg then 4 else 0 := by
  obtain ⟨F, hEq, hF⟩ := calcFlags_decomp C u
  rw [hEq, or_and_right_nat, or_and_right_nat, or_and_right_nat]
  have h4 : F &&& 4 = 0 := by
    have h12 : (12 : Nat) &&& 4 = 4 := by decide
    calc F &&& 4 = F &&& (12 &&& 4) := by rw [h12]
    _ = (F &&& 12) &&& 4 := by rw [Nat.and_assoc]
    _ = 0 := by rw [hF]; decide
  rw [h4]
  split <;> split <;> split <;> decide

theorem calcFlags_and8 (C : Catalog) (u : Code) :
    calcFlags C u &&& 8 = if truthyStr u.varkwarg then 8 else 0 := by
  obtain ⟨F, hEq, hF⟩ := calcFlags_decomp C u
  rw [hEq, or_and_right_nat, or_and_right_nat, or_and_right_nat]
  have h8 : F &&& 8 = 0 := by
    have h12 : (12 : Nat) &&& 8 = 8 := by decide
    calc F &&& 8 = F &&& (12 &&& 8) := by rw [h12]
    _ = (F &&& 12) &&& 8 := by rw [Nat.and_assoc]
    _ = 0 := by rw [hF]; decide
  rw [h8]
  split <;> split <;> split <;> decide

theorem coVarnamesInit_eq (u : Code)
    (hargs : (u.args ++ u.kwonlyargs ++ truthyList u.vararg ++
      truthyList u.varkwarg).Nodup) :
    (∃ e, coVarnamesInit u =
      (u.args ++ u.kwonlyargs ++ truthyList u.vararg ++ truthyList u.varkwarg) ++ e) ∧
    coArgcount u = u.args.length := by
  have hnd := hargs
  rw [List.nodup_append, List.nodup_append, List.nodup_append] at hnd
  obtain ⟨⟨⟨hnA, hnK, hdAK⟩, hnV, hdAKV⟩, hnW, hdAKVW⟩ := hnd
  have h1 : osExtend ([] : List String) u.args = u.args := by
    rw [osExtend_of_disjoint u.args [] hnA (fun x _ hx => by cases hx)]
    rfl
  have h2 : osExtend u.args u.kwonlyargs = u.args ++ u.kwonlyargs :=
    osExtend_of_disjoint u.kwonlyargs u.args hnK fun x hxK hxA => hdAK hxA hxK
  have h3 : (if truthyStr u.vararg then
        osAdd (u.args ++ u.kwonlyargs) (u.vararg.getD "")
      else u.args ++ u.kwonlyargs) =
      (u.args ++ u.kwonlyargs) ++ truthyList u.vararg := by
    by_cases htv : truthyStr u.vararg
    · rw [if_pos htv]
      unfold osAdd
      rw [if_neg (fun hmem => hdAKV hmem (by simp [truthyList, htv]))]
      congr 1
      simp [truthyList, htv]
    · rw [if_neg htv]
      simp [truthyList, htv]
  have h4 : (if truthyStr u.varkwarg then
        osAdd (u.args ++ u.kwonlyargs ++ truthyList u.vararg) (u.varkwarg.getD "")
      else u.args ++ u.kwonlyargs ++ truthyList u.vararg) =
      (u.args ++ u.kwonlyargs ++ truthyList u.vararg) ++ truthyList u.varkwarg := by
    by_cases htw : truthyStr u.varkwarg
    · rw [if_pos htw]
      unfold osAdd
      rw [if_neg (fun hmem => hdAKVW hmem (by simp [truthyList, htw]))]
      congr 1
      simp [truthyList, htw]
    · rw [if_neg htw]
      simp [truthyList, htw]
  constructor
  · unfold coVarnamesInit
    simp only
    rw [h1, h2, h3, h4]
    obtain ⟨e, he⟩ := osExtend_prefix u.varnames
      (u.args ++ u.kwonlyargs ++ truthyList u.vararg ++ truthyList u.varkwarg)
    exact ⟨e, he⟩
  · unfold coArgcount
    rw [h1]

/-! ### The round-trip theorem -/

theorem linesOK_shape (C : Catalog) (P : Pools) (u : Code)
    (h : linesOK u.firstlineno u.ops = true)
    (op0 : Instr) (rest0 : List Instr) (hops : u.ops = op0 :: rest0) :
    ∃ l0 r0, annotsFrom C P u.ops 0 = (0, l0) :: r0 ∧ u.firstlineno ≤ l0 ∧
      annStrict r0 0 l0 := by
  unfold linesOK at h
  rw [hops] at h
  simp only [Bool.and_eq_true] at h
  obtain ⟨h1, h2⟩ := h
  cases hl0 : op0.lineno with
  | none => rw [hl0] at h1; cases h1
  | some l0 =>
    rw [hl0] at h1
    simp only [decide_eq_true_eq] at h1
    refine ⟨l0, annotsFrom C P rest0 (segLen C P op0), ?_, h1, ?_⟩
    · rw [hops]
      simp [annotsFrom, hl0]
    · apply annotsFrom_strict C P rest0 (segLen C P op0) 0 l0 (segLen_pos C P op0)
      simpa [List.filterMap_cons, hl0] using h2

theorem linesOK_annLe (C : Catalog) (P : Pools) (u : Code)
    (h : linesOK u.firstlineno u.ops = true) :
    annLe (annotsFrom C P u.ops 0) u.firstlineno := by
  cases hops : u.ops with
  | nil => exact trivial
  | cons op0 rest0 =>
    obtain ⟨l0, r0, hsh, hF, hstrict⟩ := linesOK_shape C P u h op0 rest0 hops
    rw [hops] at hsh
    rw [hsh]
    exact ⟨hF, annLe_of_strict r0 0 l0 l0 (Nat.le_refl _) hstrict⟩

/-- **C1 (amended).**  For every code unit whose instructions are known to
the catalog with matching operand payloads (none the extended-argument
marker), whose instruction identities are pairwise distinct, whose
argument-name lists are duplicate-free, whose symbol pools and raw
operands fit in 16 bits, whose jumps all resolve within the sequence to a
representable 16-bit relocation, whose stack analysis succeeds, and whose
line annotations start at the first instruction at-or-after `firstlineno`
and strictly increase, decoding the encoding succeeds and yields a unit
with the same opcodes in the same order, the same resolved symbolic
operands (pool symbols, and jump targets up to position in the sequence),
and the same line annotations. -/
theorem c1_amended (C : Catalog) (u : Code) (P : Pools)
    (hP : harvest C u = .ok P)
    (hwf : ∀ op ∈ u.ops, wfEnc C op = true)
    (hids : (u.ops.map Instr.id).Nodup)
    (hargs : (u.args ++ u.kwonlyargs ++ truthyList u.vararg ++
      truthyList u.varkwarg).Nodup)
    (hsmall : smallArgs P u.ops = true)
    (hjumps : jumpsOK C P u.ops = true)
    (hstack : ∃ d, calcStackSize C u.ops = .ok d)
    (hlines : linesOK u.firstlineno u.ops = true) :
    ∃ c, (to_code C u).bind (from_code C) = .ok c ∧
      viewOps c.ops = viewOps u.ops := by
  obtain ⟨d, hstack⟩ := hstack
  obtain ⟨⟨evn, hevn⟩, hdoc, hsym⟩ := harvest_spec C u P hP
  obtain ⟨⟨E2, hE2⟩, hac⟩ := coVarnamesInit_eq u hargs
  have hannLe := linesOK_annLe C P u hlines
  have hCO : to_code C u = .ok (encOut C u P d) := by
    rw [to_code_eq C u P d hP hwf hids hjumps hannLe hstack]
    rfl
  rw [hCO]
  show ∃ c, from_code C (encOut C u P d) = .ok c ∧ _
  have hline : ∀ k op, u.ops[k]? = some op →
      (findlinestarts (lnotabGo (annotsFrom C P u.ops 0) u.firstlineno 0)
        u.firstlineno).lookup (addrOf C P u.ops k) = op.lineno := by
    cases hops0 : u.ops with
    | nil =>
      intro k op hk
      rw [List.getElem?_nil] at hk
      cases hk
    | cons op0 rest0 =>
      obtain ⟨l0, r0, hshape, hF, hstrict⟩ := linesOK_shape C P u hlines op0 rest0 hops0
      rw [hops0] at hshape
      rw [hshape, findlinestarts_roundtrip u.firstlineno l0 r0 hF hstrict, ← hshape]
      intro k op hk
      have hres := annotsFrom_lookup C P (op0 :: rest0) (op0 :: rest0) 0 rfl k op
        (by omega) hk
      simpa using hres
  unfold from_code
  simp only [Bind.bind, Except.bind]
  have hdl := decodeLoop_from C P u.ops (encOut C u P d)
    (findlinestarts (encOut C u P d).lnotab (encOut C u P d).firstlineno)
    rfl rfl rfl rfl rfl rfl hwf hsym hsmall hjumps u.ops 0 rfl ⟨[], [], [], []⟩
    ((encOut C u P d).code.length + 1) (by omega)
  rw [addrOf_zero] at hdl
  obtain ⟨fv, cv, hdl2⟩ := hdl
  rw [hdl2]
  simp only [List.nil_append]
  have htab : ∀ k, k < u.ops.length →
      (tableFrom C P u.ops u.ops 0).lookup (addrOf C P u.ops k) =
        some (addrOf C P u.ops k) :=
    fun k hk => tableFrom_lookup C P u.ops u.ops 0 rfl k (by omega) hk
  have hres := resolve_decoded C P u.ops
    (findlinestarts (encOut C u P d).lnotab (encOut C u P d).firstlineno)
    (tableFrom C P u.ops u.ops 0) hwf hjumps htab u.ops 0 rfl
  rw [hres]
  simp only
  have hbase : P.varnames =
      ((u.args ++ u.kwonlyargs ++ truthyList u.vararg ++ truthyList u.varkwarg)) ++
        (E2 ++ evn) := by
    rw [hevn, hE2, List.append_assoc]
  have hview : viewOps (decodedFrom C P u.ops
      (findlinestarts (encOut C u P d).lnotab (encOut C u P d).firstlineno)
      u.ops 0) = viewOps u.ops := by
    unfold viewOps
    exact viewGo_roundtrip C P u.ops _ hwf hjumps hline u.ops 0 rfl
  have hflag4 : (encOut C u P d).flags &&& 4 = if truthyStr u.vararg then 4 else 0 :=
    calcFlags_and4 C u
  have hflag8 : (encOut C u P d).flags &&& 8 = if truthyStr u.varkwarg then 8 else 0 :=
    calcFlags_and8 C u
  have hidx1 : (encOut C u P d).argcount + (encOut C u P d).kwonlyargcount =
      u.args.length + u.kwonlyargs.length := by
    show coArgcount u + u.kwonlyargs.length = _
    rw [hac]
  by_cases htv : truthyStr u.vararg
  · have htvl : truthyList u.vararg = [u.vararg.getD ""] := by
      simp [truthyList, htv]
    have hvlook : (encOut C u P d).varnames[(encOut C u P d).argcount +
        (encOut C u P d).kwonlyargcount]? = some (u.vararg.getD "") := by
      show P.varnames[(encOut C u P d).argcount + (encOut C u P d).kwonlyargcount]? = _
      rw [hidx1, hbase, htvl]
      rw [List.getElem?_append_left (by
        simp only [List.length_append, htvl, List.length_cons]
        omega)]
      rw [List.getElem?_append_left (by
        simp only [List.length_append, List.length_cons]
        omega)]
      rw [show u.args.length + u.kwonlyargs.length =
        (u.args ++ u.kwonlyargs).length by simp]
      rw [getElem?_append_len0]
      rfl
    rw [hflag4]
    rw [if_pos (by simp [htv])]
    rw [hvlook]
    simp only [Bind.bind, Except.bind]
    by_cases htw : truthyStr u.varkwarg
    · have htwl : truthyList u.varkwarg = [u.varkwarg.getD ""] := by
        simp [truthyList, htw]
      have hwlook : (encOut C u P d).varnames[(encOut C u P d).argcount +
          (encOut C u P d).kwonlyargcount + 1]? = some (u.varkwarg.getD "") := by
        show P.varnames[(encOut C u P d).argcount +
          (encOut C u P d).kwonlyargcount + 1]? = _
        rw [hidx1, hbase, htvl, htwl]
        rw [List.getElem?_append_left (by
          simp only [List.length_append, List.length_cons, List.length_nil]
          omega)]
        rw [show u.args.length + u.kwonlyargs.length + 1 =
          (u.args ++ u.kwonlyargs ++ [u.vararg.getD ""]).length by
            simp only [List.length_append, List.length_cons, List.length_nil]
            try omega]
        rw [getElem?_append_len0]
        rfl
      rw [hflag8]
      rw [if_pos (by simp [htw])]
      rw [hwlook]
      simp only [Bind.bind, Except.bind]
      exact ⟨_, rfl, hview⟩
    · rw [hflag8]
      rw [if_neg (by simp [htw])]
      try simp only [Bind.bind, Except.bind]
      exact ⟨_, rfl, hview⟩
  · have htvl : truthyList u.vararg = [] := by
      simp [truthyList, htv]
    rw [hflag4]
    rw [if_neg (by simp [htv])]
    try simp only [Bind.bind, Except.bind]
    by_cases htw : truthyStr u.varkwarg
    · have htwl : truthyList u.varkwarg = [u.varkwarg.getD ""] := by
        simp [truthyList, htw]
      have hwlook : (encOut C u P d).varnames[(encOut C u P d).argcount +
          (encOut C u P d).kwonlyargcount]? = some (u.varkwarg.getD "") := by
        show P.varnames[(encOut C u P d).argcount +
          (encOut C u P d).kwonlyargcount]? = _
        rw [hidx1, hbase, htvl, htwl]
        rw [List.getElem?_append_left (by
          simp only [List.length_append, List.length_cons, List.length_nil]
          omega)]
        rw [show u.args.length + u.kwonlyargs.length =
          (u.args ++ u.kwonlyargs ++ ([] : List String)).length by simp]
        rw [getElem?_append_len0]
        rfl
      rw [hflag8]
      rw [if_pos (by simp [htw])]
      rw [hwlook]
      simp only [Bind.bind, Except.bind]
      exact ⟨_, rfl, hview⟩
    · rw [hflag8]
      rw [if_neg (by simp [htw])]
      try simp only [Bind.bind, Except.bind]
      exact ⟨_, rfl, hview⟩

/-- **C1 (counterexample to the original claim).**  The original claim
promises a successful round trip for every code unit whose jumps fit in
16 bits.  `c1BadUnit` has no jump instructions at all, so that hypothesis
holds vacuously, yet `from_code (to_code c1BadUnit)` is not a code unit:
encoding already aborts with the imbalanced-stack error raised by the
stack-depth analysis `to_code` runs first, so the composition yields an
error, not a unit with matching opcodes, operands and annotations. -/
theorem c1_counterexample :
    (to_code pyCatalog c1BadUnit).bind (from_code pyCatalog) =
      .error .imbalancedStack := by decide

/-- Closed witness for the amended round trip: on the concrete unit
`c1Unit` (a constant load, an in-range absolute jump and a return, with
strictly increasing line annotations) all hypotheses of `c1_amended` hold
by evaluation and the round trip preserves the instruction view. -/
theorem c1_amended_witness :
    ∃ c, (to_code pyCatalog c1Unit).bind (from_code pyCatalog) = .ok c ∧
      viewOps c.ops = viewOps c1Unit.ops :=
  c1_amended pyCatalog c1Unit c1Pools (by decide) (by decide) (by decide)
    (by decide) (by decide) (by decide) ⟨1, by decide⟩ (by decide)

end PyCode